import Mathlib

/-!
# Canonical Huffman coder: embedding of `huffman.h` / `huffman.cpp`

Modelling conventions.

* A `char` is its integer value, of type `Int`; `'\0'` is `0`.  All the
  comparisons the program makes on symbols are comparisons of these values.
* `int` counters (`frequency`, `combinedFreq`, code lengths) are natural
  numbers: they start at `0`, only grow, and are bounded by the length of the
  text, so they are exact for every text shorter than `2 ^ 31`.  From `2 ^ 31`
  on the `int` arithmetic of the program overflows and the model no longer
  describes it: every statement below that depends on the value of a count or
  of a sum of counts carries the hypothesis `text.length < 2 ^ 31` (for a
  table, that its counts add up to less than `2 ^ 31`).
* `unsigned long long currentCode` is a natural number reduced modulo `2 ^ 64`
  after every increment and shift.
* `std::string` is `List Char`.
* `std::map<char, V>` is an association list kept in ascending key order;
  `operator[]` on a missing key inserts a value-initialised entry.
* `std::unordered_map<char, int>` is an association list in first-insertion
  order.  Its iteration order is unspecified in C++ and depends on the history
  of the container (a cleared map keeps its bucket array); nothing proved
  below relies on it.  The order only decides in which order `buildTree`
  pushes the leaves, and so which of several nodes that compare equal the
  queue returns: this is covered by the choice sequence `tie` described below,
  which no statement assumes to be the same in two runs unless it says so.
* `Node*` is the inductive type `Node`, `nullptr` being `Node.null`.
* `std::priority_queue<Node*, std::vector<Node*>, CompareNodes>` is a list of
  nodes.  `top()` may return any element that `CompareNodes` does not place
  below another element; which one it is when several compare equal is left
  open by the C++ standard, so it is resolved by an explicit choice sequence
  `tie : Nat → Nat` (the `k`-th removal uses `tie k`).  Every behaviour of a
  conforming queue is obtained for some `tie`, but not every `tie` is the
  behaviour of a given library: statements are therefore made for all `tie`,
  and a statement about one `tie` is made only for one that records the
  removals of the binary heap of `std::priority_queue`.
-/

namespace HuffmanCanonical

/-- The input `std::string`, as the list of the values of its `char`s. -/
abbrev Text := List Int

/-- A `std::string` of `'0'` / `'1'` characters. -/
abbrev Bits := List Char

/-! ## `struct Node` -/

/-- A `Node*`: either `nullptr` or a node with its four fields. -/
inductive Node where
  | null : Node
  | node (symbol : Int) (frequency : Nat) (left right : Node) : Node
  deriving DecidableEq, Repr

namespace Node

/-- The field `symbol` (never read through a null pointer by the program). -/
def symbol : Node → Int
  | null => 0
  | node s _ _ _ => s

/-- The field `frequency` (never read through a null pointer by the program). -/
def frequency : Node → Nat
  | null => 0
  | node _ f _ _ => f

/-- The field `left`. -/
def left : Node → Node
  | null => null
  | node _ _ l _ => l

/-- The field `right`. -/
def right : Node → Node
  | null => null
  | node _ _ _ r => r

/-- Constructor `Node(char symbol, int frequency)`. -/
def leaf (symbol : Int) (frequency : Nat) : Node :=
  node symbol frequency null null

/-- Constructor `Node(int frequency, Node* left, Node* right)`; the symbol is `'\0'`. -/
def internal (frequency : Nat) (left right : Node) : Node :=
  node 0 frequency left right

end Node

/-- The comparator `CompareNodes::operator()`. -/
def CompareNodes (a b : Node) : Bool :=
  if a.frequency ≠ b.frequency then
    decide (a.frequency > b.frequency)
  else
    decide (a.symbol > b.symbol)

/-! ## Containers -/

/-- A `std::map<char, V>`: association list in ascending key order. -/
abbrev CharMap (V : Type) := List (Int × V)

namespace CharMap

/-- The lookup `m.find(k)`. -/
def get? {V : Type} : CharMap V → Int → Option V
  | [], _ => none
  | (k', v) :: rest, k => if k = k' then some v else get? rest k

/-- The assignment `m[k] = v`: overwrite the entry of `k`, or insert it at its
place in key order. -/
def set {V : Type} : CharMap V → Int → V → CharMap V
  | [], k, v => [(k, v)]
  | (k', v') :: rest, k, v =>
    if k < k' then (k, v) :: (k', v') :: rest
    else if k = k' then (k, v) :: rest
    else (k', v') :: set rest k v

end CharMap

/-- The statement `frequencies[c]++` on the `std::unordered_map<char, int>`.  The
count is a natural number: it is the `int` of the program as long as that is
below `2 ^ 31`. -/
def incrementCount : List (Int × Nat) → Int → List (Int × Nat)
  | [], c => [(c, 1)]
  | (k, n) :: rest, c =>
    if k = c then (k, n + 1) :: rest else (k, n) :: incrementCount rest c

/-- The `std::priority_queue` of node pointers. -/
abbrev PriorityQueue := List Node

namespace PriorityQueue

/-- The method `push`. -/
def push (pq : PriorityQueue) (x : Node) : PriorityQueue := x :: pq

/-- The elements `top()` is allowed to return: those that `CompareNodes`
places below no element of the queue. -/
def candidates (pq : PriorityQueue) : List Node :=
  pq.filter (fun x => pq.all (fun y => !CompareNodes x y))

/-- The method `top()`, the choice among candidates being made by `choice`.
On an empty queue (undefined behaviour in C++) the model returns `null`. -/
def top (choice : Nat) (pq : PriorityQueue) : Node :=
  (candidates pq).getD (choice % (candidates pq).length) Node.null

/-- The method `pop()` after `top()` returned `x`: `x` leaves the queue. -/
def pop (pq : PriorityQueue) (x : Node) : PriorityQueue := pq.erase x

end PriorityQueue

/-! ## `class Huffman` -/

/-- The data members of `class Huffman`. -/
structure Huffman where
  frequencies : List (Int × Nat)
  root : Node
  huffmanCodes : CharMap Bits
  codeLengths : CharMap Nat
  canonicalCodes : CharMap Bits
  compressedData : Bits
  deriving DecidableEq, Repr

namespace Huffman

/-- The constructor `Huffman::Huffman()`. -/
def new : Huffman :=
  { frequencies := [], root := Node.null, huffmanCodes := [], codeLengths := [],
    canonicalCodes := [], compressedData := [] }

/-- The method `Huffman::clear`: it resets every data member.  The bucket array
that the cleared `frequencies` keeps is not a data member of the model; what it
can change in the next run, the order in which the leaves are pushed, is
covered by the choice sequence `tie` of that run. -/
def clear (_h : Huffman) : Huffman :=
  { frequencies := [], root := Node.null, huffmanCodes := [], codeLengths := [],
    canonicalCodes := [], compressedData := [] }

/-- The method `Huffman::calculateFrequencies`. -/
def calculateFrequencies (h : Huffman) (text : Text) : Huffman :=
  { h with frequencies := text.foldl incrementCount h.frequencies }

/-- The loop `while (pq.size() > 1)` of `buildTree`; `k` counts the removals
made so far, `fuel` bounds the number of iterations (each one shortens the
queue by one, so the queue length is always enough).  The sum `combinedFreq` is
a natural number: it is the `int` of the program as long as the counts of the
table add up to less than `2 ^ 31`. -/
def mergeLoop (tie : Nat → Nat) : Nat → Nat → PriorityQueue → PriorityQueue
  | 0, _, pq => pq
  | fuel + 1, k, pq =>
    if pq.length > 1 then
      let left := pq.top (tie k)
      let pq1 := pq.pop left
      let right := pq1.top (tie (k + 1))
      let pq2 := pq1.pop right
      let combinedFreq := left.frequency + right.frequency
      let internalNode := Node.internal combinedFreq left right
      mergeLoop tie fuel (k + 2) (pq2.push internalNode)
    else pq

/-- The priority queue after the first loop of `buildTree`: one leaf per entry
of the frequency table, pushed in iteration order. -/
def initialQueue (frequencies : List (Int × Nat)) : PriorityQueue :=
  frequencies.foldl (fun pq p => pq.push (Node.leaf p.1 p.2)) []

/-- The method `Huffman::buildTree`. -/
def buildTree (tie : Nat → Nat) (h : Huffman) : Huffman :=
  let pq := initialQueue h.frequencies
  if pq.length = 1 then
    let leaf := pq.top (tie 0)
    { h with root := Node.internal leaf.frequency leaf Node.null }
  else
    let pq1 := mergeLoop tie pq.length 0 pq
    { h with root := pq1.top (tie (2 * (pq.length - 1))) }

/-- The method `Huffman::generateCodes`. -/
def generateCodes : Node → Bits → Huffman → Huffman
  | Node.null, _, h => h
  | Node.node symbol _ left right, code, h =>
    if left = Node.null ∧ right = Node.null then
      if code.isEmpty then
        { h with huffmanCodes := h.huffmanCodes.set symbol ['0'],
                 codeLengths := h.codeLengths.set symbol 1 }
      else
        { h with huffmanCodes := h.huffmanCodes.set symbol code,
                 codeLengths := h.codeLengths.set symbol code.length }
    else
      generateCodes right (code ++ ['1']) (generateCodes left (code ++ ['0']) h)

/-- The order `operator<` gives to `std::pair<int, char>`, as a non-strict
relation: first component, then second. -/
def pairLE (a b : Nat × Int) : Prop :=
  a.1 < b.1 ∨ (a.1 = b.1 ∧ a.2 ≤ b.2)

instance : DecidableRel pairLE := fun a b => by
  unfold pairLE
  exact inferInstance

/-- The loop `for (int i = 0; i < currentLength; ++i)` that prepends the low
bits of `tempCode` to `binaryCode`. -/
def renderLoop : Nat → Nat → Bits → Bits
  | 0, _, binaryCode => binaryCode
  | n + 1, tempCode, binaryCode =>
    renderLoop n (tempCode / 2) ((if tempCode % 2 = 0 then '0' else '1') :: binaryCode)

/-- The rendering of `currentCode` on `currentLength` characters (both loops at
the end of the body of the main loop of `generateCanonicalCodes`). -/
def renderCode (currentCode currentLength : Nat) : Bits :=
  let binaryCode := renderLoop currentLength currentCode []
  List.replicate (currentLength - binaryCode.length) '0' ++ binaryCode

/-- The loop state of `generateCanonicalCodes`. -/
structure CanonState where
  currentCode : Nat
  currentLength : Nat
  canonicalCodes : CharMap Bits

/-- The update of `currentCode` and `currentLength` at the head of the body of
the main loop of `generateCanonicalCodes`, for a symbol of length `length`.
The shift is exact for a shift count below 64 (a larger one is undefined
behaviour in C++). -/
def advance (currentCode currentLength length : Nat) : Nat × Nat :=
  if currentLength = 0 then
    (currentCode, length)
  else
    let currentCode := (currentCode + 1) % 2 ^ 64
    if length > currentLength then
      ((currentCode * 2 ^ (length - currentLength)) % 2 ^ 64, length)
    else
      (currentCode, currentLength)

/-- One iteration of the main loop of `generateCanonicalCodes`. -/
def canonStep (st : CanonState) (pair : Nat × Int) : CanonState :=
  let length := pair.1
  let symbol := pair.2
  let st1 := advance st.currentCode st.currentLength length
  { currentCode := st1.1, currentLength := st1.2,
    canonicalCodes := st.canonicalCodes.set symbol (renderCode st1.1 st1.2) }

/-- The vector `sortedSymbols` of `generateCanonicalCodes` after `std::sort`. -/
def sortedSymbols (codeLengths : CharMap Nat) : List (Nat × Int) :=
  (codeLengths.map (fun p => (p.2, p.1))).insertionSort pairLE

/-- The method `Huffman::generateCanonicalCodes`. -/
def generateCanonicalCodes (h : Huffman) : Huffman :=
  let final := (sortedSymbols h.codeLengths).foldl canonStep
    { currentCode := 0, currentLength := 0, canonicalCodes := h.canonicalCodes }
  { h with canonicalCodes := final.canonicalCodes }

/-- The statement `compressedData += canonicalCodes[c]`: a missing key is
inserted with the empty string, which is then appended. -/
def appendCode (h : Huffman) (c : Int) : Huffman :=
  match h.canonicalCodes.get? c with
  | some code => { h with compressedData := h.compressedData ++ code }
  | none => { h with canonicalCodes := h.canonicalCodes.set c [],
                     compressedData := h.compressedData ++ [] }

/-- The method `Huffman::compressText`. -/
def compressText (h : Huffman) (text : Text) : Huffman :=
  text.foldl appendCode h

/-- What a call of `run` leaves behind: the object, and the line written to
`std::cerr` if any. -/
structure RunResult where
  state : Huffman
  cerr : Option String

/-- The object after `buildTree` and `generateCodes(root, "")`. -/
def treeCoded (tie : Nat → Nat) (h : Huffman) : Huffman :=
  let h2 := h.buildTree tie
  generateCodes h2.root [] h2

/-- The object after the first stages of `run`: `clear`,
`calculateFrequencies`, `buildTree` and `generateCodes(root, "")`. -/
def coded (tie : Nat → Nat) (h : Huffman) (text : Text) : Huffman :=
  let h0 := h.clear
  let h1 := h0.calculateFrequencies text
  treeCoded tie h1

/-- The object after the fourth stage, `generateCanonicalCodes`. -/
def canonicalized (tie : Nat → Nat) (h : Huffman) (text : Text) : Huffman :=
  (coded tie h text).generateCanonicalCodes

/-- The object after the fifth stage, `compressText` (the sixth,
`displayResults`, only prints). -/
def pipeline (tie : Nat → Nat) (h : Huffman) (text : Text) : Huffman :=
  (canonicalized tie h text).compressText text

/-- The method `Huffman::run`. -/
def run (tie : Nat → Nat) (h : Huffman) (text : Text) : RunResult :=
  if text.length < 30 then
    { state := h, cerr := some "Error: Input text must be at least 30 characters long." }
  else
    { state := pipeline tie h text, cerr := none }

end Huffman

/-- The characters of a string literal as symbols. -/
def toText (s : String) : Text := s.toList.map (fun c => (c.toNat : Int))

/-! ## The test inputs of `main` -/

/-- The string `test_spaces` of `main`. -/
def test_spaces : Text :=
  toText "este es un texto de prueba con muchos espacios para el algoritmo"

/-- The string `test_few_symbols` of `main`. -/
def test_few_symbols : Text :=
  toText "aaaaaaaaaabbbbbbbbbbccccccccccdddddddddd"

/-- The string `test_uniform` of `main`. -/
def test_uniform : Text :=
  toText "abcdefghijklmnopqrstuvwxyz0123456789.,!?"

end HuffmanCanonical

/-! ## Specification vocabulary -/

namespace HuffmanCanonical

/-- An element `top()` may return: in the queue, and placed by `CompareNodes`
below no element of the queue. -/
def IsTop (pq : PriorityQueue) (x : Node) : Prop :=
  x ∈ pq ∧ ∀ y ∈ pq, CompareNodes x y = false

end HuffmanCanonical

namespace HuffmanCanonical

namespace Node

/-- The leaves of a tree from left to right, each with its symbol and frequency
(a leaf is a node whose two children are null, as tested by `generateCodes`). -/
def leaves : Node → List (Int × Nat)
  | null => []
  | node s f l r =>
    if l = null ∧ r = null then [(s, f)] else leaves l ++ leaves r

/-- The leaves of a tree from left to right, each with its symbol and its depth
when the root of the tree is at depth `d`. -/
def depths : Node → Nat → List (Int × Nat)
  | null, _ => []
  | node s _ l r, d =>
    if l = null ∧ r = null then [(s, d)] else depths l (d + 1) ++ depths r (d + 1)

/-- The leaves of a tree from left to right, each with its symbol and the path
that leads to it (`'0'` for a step to the left, `'1'` for a step to the right)
appended to `code`. -/
def paths : Node → Bits → List (Int × Bits)
  | null, _ => []
  | node s _ l r, code =>
    if l = null ∧ r = null then [(s, code)]
    else paths l (code ++ ['0']) ++ paths r (code ++ ['1'])

/-- Every node of the tree is a leaf or has two children. -/
inductive Full : Node → Prop
  | leaf (s : Int) (f : Nat) : Full (node s f null null)
  | inner (s : Int) (f : Nat) (l r : Node) : Full l → Full r → Full (node s f l r)

/-- Every node that is not a leaf carries the sum of the frequencies of its
children (an absent child counts for nothing). -/
def SumOK : Node → Prop
  | null => True
  | node _ f l r =>
    (l = null ∧ r = null) ∨ (f = l.frequency + r.frequency ∧ SumOK l ∧ SumOK r)

/-- The number of edges on the longest path from the node down to a leaf. -/
def height : Node → Nat
  | null => 0
  | node _ _ l r =>
    if l = null ∧ r = null then 0 else max (height l) (height r) + 1

/-- The weighted path length of a tree: the sum over its leaves of frequency
times depth, the root being at depth `d`. -/
def cost : Node → Nat → Nat
  | null, _ => 0
  | node _ f l r, d =>
    if l = null ∧ r = null then f * d else cost l (d + 1) + cost r (d + 1)

end Node

end HuffmanCanonical

namespace HuffmanCanonical

/-- The leaves of all the trees of a queue. -/
def forestLeaves (pq : PriorityQueue) : List (Int × Nat) :=
  pq.flatMap Node.leaves

end HuffmanCanonical

namespace HuffmanCanonical

/-- The keys of a map are in strictly ascending order. -/
def CharMap.Ordered {V : Type} (m : CharMap V) : Prop :=
  (m.map Prod.fst).Pairwise (· < ·)

/-- What `generateCodes` does at a leaf with symbol `p.1` reached with the
non-empty code `p.2`. -/
def Huffman.record (h : Huffman) (p : Int × Bits) : Huffman :=
  { h with huffmanCodes := h.huffmanCodes.set p.1 p.2,
           codeLengths := h.codeLengths.set p.1 p.2.length }

end HuffmanCanonical

namespace HuffmanCanonical

/-- The Kraft sum of a code-length table: the sum over its entries of
`2 ^ (-length)`. -/
def kraftSum (m : CharMap Nat) : ℚ :=
  (m.map (fun p => (1 / 2 : ℚ) ^ p.2)).sum

/-- The `n` low bits of `v`, most significant first, as `'0'` / `'1'` characters. -/
def bitsMSB : Nat → Nat → Bits
  | 0, _ => []
  | n + 1, v => bitsMSB n (v / 2) ++ [if v % 2 = 0 then '0' else '1']

/-- The reference rendering of the specification: the string of exactly `len`
characters whose `i`-th character is the bit of weight `2 ^ (len - 1 - i)` of `v`. -/
def referenceBits (len v : Nat) : Bits :=
  (List.range len).map (fun i => if v.testBit (len - 1 - i) then '1' else '0')

/-- The reference canonical code value of a symbol of length `l` that comes
after the symbols `pre` in (length, symbol) order: the sum over the earlier
symbols of `2 ^ (l - their length)`. -/
def refValue (pre : List (Nat × Int)) (l : Nat) : Nat :=
  (pre.map (fun p => 2 ^ (l - p.1))).sum

/-- The (symbol, code) pairs the main loop of `generateCanonicalCodes` assigns,
in order, from the loop state `currentCode`, `currentLength`. -/
def assigned : Nat → Nat → List (Nat × Int) → List (Int × Bits)
  | _, _, [] => []
  | c, l, x :: xs =>
    (x.2, Huffman.renderCode (Huffman.advance c l x.1).1 (Huffman.advance c l x.1).2) ::
      assigned (Huffman.advance c l x.1).1 (Huffman.advance c l x.1).2 xs

/-- Neither code is a prefix of the other. -/
def Unrelated (a b : Bits) : Prop :=
  ¬ a <+: b ∧ ¬ b <+: a

end HuffmanCanonical

namespace HuffmanCanonical

/-- The loop state (`currentCode`, `currentLength`) of `generateCanonicalCodes`
after the symbols of `pre` have been processed from the state `cur`. -/
def runAdvance (cur : Nat × Nat) (pre : List (Nat × Int)) : Nat × Nat :=
  pre.foldl (fun c p => Huffman.advance c.1 c.2 p.1) cur

/-- The Kraft sum of a list of (length, symbol) pairs scaled by `2 ^ 64`. -/
def scaledKraft (l : List (Nat × Int)) : Nat :=
  (l.map (fun p => 2 ^ (64 - p.1))).sum

end HuffmanCanonical

namespace HuffmanCanonical

namespace Node

/-- The larger of the frequencies of the two children (`0` for a leaf). -/
def maxChild : Node → Nat
  | null => 0
  | node _ _ l r => max l.frequency r.frequency

/-- The sibling property of the trees the merge loop builds: at every node that
is not a leaf, each child weighs at least as much as either child of the
other child. -/
def Good : Node → Prop
  | null => True
  | node _ _ l r =>
    (l = null ∧ r = null) ∨
      (Good l ∧ Good r ∧ maxChild l ≤ r.frequency ∧ maxChild r ≤ l.frequency)

end Node

end HuffmanCanonical

namespace HuffmanCanonical

/-- The concatenation, in order, of the codes a table gives to the symbols of
`s` (a symbol without entry contributes nothing). -/
def encode (table : CharMap Bits) (s : Text) : Bits :=
  s.flatMap (fun c => (table.get? c).getD [])

end HuffmanCanonical

namespace HuffmanCanonical

/-- The weighted length of an assignment of lengths to the trees of a queue:
the sum of frequency times length. -/
def assignCost (A : List (Node × Nat)) : Nat :=
  (A.map (fun p => p.1.frequency * p.2)).sum

/-- The Kraft sum of an assignment of lengths to the trees of a queue. -/
def assignKraft (A : List (Node × Nat)) : ℚ :=
  (A.map (fun p => (1 / 2 : ℚ) ^ p.2)).sum

/-- The sum of the weighted path lengths of the trees of a queue. -/
def forestCost (pq : PriorityQueue) : Nat :=
  (pq.map (fun t => t.cost 0)).sum

end HuffmanCanonical

namespace HuffmanCanonical
open Huffman

/-- The order of `std::pair<int, char>` is total. -/
instance pairLE_isTotal : IsTotal (Nat × Int) pairLE :=
  ⟨fun a b => by unfold pairLE; omega⟩

/-- The order of `std::pair<int, char>` is transitive. -/
instance pairLE_isTrans : IsTrans (Nat × Int) pairLE :=
  ⟨fun a b c => by unfold pairLE; omega⟩

/-- The order of `std::pair<int, char>` is antisymmetric. -/
instance pairLE_isAntisymm : IsAntisymm (Nat × Int) pairLE :=
  ⟨fun a b h1 h2 => by
    unfold pairLE at h1 h2
    apply Prod.ext <;> omega⟩

end HuffmanCanonical

namespace HuffmanCanonical

/-- The code-length table that `buildTree` and `generateCodes(root, "")` produce
for a frequency table, on an object whose code tables are empty. -/
def codeLengthsOf (tie : Nat → Nat) (fs : List (Int × Nat)) : CharMap Nat :=
  (Huffman.treeCoded tie { Huffman.new with frequencies := fs }).codeLengths

end HuffmanCanonical

namespace HuffmanCanonical

/-- The integer value of a string of `'0'` / `'1'` characters read as a binary
numeral, most significant bit first. -/
def bitsValue (b : Bits) : Nat :=
  b.foldl (fun acc c => 2 * acc + (if c = '1' then 1 else 0)) 0

end HuffmanCanonical

namespace HuffmanCanonical

/-- The removals the queue makes in `run(test_uniform)` on a freshly constructed
object, recorded as choices among the candidates of the model: the `k`-th
removal takes the candidate of index `firstRunChoices k`.  They are the
removals of the binary heap of `std::priority_queue` (`std::push_heap`,
`std::pop_heap`) when the leaves are pushed in the iteration order of a
`std::unordered_map` that has grown from 1 through 13 and 29 to 59 buckets
while the forty characters were inserted.  The first forty removals take
leaves, which `CompareNodes` orders strictly; the others take internal nodes,
among which it orders only by frequency. -/
def firstRunChoices : Nat → Nat := fun k =>
  ([0, 0, 0, 0, 0, 0, 0, 0, 0, 0, 0, 0, 0, 0, 0, 0, 0, 0, 0, 0,
    0, 0, 0, 0, 0, 0, 0, 0, 0, 0, 0, 0, 0, 0, 0, 0, 0, 0, 0, 0,
    11, 15, 1, 13, 0, 2, 2, 9, 4, 2, 5, 8, 1, 2, 0, 0, 0, 1, 1, 0,
    9, 8, 1, 0, 1, 3, 0, 0, 0, 0, 3, 1, 0, 1, 0, 1] : List Nat).getD k 0

/-- The removals the queue makes in a second `run(test_uniform)` on the same
object: `clear` has emptied `frequencies`, which keeps its 59 buckets, so the
forty characters are inserted without rehashing and are iterated, and pushed,
in another order than in the first run. -/
def secondRunChoices : Nat → Nat := fun k =>
  ([0, 0, 0, 0, 0, 0, 0, 0, 0, 0, 0, 0, 0, 0, 0, 0, 0, 0, 0, 0,
    0, 0, 0, 0, 0, 0, 0, 0, 0, 0, 0, 0, 0, 0, 0, 0, 0, 0, 0, 0,
    9, 3, 1, 12, 0, 14, 3, 4, 5, 2, 3, 6, 3, 6, 2, 0, 2, 2, 0, 0,
    9, 8, 1, 0, 1, 3, 0, 0, 0, 0, 3, 1, 0, 1, 0, 1] : List Nat).getD k 0

end HuffmanCanonical

/-! ## The priority queue -/

namespace HuffmanCanonical

theorem compareNodes_iff (a b : Node) :
    CompareNodes a b = true ↔
      (b.frequency < a.frequency ∨ (b.frequency = a.frequency ∧ b.symbol < a.symbol)) := by
  unfold CompareNodes
  split_ifs with h
  · simp only [decide_eq_true_eq]
    constructor
    · intro h1; exact Or.inl h1
    · rintro (h1 | ⟨h1, _⟩)
      · exact h1
      · exact absurd h1.symm h
  · simp only [decide_eq_true_eq]
    push_neg at h
    constructor
    · intro h1; exact Or.inr ⟨h.symm, h1⟩
    · rintro (h1 | ⟨_, h1⟩)
      · omega
      · exact h1

theorem exists_isTop : ∀ (pq : PriorityQueue), pq ≠ [] → ∃ x, IsTop pq x
  | [], h => absurd rfl h
  | [x], _ => by
    refine ⟨x, List.mem_singleton_self x, ?_⟩
    intro y hy
    rw [List.mem_singleton] at hy
    subst hy
    cases hc : CompareNodes y y
    · rfl
    · rw [compareNodes_iff] at hc; omega
  | x :: y :: rest, _ => by
    obtain ⟨m, hm, hmin⟩ := exists_isTop (y :: rest) (by simp)
    cases hc : CompareNodes m x
    · refine ⟨m, List.mem_cons_of_mem _ hm, ?_⟩
      intro z hz
      rcases List.mem_cons.mp hz with rfl | hz
      · exact hc
      · exact hmin z hz
    · refine ⟨x, List.mem_cons_self _ _, ?_⟩
      intro z hz
      rw [compareNodes_iff] at hc
      cases hz2 : CompareNodes x z
      · rfl
      · rw [compareNodes_iff] at hz2
        rcases List.mem_cons.mp hz with rfl | hz
        · omega
        · have := hmin z hz
          have hn : ¬ (CompareNodes m z = true) := by simp [this]
          rw [compareNodes_iff] at hn
          omega

theorem mem_candidates {pq : PriorityQueue} {x : Node} :
    x ∈ pq.candidates ↔ IsTop pq x := by
  unfold PriorityQueue.candidates IsTop
  simp [List.mem_filter, List.all_eq_true]

theorem top_isTop (choice : Nat) (pq : PriorityQueue) (h : pq ≠ []) :
    IsTop pq (pq.top choice) := by
  obtain ⟨m, hm⟩ := exists_isTop pq h
  have hne : pq.candidates ≠ [] := List.ne_nil_of_mem (mem_candidates.mpr hm)
  have hpos : 0 < pq.candidates.length := List.length_pos.mpr hne
  have hlt : choice % pq.candidates.length < pq.candidates.length := Nat.mod_lt _ hpos
  rw [← mem_candidates]
  unfold PriorityQueue.top
  rw [List.getD_eq_getElem _ _ hlt]
  exact List.getElem_mem _

end HuffmanCanonical
namespace HuffmanCanonical
open Huffman

theorem isTop_frequency_le {pq : PriorityQueue} {x : Node} (h : IsTop pq x) :
    ∀ y ∈ pq, x.frequency ≤ y.frequency := by
  intro y hy
  have h1 := h.2 y hy
  have h2 : ¬ (CompareNodes x y = true) := by simp [h1]
  rw [compareNodes_iff] at h2
  omega

/-- What one iteration of the merge loop removes from a queue of at least two nodes. -/
theorem merge_step_spec (c1 c2 : Nat) (pq : PriorityQueue) (h : 1 < pq.length) :
    IsTop pq (pq.top c1) ∧ IsTop (pq.pop (pq.top c1)) ((pq.pop (pq.top c1)).top c2) ∧
      List.Perm pq (pq.top c1 :: (pq.pop (pq.top c1)).top c2 ::
        (pq.pop (pq.top c1)).pop ((pq.pop (pq.top c1)).top c2)) := by
  have hne : pq ≠ [] := by
    intro h0; rw [h0] at h; simp at h
  have h1 := top_isTop c1 pq hne
  have hlen : (pq.pop (pq.top c1)).length = pq.length - 1 := List.length_erase_of_mem h1.1
  have hne2 : pq.pop (pq.top c1) ≠ [] := by
    intro h0; rw [h0] at hlen; simp at hlen; omega
  have h2 := top_isTop c2 _ hne2
  refine ⟨h1, h2, ?_⟩
  exact (List.perm_cons_erase h1.1).trans (List.Perm.cons _ (List.perm_cons_erase h2.1))

theorem mergeLoop_succ (tie : Nat → Nat) (fuel k : Nat) (pq : PriorityQueue) :
    mergeLoop tie (fuel + 1) k pq =
      if pq.length > 1 then
        mergeLoop tie fuel (k + 2)
          (Node.internal ((pq.top (tie k)).frequency +
              ((pq.pop (pq.top (tie k))).top (tie (k + 1))).frequency)
            (pq.top (tie k)) ((pq.pop (pq.top (tie k))).top (tie (k + 1))) ::
            (pq.pop (pq.top (tie k))).pop ((pq.pop (pq.top (tie k))).top (tie (k + 1))))
      else pq := rfl

/-- A property of the queue kept by every merge is kept by the whole loop. -/
theorem mergeLoop_invariant (tie : Nat → Nat) (P : PriorityQueue → Prop)
    (hstep : ∀ (pq : PriorityQueue) (l r : Node), P pq → IsTop pq l → IsTop (pq.pop l) r →
      P (Node.internal (l.frequency + r.frequency) l r :: (pq.pop l).pop r)) :
    ∀ (fuel k : Nat) (pq : PriorityQueue), P pq → P (mergeLoop tie fuel k pq) := by
  intro fuel
  induction fuel with
  | zero => intro k pq h; exact h
  | succ n ih =>
    intro k pq h
    rw [mergeLoop_succ]
    split_ifs with hlen
    · obtain ⟨h1, h2, _⟩ := merge_step_spec (tie k) (tie (k + 1)) pq hlen
      exact ih _ _ (hstep pq _ _ h h1 h2)
    · exact h

/-- With fuel at least the queue length, the loop ends on a one-element queue. -/
theorem mergeLoop_length (tie : Nat → Nat) :
    ∀ (fuel k : Nat) (pq : PriorityQueue), pq ≠ [] → pq.length ≤ fuel + 1 →
      (mergeLoop tie fuel k pq).length = 1 := by
  intro fuel
  induction fuel with
  | zero =>
    intro k pq hne hlen
    have : 0 < pq.length := List.length_pos.mpr hne
    show pq.length = 1
    omega
  | succ n ih =>
    intro k pq hne hlen
    rw [mergeLoop_succ]
    split_ifs with h1
    · obtain ⟨ha, hb, _⟩ := merge_step_spec (tie k) (tie (k + 1)) pq h1
      apply ih
      · simp
      · have e1 : (pq.pop (pq.top (tie k))).length = pq.length - 1 :=
          List.length_erase_of_mem ha.1
        have e2 : ((pq.pop (pq.top (tie k))).pop
            ((pq.pop (pq.top (tie k))).top (tie (k + 1)))).length =
            (pq.pop (pq.top (tie k))).length - 1 := List.length_erase_of_mem hb.1
        simp only [List.length_cons]
        omega
    · have : 0 < pq.length := List.length_pos.mpr hne
      omega

theorem initialQueue_eq (fs : List (Int × Nat)) :
    initialQueue fs = (fs.map (fun p => Node.leaf p.1 p.2)).reverse := by
  unfold initialQueue
  have aux : ∀ (l : List (Int × Nat)) (acc : PriorityQueue),
      l.foldl (fun pq p => PriorityQueue.push pq (Node.leaf p.1 p.2)) acc =
        (l.map (fun p => Node.leaf p.1 p.2)).reverse ++ acc := by
    intro l
    induction l with
    | nil => intro acc; rfl
    | cons x xs ih =>
      intro acc
      simp only [List.foldl_cons, List.map_cons, List.reverse_cons, List.append_assoc,
        List.singleton_append]
      rw [ih]
      rfl
  rw [aux]; simp

theorem initialQueue_length (fs : List (Int × Nat)) : (initialQueue fs).length = fs.length := by
  rw [initialQueue_eq]; simp

end HuffmanCanonical

/-! ## Maps -/

namespace HuffmanCanonical
open Huffman

namespace CharMap

variable {V : Type}

theorem get?_set_self (m : CharMap V) (k : Int) (v : V) : (m.set k v).get? k = some v := by
  induction m with
  | nil => simp [set, get?]
  | cons p rest ih =>
    obtain ⟨k', v'⟩ := p
    unfold set
    split_ifs with h1 h2
    · simp [get?]
    · simp [get?]
    · simp only [get?, if_neg h2]; exact ih

theorem get?_set_ne (m : CharMap V) {k k' : Int} (v : V) (h : k' ≠ k) :
    (m.set k v).get? k' = m.get? k' := by
  induction m with
  | nil => simp [set, get?, h]
  | cons p rest ih =>
    obtain ⟨k0, v0⟩ := p
    unfold set
    split_ifs with h1 h2
    · simp [get?, h]
    · subst h2; simp [get?, h]
    · simp only [get?, ih]

theorem keys_set_subset (m : CharMap V) (k : Int) (v : V) :
    ∀ x ∈ (m.set k v).map Prod.fst, x = k ∨ x ∈ m.map Prod.fst := by
  induction m with
  | nil => intro x hx; simp [set] at hx; exact Or.inl hx
  | cons p rest ih =>
    obtain ⟨k0, v0⟩ := p
    intro x hx
    unfold set at hx
    split_ifs at hx with h1 h2
    · simp only [List.map_cons, List.mem_cons] at hx ⊢
      tauto
    · simp only [List.map_cons, List.mem_cons] at hx ⊢
      subst h2; tauto
    · simp only [List.map_cons, List.mem_cons] at hx ⊢
      rcases hx with hx | hx
      · tauto
      · rcases ih x hx with h | h
        · exact Or.inl h
        · exact Or.inr (Or.inr h)

theorem ordered_nil : Ordered ([] : CharMap V) := List.Pairwise.nil

theorem Ordered.set {m : CharMap V} (hm : Ordered m) (k : Int) (v : V) :
    Ordered (m.set k v) := by
  induction m with
  | nil => simp [CharMap.set, Ordered]
  | cons p rest ih =>
    obtain ⟨k0, v0⟩ := p
    unfold Ordered at hm ⊢
    simp only [List.map_cons, List.pairwise_cons] at hm
    unfold CharMap.set
    split_ifs with h1 h2
    · simp only [List.map_cons, List.pairwise_cons, List.mem_cons]
      refine ⟨?_, hm.1, hm.2⟩
      rintro a (rfl | ha)
      · exact h1
      · have := hm.1 a ha; omega
    · subst h2
      simp only [List.map_cons, List.pairwise_cons]
      exact hm
    · simp only [List.map_cons, List.pairwise_cons]
      refine ⟨?_, ih hm.2⟩
      intro a ha
      rcases keys_set_subset rest k v a ha with h | h
      · omega
      · exact hm.1 a h

theorem Ordered.nodup {m : CharMap V} (hm : Ordered m) : (m.map Prod.fst).Nodup := by
  unfold Ordered at hm
  exact hm.imp (fun h => ne_of_lt h)

/-- Setting a key that the map does not hold adds one entry. -/
theorem set_perm (m : CharMap V) (k : Int) (v : V) (hk : k ∉ m.map Prod.fst) :
    (m.set k v).Perm ((k, v) :: m) := by
  induction m with
  | nil => simp [set]
  | cons p rest ih =>
    obtain ⟨k0, v0⟩ := p
    simp only [List.map_cons, List.mem_cons, not_or] at hk
    unfold set
    split_ifs with h1 h2
    · exact List.Perm.refl _
    · exact absurd h2 hk.1
    · exact (List.Perm.cons _ (ih hk.2)).trans (List.Perm.swap _ _ _)

theorem get?_eq_none_iff (m : CharMap V) (k : Int) :
    m.get? k = none ↔ k ∉ m.map Prod.fst := by
  induction m with
  | nil => simp [get?]
  | cons p rest ih =>
    obtain ⟨k0, v0⟩ := p
    simp only [get?, List.map_cons, List.mem_cons, not_or]
    split_ifs with h
    · simp [h]
    · simp [h, ih]

/-- In a map without repeated keys, every entry is found by its key. -/
theorem get?_of_mem (m : CharMap V) (hm : (m.map Prod.fst).Nodup) {k : Int} {v : V}
    (h : (k, v) ∈ m) : m.get? k = some v := by
  induction m with
  | nil => simp at h
  | cons p rest ih =>
    obtain ⟨k0, v0⟩ := p
    simp only [List.map_cons, List.nodup_cons] at hm
    rcases List.mem_cons.mp h with h1 | h1
    · cases h1; simp [get?]
    · have hne : k ≠ k0 := by
        rintro rfl
        exact hm.1 (List.mem_map.mpr ⟨(k, v), h1, rfl⟩)
      simp only [get?, if_neg hne]
      exact ih hm.2 h1

theorem mem_of_get? (m : CharMap V) {k : Int} {v : V} (h : m.get? k = some v) : (k, v) ∈ m := by
  induction m with
  | nil => simp [get?] at h
  | cons p rest ih =>
    obtain ⟨k0, v0⟩ := p
    simp only [get?] at h
    split_ifs at h with h1
    · cases h; subst h1; exact List.mem_cons_self _ _
    · exact List.mem_cons_of_mem _ (ih h)

/-- Filling an empty map from a list without repeated keys yields the entries
of the list, in key order. -/
theorem foldl_set_perm (ps : List (Int × V)) (hnd : (ps.map Prod.fst).Nodup) :
    ∀ (m : CharMap V), (∀ k ∈ ps.map Prod.fst, k ∉ m.map Prod.fst) →
      (ps.foldl (fun acc p => acc.set p.1 p.2) m).Perm (m ++ ps) := by
  induction ps with
  | nil => intro m _; simp
  | cons p rest ih =>
    intro m hm
    simp only [List.map_cons, List.nodup_cons] at hnd
    simp only [List.foldl_cons]
    have hp : p.1 ∉ m.map Prod.fst := hm p.1 (by simp)
    have h1 := set_perm m p.1 p.2 hp
    have hkeys : ∀ k ∈ rest.map Prod.fst, k ∉ (m.set p.1 p.2).map Prod.fst := by
      intro k hk hk2
      rcases keys_set_subset m p.1 p.2 k hk2 with h | h
      · subst h; exact hnd.1 hk
      · exact hm k (by simp [hk]) h
    refine (ih hnd.2 _ hkeys).trans ?_
    refine (List.Perm.append_right rest h1).trans ?_
    simp only [List.cons_append]
    exact (List.perm_middle).symm

theorem foldl_set_ordered (ps : List (Int × V)) :
    ∀ (m : CharMap V), Ordered m → Ordered (ps.foldl (fun acc p => acc.set p.1 p.2) m) := by
  induction ps with
  | nil => intro m hm; exact hm
  | cons p rest ih => intro m hm; exact ih _ (hm.set _ _)

end CharMap

end HuffmanCanonical

/-! ## The frequency table -/

namespace HuffmanCanonical
open Huffman

theorem incrementCount_keys (fs : List (Int × Nat)) (c : Int) :
    ∀ x, x ∈ (incrementCount fs c).map Prod.fst ↔ x = c ∨ x ∈ fs.map Prod.fst := by
  induction fs with
  | nil => intro x; simp [incrementCount]
  | cons p rest ih =>
    obtain ⟨k, n⟩ := p
    intro x
    unfold incrementCount
    split_ifs with h
    · subst h; simp
    · simp only [List.map_cons, List.mem_cons, ih]
      tauto

theorem incrementCount_nodup (fs : List (Int × Nat)) (c : Int)
    (h : (fs.map Prod.fst).Nodup) : ((incrementCount fs c).map Prod.fst).Nodup := by
  induction fs with
  | nil => simp [incrementCount]
  | cons p rest ih =>
    obtain ⟨k, n⟩ := p
    simp only [List.map_cons, List.nodup_cons] at h
    unfold incrementCount
    split_ifs with hk
    · simpa using h
    · simp only [List.map_cons, List.nodup_cons]
      refine ⟨?_, ih h.2⟩
      intro hmem
      rcases (incrementCount_keys rest c k).mp hmem with h1 | h1
      · exact hk h1
      · exact h.1 h1

theorem incrementCount_pos (fs : List (Int × Nat)) (c : Int)
    (h : ∀ p ∈ fs, 1 ≤ p.2) : ∀ p ∈ incrementCount fs c, 1 ≤ p.2 := by
  induction fs with
  | nil => intro p hp; simp [incrementCount] at hp; subst hp; simp
  | cons q rest ih =>
    obtain ⟨k, n⟩ := q
    intro p hp
    unfold incrementCount at hp
    split_ifs at hp with hk
    · rcases List.mem_cons.mp hp with rfl | hp
      · simp
      · exact h p (List.mem_cons_of_mem _ hp)
    · rcases List.mem_cons.mp hp with rfl | hp
      · exact h _ (List.mem_cons_self _ _)
      · exact ih (fun p hp => h p (List.mem_cons_of_mem _ hp)) p hp

theorem incrementCount_sum (fs : List (Int × Nat)) (c : Int) :
    ((incrementCount fs c).map Prod.snd).sum = (fs.map Prod.snd).sum + 1 := by
  induction fs with
  | nil => simp [incrementCount]
  | cons p rest ih =>
    obtain ⟨k, n⟩ := p
    unfold incrementCount
    split_ifs with hk
    · simp only [List.map_cons, List.sum_cons]; omega
    · simp only [List.map_cons, List.sum_cons, ih]; omega

theorem get?_incrementCount (fs : List (Int × Nat)) (c x : Int) :
    CharMap.get? (incrementCount fs c) x =
      if x = c then some ((CharMap.get? fs c).getD 0 + 1) else CharMap.get? fs x := by
  induction fs with
  | nil =>
    simp only [incrementCount, CharMap.get?]
    split_ifs <;> simp
  | cons p rest ih =>
    obtain ⟨k, n⟩ := p
    unfold incrementCount
    split_ifs with hk hx hx
    · subst hk; subst hx; simp [CharMap.get?]
    · subst hk; simp [CharMap.get?, hx]
    · subst hx
      have hk' : ¬ x = k := fun e => hk e.symm
      simp only [CharMap.get?, if_neg hk', ih, if_true]
    · simp only [CharMap.get?, ih, if_neg hx]

theorem get?_frequencies (text : Text) (x : Int) :
    CharMap.get? (text.foldl incrementCount []) x =
      if x ∈ text then some (text.count x) else none := by
  induction text using List.reverseRecOn with
  | nil => simp [CharMap.get?]
  | append_singleton xs c ih =>
    simp only [List.foldl_append, List.foldl_cons, List.foldl_nil, get?_incrementCount]
    split_ifs with h1 h2 h2
    · subst h1
      rw [ih]
      by_cases hm : x ∈ xs
      · simp [hm]
      · simp [hm, List.count_eq_zero_of_not_mem hm]
    · subst h1; simp at h2
    · rw [ih]
      have hm : x ∈ xs := by
        rcases List.mem_append.mp h2 with h | h
        · exact h
        · simp at h; exact absurd h h1
      simp [hm, List.count_singleton, h1]
    · rw [ih]
      have hm : x ∉ xs := fun h => h2 (List.mem_append_left _ h)
      simp [hm]

/-- The table `calculateFrequencies` builds from an empty one: no repeated key,
the keys are the characters of the text, every count is the number of
occurrences, and the counts add up to the length of the text. -/
theorem frequencies_spec (text : Text) :
    ((text.foldl incrementCount []).map Prod.fst).Nodup ∧
      (∀ x, x ∈ (text.foldl incrementCount []).map Prod.fst ↔ x ∈ text) ∧
      (∀ x n, (x, n) ∈ text.foldl incrementCount [] ↔ (x ∈ text ∧ n = text.count x)) ∧
      ((text.foldl incrementCount []).map Prod.snd).sum = text.length := by
  have hnd : ∀ t : Text, ((t.foldl incrementCount []).map Prod.fst).Nodup := by
    intro t
    induction t using List.reverseRecOn with
    | nil => simp
    | append_singleton xs c ih =>
      simp only [List.foldl_append, List.foldl_cons, List.foldl_nil]
      exact incrementCount_nodup _ _ ih
  have hsum : ∀ t : Text, ((t.foldl incrementCount []).map Prod.snd).sum = t.length := by
    intro t
    induction t using List.reverseRecOn with
    | nil => simp
    | append_singleton xs c ih =>
      simp only [List.foldl_append, List.foldl_cons, List.foldl_nil]
      rw [incrementCount_sum, ih]; simp
  have hentry : ∀ x n, (x, n) ∈ text.foldl incrementCount [] ↔
      (x ∈ text ∧ n = text.count x) := by
    intro x n
    constructor
    · intro h
      have h1 := CharMap.get?_of_mem _ (hnd text) h
      rw [get?_frequencies] at h1
      split_ifs at h1 with hm
      · cases h1; exact ⟨hm, rfl⟩
    · rintro ⟨hm, rfl⟩
      apply CharMap.mem_of_get?
      rw [get?_frequencies, if_pos hm]
  refine ⟨hnd text, ?_, hentry, hsum text⟩
  intro x
  constructor
  · intro h
    obtain ⟨p, hp, rfl⟩ := List.mem_map.mp h
    exact ((hentry p.1 p.2).mp hp).1
  · intro h
    exact List.mem_map.mpr ⟨(x, text.count x), (hentry _ _).mpr ⟨h, rfl⟩, rfl⟩

theorem frequencies_pos (text : Text) : ∀ p ∈ text.foldl incrementCount [], 1 ≤ p.2 := by
  intro p hp
  obtain ⟨x, n⟩ := p
  have h := ((frequencies_spec text).2.2.1 x n).mp hp
  rw [h.2]
  exact List.count_pos_iff.mpr h.1

theorem frequencies_length (text : Text) :
    (text.foldl incrementCount []).length = text.dedup.length := by
  obtain ⟨h1, h2, _, _⟩ := frequencies_spec text
  have hp : ((text.foldl incrementCount []).map Prod.fst).Perm text.dedup := by
    rw [List.perm_ext_iff_of_nodup h1 (List.nodup_dedup text)]
    intro a
    rw [h2, List.mem_dedup]
  have := hp.length_eq
  simpa using this

end HuffmanCanonical

/-! ## The tree built by `buildTree` -/

namespace HuffmanCanonical
open Huffman

namespace Node

theorem Full.ne_null {t : Node} (h : Full t) : t ≠ null := by
  cases h <;> simp

theorem full_leaf (s : Int) (f : Nat) : Full (leaf s f) := Full.leaf s f

theorem full_internal {f : Nat} {l r : Node} (hl : Full l) (hr : Full r) :
    Full (internal f l r) := Full.inner 0 f l r hl hr

theorem leaves_leaf (s : Int) (f : Nat) : (leaf s f).leaves = [(s, f)] := by
  simp [leaf, leaves]

theorem leaves_node {s : Int} {f : Nat} {l r : Node} (hl : l ≠ null) :
    (node s f l r).leaves = l.leaves ++ r.leaves := by
  simp [leaves, hl]

theorem depths_node {s : Int} {f : Nat} {l r : Node} (hl : l ≠ null) (d : Nat) :
    (node s f l r).depths d = l.depths (d + 1) ++ r.depths (d + 1) := by
  simp [depths, hl]

theorem paths_node {s : Int} {f : Nat} {l r : Node} (hl : l ≠ null) (code : Bits) :
    (node s f l r).paths code = l.paths (code ++ ['0']) ++ r.paths (code ++ ['1']) := by
  simp [paths, hl]

theorem cost_node {s : Int} {f : Nat} {l r : Node} (hl : l ≠ null) (d : Nat) :
    (node s f l r).cost d = l.cost (d + 1) + r.cost (d + 1) := by
  simp [cost, hl]

theorem height_node {s : Int} {f : Nat} {l r : Node} (hl : l ≠ null) :
    (node s f l r).height = max l.height r.height + 1 := by
  simp [height, hl]

theorem sumOK_leaf (s : Int) (f : Nat) : SumOK (leaf s f) := by
  simp [leaf, SumOK]

theorem sumOK_internal {l r : Node} (hl : SumOK l) (hr : SumOK r) :
    SumOK (internal (l.frequency + r.frequency) l r) := by
  unfold internal SumOK
  exact Or.inr ⟨rfl, hl, hr⟩

end Node

/-- The invariant of the merge loop on a table `fs`: every tree of the queue is
full with summed frequencies, the leaves of the queue are the entries of the
table, and a queue reduced to one tree holds a tree that is not a leaf. -/
theorem forest_invariant (tie : Nat → Nat) (fs : List (Int × Nat)) (fuel k : Nat)
    (pq : PriorityQueue)
    (h1 : ∀ t ∈ pq, Node.Full t ∧ Node.SumOK t)
    (h2 : (forestLeaves pq).Perm fs)
    (h3 : pq.length = 1 → ∀ t ∈ pq, t.left ≠ Node.null) :
    (∀ t ∈ mergeLoop tie fuel k pq, Node.Full t ∧ Node.SumOK t) ∧
      (forestLeaves (mergeLoop tie fuel k pq)).Perm fs ∧
      ((mergeLoop tie fuel k pq).length = 1 →
        ∀ t ∈ mergeLoop tie fuel k pq, t.left ≠ Node.null) := by
  refine mergeLoop_invariant tie
    (fun q => (∀ t ∈ q, Node.Full t ∧ Node.SumOK t) ∧ (forestLeaves q).Perm fs ∧
      (q.length = 1 → ∀ t ∈ q, t.left ≠ Node.null)) ?_ fuel k pq ⟨h1, h2, h3⟩
  rintro q l r ⟨a1, a2, _⟩ hl hr
  have hlq : l ∈ q := hl.1
  have hrq : r ∈ q := List.mem_of_mem_erase hr.1
  have hfl := (a1 l hlq)
  have hfr := (a1 r hrq)
  have hperm : q.Perm (l :: r :: (q.pop l).pop r) :=
    (List.perm_cons_erase hl.1).trans (List.Perm.cons _ (List.perm_cons_erase hr.1))
  refine ⟨?_, ?_, ?_⟩
  · intro t ht
    rcases List.mem_cons.mp ht with rfl | ht
    · exact ⟨Node.full_internal hfl.1 hfr.1, Node.sumOK_internal hfl.2 hfr.2⟩
    · exact a1 t (List.mem_of_mem_erase (List.mem_of_mem_erase ht))
  · have e : forestLeaves (Node.internal (l.frequency + r.frequency) l r :: (q.pop l).pop r) =
        forestLeaves (l :: r :: (q.pop l).pop r) := by
      unfold forestLeaves
      simp only [List.flatMap_cons]
      rw [Node.internal, Node.leaves_node hfl.1.ne_null, List.append_assoc]
    rw [e]
    exact (List.Perm.flatMap_right Node.leaves hperm).symm.trans a2
  · intro _ t ht
    have hsingle : (q.pop l).pop r = [] := by
      cases hq : (q.pop l).pop r with
      | nil => rfl
      | cons a b => 
        rename_i hlen
        rw [hq] at hlen; simp at hlen
    rw [hsingle] at ht
    rw [List.mem_singleton] at ht
    subst ht
    exact hfl.1.ne_null

theorem initialQueue_forest (fs : List (Int × Nat)) :
    (∀ t ∈ initialQueue fs, Node.Full t ∧ Node.SumOK t) ∧
      (forestLeaves (initialQueue fs)).Perm fs := by
  rw [initialQueue_eq]
  constructor
  · intro t ht
    simp only [List.mem_reverse, List.mem_map] at ht
    obtain ⟨p, _, rfl⟩ := ht
    exact ⟨Node.full_leaf _ _, Node.sumOK_leaf _ _⟩
  · unfold forestLeaves
    have e : ∀ l : List (Int × Nat),
        (l.map (fun p => Node.leaf p.1 p.2)).flatMap Node.leaves = l := by
      intro l
      induction l with
      | nil => rfl
      | cons x xs ih =>
        simp only [List.map_cons, List.flatMap_cons, Node.leaves_leaf, ih]
        rfl
    exact (List.Perm.flatMap_right Node.leaves (List.reverse_perm _)).trans (by rw [e])

/-- The root left by `buildTree` on a table of at least two entries: an internal
node created by the merge loop, full, with summed frequencies, whose leaves
are the entries of the table. -/
theorem buildTree_root_of_two_le (tie : Nat → Nat) (h : Huffman)
    (hlen : 2 ≤ h.frequencies.length) :
    Node.Full (h.buildTree tie).root ∧ Node.SumOK (h.buildTree tie).root ∧
      (h.buildTree tie).root.leaves.Perm h.frequencies ∧
      (h.buildTree tie).root.left ≠ Node.null := by
  have hq := initialQueue_length h.frequencies
  have hne : initialQueue h.frequencies ≠ [] := by
    intro h0; rw [h0] at hq; simp at hq; omega
  obtain ⟨i1, i2⟩ := initialQueue_forest h.frequencies
  have hinv := forest_invariant tie h.frequencies (initialQueue h.frequencies).length 0
    (initialQueue h.frequencies) i1 i2 (by intro h1; omega)
  have hl := mergeLoop_length tie (initialQueue h.frequencies).length 0
    (initialQueue h.frequencies) hne (by omega)
  have hroot : (h.buildTree tie).root =
      PriorityQueue.top (tie (2 * ((initialQueue h.frequencies).length - 1)))
        (mergeLoop tie (initialQueue h.frequencies).length 0 (initialQueue h.frequencies)) := by
    unfold buildTree
    simp only
    rw [if_neg (by omega)]
  rw [hroot]
  generalize mergeLoop tie (initialQueue h.frequencies).length 0 (initialQueue h.frequencies) = q
    at hinv hl
  obtain ⟨t, rfl⟩ := List.length_eq_one.mp hl
  have htop := (top_isTop (tie (2 * ((initialQueue h.frequencies).length - 1))) [t] (by simp)).1
  rw [List.mem_singleton] at htop
  rw [htop]
  obtain ⟨j1, j2, j3⟩ := hinv
  refine ⟨(j1 t (by simp)).1, (j1 t (by simp)).2, ?_, j3 rfl t (by simp)⟩
  simpa [forestLeaves] using j2

/-- The root left by `buildTree` on a table of one entry: an internal node with
the frequency of the only leaf, that leaf on the left and no right child. -/
theorem buildTree_root_of_single (tie : Nat → Nat) (h : Huffman) (s : Int) (f : Nat)
    (hfs : h.frequencies = [(s, f)]) :
    (h.buildTree tie).root = Node.internal f (Node.leaf s f) Node.null := by
  have hq : initialQueue h.frequencies = [Node.leaf s f] := by
    rw [initialQueue_eq, hfs]; rfl
  have htop := (top_isTop (tie 0) [Node.leaf s f] (by simp)).1
  rw [List.mem_singleton] at htop
  unfold buildTree
  simp only [hq, List.length_singleton, if_true, htop]
  rfl

end HuffmanCanonical

/-! ## `generateCodes` -/

namespace HuffmanCanonical
open Huffman

/-- On a tree that is not a single leaf reached with the empty code,
`generateCodes` records the leaves from left to right, each with its path. -/
theorem generateCodes_eq_foldl (t : Node) :
    ∀ (code : Bits) (h : Huffman), (code ≠ [] ∨ t.left ≠ Node.null) →
      generateCodes t code h = (t.paths code).foldl Huffman.record h := by
  induction t with
  | null => intro code h _; rfl
  | node s f l r ihl ihr =>
    intro code h hc
    by_cases hleaf : l = Node.null ∧ r = Node.null
    · have hcode : code ≠ [] := by
        rcases hc with hc | hc
        · exact hc
        · exact absurd hleaf.1 hc
      have hemp : code.isEmpty = false := by
        cases code with
        | nil => exact absurd rfl hcode
        | cons a b => rfl
      simp only [generateCodes, Node.paths, if_pos hleaf, hemp, List.foldl_cons, List.foldl_nil]
      rfl
    · simp only [generateCodes, Node.paths, if_neg hleaf, List.foldl_append]
      rw [ihl (code ++ ['0']) h (Or.inl (by simp)), ihr (code ++ ['1']) _ (Or.inl (by simp))]

theorem foldl_record_codeLengths (ps : List (Int × Bits)) (h : Huffman) :
    (ps.foldl Huffman.record h).codeLengths =
      (ps.map (fun p => (p.1, p.2.length))).foldl (fun acc p => acc.set p.1 p.2) h.codeLengths := by
  induction ps generalizing h with
  | nil => rfl
  | cons p rest ih => simp only [List.foldl_cons, List.map_cons]; rw [ih]; rfl

theorem foldl_record_huffmanCodes (ps : List (Int × Bits)) (h : Huffman) :
    (ps.foldl Huffman.record h).huffmanCodes =
      ps.foldl (fun acc p => acc.set p.1 p.2) h.huffmanCodes := by
  induction ps generalizing h with
  | nil => rfl
  | cons p rest ih => simp only [List.foldl_cons]; rw [ih]; rfl

theorem foldl_record_other (ps : List (Int × Bits)) (h : Huffman) :
    (ps.foldl Huffman.record h).frequencies = h.frequencies ∧
      (ps.foldl Huffman.record h).root = h.root ∧
      (ps.foldl Huffman.record h).canonicalCodes = h.canonicalCodes ∧
      (ps.foldl Huffman.record h).compressedData = h.compressedData := by
  induction ps generalizing h with
  | nil => exact ⟨rfl, rfl, rfl, rfl⟩
  | cons p rest ih => simp only [List.foldl_cons]; exact ih _

namespace Node

theorem paths_length (t : Node) : ∀ code : Bits,
    (t.paths code).map (fun p => (p.1, p.2.length)) = t.depths code.length := by
  induction t with
  | null => intro code; rfl
  | node s f l r ihl ihr =>
    intro code
    by_cases hleaf : l = null ∧ r = null
    · simp [paths, depths, hleaf]
    · simp only [paths, depths, if_neg hleaf, List.map_append, ihl, ihr]
      simp

theorem depths_fst (t : Node) : ∀ d : Nat,
    (t.depths d).map Prod.fst = t.leaves.map Prod.fst := by
  induction t with
  | null => intro d; rfl
  | node s f l r ihl ihr =>
    intro d
    by_cases hleaf : l = null ∧ r = null
    · simp [leaves, depths, hleaf]
    · simp only [leaves, depths, if_neg hleaf, List.map_append, ihl, ihr]

theorem depths_ge (t : Node) : ∀ (d : Nat) (p : Int × Nat), p ∈ t.depths d → d ≤ p.2 := by
  induction t with
  | null => intro d p hp; simp [depths] at hp
  | node s f l r ihl ihr =>
    intro d p hp
    by_cases hleaf : l = null ∧ r = null
    · simp only [depths, if_pos hleaf, List.mem_singleton] at hp
      subst hp; exact le_refl _
    · simp only [depths, if_neg hleaf, List.mem_append] at hp
      rcases hp with hp | hp
      · have := ihl _ _ hp; omega
      · have := ihr _ _ hp; omega

theorem depths_le_height (t : Node) : ∀ (d : Nat) (p : Int × Nat),
    p ∈ t.depths d → p.2 ≤ d + t.height := by
  induction t with
  | null => intro d p hp; simp [depths] at hp
  | node s f l r ihl ihr =>
    intro d p hp
    by_cases hleaf : l = null ∧ r = null
    · simp only [depths, if_pos hleaf, List.mem_singleton] at hp
      subst hp; simp
    · simp only [depths, if_neg hleaf, List.mem_append] at hp
      simp only [height, if_neg hleaf]
      rcases hp with hp | hp
      · have := ihl _ _ hp
        have := le_max_left l.height r.height
        omega
      · have := ihr _ _ hp
        have := le_max_right l.height r.height
        omega

end Node

end HuffmanCanonical

/-! ## The first three stages of `run` -/

namespace HuffmanCanonical
open Huffman

/-- The root left by `buildTree` on a non-empty table. -/
theorem buildTree_root_spec (tie : Nat → Nat) (h : Huffman) (hne : h.frequencies ≠ []) :
    (h.buildTree tie).root.left ≠ Node.null ∧ Node.SumOK (h.buildTree tie).root ∧
      (h.buildTree tie).root.leaves.Perm h.frequencies ∧
      (2 ≤ h.frequencies.length → Node.Full (h.buildTree tie).root) := by
  have hpos : 0 < h.frequencies.length := List.length_pos.mpr hne
  by_cases h2 : 2 ≤ h.frequencies.length
  · obtain ⟨a, b, c, d⟩ := buildTree_root_of_two_le tie h h2
    exact ⟨d, b, c, fun _ => a⟩
  · have h1 : h.frequencies.length = 1 := by omega
    obtain ⟨p, hp⟩ := List.length_eq_one.mp h1
    obtain ⟨s, f⟩ := p
    rw [buildTree_root_of_single tie h s f hp, hp]
    refine ⟨by simp [Node.internal, Node.left, Node.leaf], ?_, ?_, ?_⟩
    · unfold Node.internal Node.SumOK
      right
      exact ⟨by simp [Node.leaf, Node.frequency], Node.sumOK_leaf s f, trivial⟩
    · rw [Node.internal, Node.leaves_node (by simp [Node.leaf]), Node.leaves_leaf]
      simp [Node.leaves]
    · intro hh; simp at hh

theorem buildTree_fields (tie : Nat → Nat) (h : Huffman) :
    (h.buildTree tie).frequencies = h.frequencies ∧
      (h.buildTree tie).huffmanCodes = h.huffmanCodes ∧
      (h.buildTree tie).codeLengths = h.codeLengths ∧
      (h.buildTree tie).canonicalCodes = h.canonicalCodes ∧
      (h.buildTree tie).compressedData = h.compressedData := by
  unfold buildTree
  simp only
  split_ifs <;> exact ⟨rfl, rfl, rfl, rfl, rfl⟩

/-- The fields after `buildTree` and `generateCodes` on a non-empty table. -/
theorem treeCoded_root (tie : Nat → Nat) (h : Huffman) (hne : h.frequencies ≠ []) :
    (treeCoded tie h).root = (h.buildTree tie).root ∧
      (treeCoded tie h).frequencies = h.frequencies ∧
      (treeCoded tie h).canonicalCodes = h.canonicalCodes ∧
      (treeCoded tie h).compressedData = h.compressedData ∧
      (treeCoded tie h).codeLengths =
        ((treeCoded tie h).root.depths 0).foldl
          (fun (acc : CharMap Nat) p => acc.set p.1 p.2) h.codeLengths ∧
      (treeCoded tie h).huffmanCodes =
        ((treeCoded tie h).root.paths []).foldl
          (fun (acc : CharMap Bits) p => acc.set p.1 p.2) h.huffmanCodes := by
  obtain ⟨r1, _, _, _⟩ := buildTree_root_spec tie h hne
  obtain ⟨b1, b2, b3, b4, b5⟩ := buildTree_fields tie h
  have hc : treeCoded tie h =
      ((h.buildTree tie).root.paths []).foldl Huffman.record (h.buildTree tie) := by
    unfold treeCoded
    exact generateCodes_eq_foldl _ [] _ (Or.inr r1)
  obtain ⟨o1, o2, o3, o4⟩ := foldl_record_other ((h.buildTree tie).root.paths [])
    (h.buildTree tie)
  have hroot : (treeCoded tie h).root = (h.buildTree tie).root := by rw [hc, o2]
  refine ⟨hroot, ?_, ?_, ?_, ?_, ?_⟩
  · rw [hc, o1, b1]
  · rw [hc, o3, b4]
  · rw [hc, o4, b5]
  · rw [hroot]
    rw [hc, foldl_record_codeLengths, b3, Node.paths_length]
    rfl
  · rw [hroot]
    rw [hc, foldl_record_huffmanCodes, b2]

/-- After `buildTree` and `generateCodes` on a non-empty table without repeated
key, the code tables being empty before: the shape of the tree, and the
code-length table as the list of the leaves with their depths. -/
theorem treeCoded_spec (tie : Nat → Nat) (h : Huffman) (hne : h.frequencies ≠ [])
    (hnd : (h.frequencies.map Prod.fst).Nodup) (hcl : h.codeLengths = [])
    (hhc : h.huffmanCodes = []) :
    (treeCoded tie h).root.left ≠ Node.null ∧ Node.SumOK (treeCoded tie h).root ∧
      (treeCoded tie h).root.leaves.Perm h.frequencies ∧
      (2 ≤ h.frequencies.length → Node.Full (treeCoded tie h).root) ∧
      (treeCoded tie h).codeLengths.Perm ((treeCoded tie h).root.depths 0) ∧
      (treeCoded tie h).codeLengths.Ordered ∧
      (treeCoded tie h).huffmanCodes.Perm ((treeCoded tie h).root.paths []) := by
  obtain ⟨c1, _, _, _, c5, c6⟩ := treeCoded_root tie h hne
  obtain ⟨r1, r2, r3, r4⟩ := buildTree_root_spec tie h hne
  rw [← c1] at r1 r2 r3 r4
  rw [hcl] at c5
  rw [hhc] at c6
  have hnd1 : (((treeCoded tie h).root.depths 0).map Prod.fst).Nodup := by
    rw [Node.depths_fst]
    exact ((r3.map Prod.fst).nodup_iff).mpr hnd
  have hnd2 : (((treeCoded tie h).root.paths []).map Prod.fst).Nodup := by
    have e : ((treeCoded tie h).root.paths []).map Prod.fst =
        ((treeCoded tie h).root.depths 0).map Prod.fst := by
      have e0 := Node.paths_length (treeCoded tie h).root []
      simp only [List.length_nil] at e0
      rw [← e0]
      simp [List.map_map, Function.comp]
    rw [e]; exact hnd1
  refine ⟨r1, r2, r3, r4, ?_, ?_, ?_⟩
  · rw [c5]
    simpa using CharMap.foldl_set_perm _ hnd1 [] (by simp)
  · rw [c5]
    exact CharMap.foldl_set_ordered _ [] CharMap.ordered_nil
  · rw [c6]
    simpa using CharMap.foldl_set_perm _ hnd2 [] (by simp)

theorem coded_eq (tie : Nat → Nat) (h : Huffman) (text : Text) :
    coded tie h text = treeCoded tie (h.clear.calculateFrequencies text) := rfl

theorem frequencies_ne_nil (text : Text) (hne : text ≠ []) :
    text.foldl incrementCount [] ≠ [] := by
  intro h0
  have := (frequencies_spec text).2.2.2
  rw [h0] at this
  simp at this
  exact hne (List.length_eq_zero.mp this.symm)

/-- The tree `run` builds for a text. -/
theorem coded_root (tie : Nat → Nat) (h : Huffman) (text : Text) (hne : text ≠ []) :
    (coded tie h text).root = ((h.clear.calculateFrequencies text).buildTree tie).root ∧
      (coded tie h text).frequencies = text.foldl incrementCount [] ∧
      (coded tie h text).canonicalCodes = [] ∧
      (coded tie h text).compressedData = [] ∧
      (coded tie h text).codeLengths =
        ((coded tie h text).root.depths 0).foldl
          (fun (acc : CharMap Nat) p => acc.set p.1 p.2) ([] : CharMap Nat) ∧
      (coded tie h text).huffmanCodes =
        ((coded tie h text).root.paths []).foldl
          (fun (acc : CharMap Bits) p => acc.set p.1 p.2) ([] : CharMap Bits) :=
  treeCoded_root tie (h.clear.calculateFrequencies text) (frequencies_ne_nil text hne)

/-- After the first stages of `run`: the shape of the tree, and the code-length
table as the list of the leaves with their depths. -/
theorem coded_spec (tie : Nat → Nat) (h : Huffman) (text : Text) (hne : text ≠ []) :
    (coded tie h text).root.left ≠ Node.null ∧ Node.SumOK (coded tie h text).root ∧
      (coded tie h text).root.leaves.Perm (text.foldl incrementCount []) ∧
      (2 ≤ text.dedup.length → Node.Full (coded tie h text).root) ∧
      (coded tie h text).codeLengths.Perm ((coded tie h text).root.depths 0) ∧
      (coded tie h text).codeLengths.Ordered ∧
      (coded tie h text).huffmanCodes.Perm ((coded tie h text).root.paths []) := by
  obtain ⟨a1, a2, a3, a4, a5, a6, a7⟩ := treeCoded_spec tie (h.clear.calculateFrequencies text)
    (frequencies_ne_nil text hne) (frequencies_spec text).1 rfl rfl
  refine ⟨a1, a2, a3, ?_, a5, a6, a7⟩
  intro hd
  apply a4
  have e : (h.clear.calculateFrequencies text).frequencies = text.foldl incrementCount [] := rfl
  rw [e, frequencies_length]; exact hd

end HuffmanCanonical

/-! ## Rendering of codes -/

namespace HuffmanCanonical
open Huffman

theorem renderLoop_eq (n : Nat) : ∀ (t : Nat) (acc : Bits),
    renderLoop n t acc = bitsMSB n t ++ acc := by
  induction n with
  | zero => intro t acc; rfl
  | succ n ih =>
    intro t acc
    simp only [renderLoop, bitsMSB, ih, List.append_assoc, List.singleton_append]

theorem bitsMSB_length (n : Nat) : ∀ v, (bitsMSB n v).length = n := by
  induction n with
  | zero => intro v; rfl
  | succ n ih => intro v; simp [bitsMSB, ih]

theorem renderCode_eq (c l : Nat) : renderCode c l = bitsMSB l c := by
  unfold renderCode
  simp only [renderLoop_eq, List.append_nil, bitsMSB_length, Nat.sub_self, List.replicate_zero,
    List.nil_append]

theorem renderCode_length (c l : Nat) : (renderCode c l).length = l := by
  rw [renderCode_eq, bitsMSB_length]

/-- The rendering of the program is the reference rendering. -/
theorem bitsMSB_eq_referenceBits (n : Nat) : ∀ v, bitsMSB n v = referenceBits n v := by
  induction n with
  | zero => intro v; rfl
  | succ n ih =>
    intro v
    unfold referenceBits
    rw [List.range_succ, List.map_append, bitsMSB, ih]
    congr 1
    · unfold referenceBits
      apply List.map_congr_left
      intro i hi
      have hi' : i < n := List.mem_range.mp hi
      have e : n + 1 - 1 - i = (n - 1 - i) + 1 := by omega
      rw [e, Nat.testBit_succ]
    · simp only [List.map_cons, List.map_nil, Nat.add_sub_cancel, Nat.sub_self,
        Nat.testBit_zero]
      by_cases h : v % 2 = 0
      · simp [h]
      · have : v % 2 = 1 := by omega
        simp [this]

/-- The high bits of a rendering are the rendering of the shifted value. -/
theorem bitsMSB_add (n k : Nat) : ∀ v, bitsMSB (n + k) v = bitsMSB n (v / 2 ^ k) ++ bitsMSB k v := by
  induction k with
  | zero => intro v; simp [bitsMSB]
  | succ k ih =>
    intro v
    have e : n + (k + 1) = (n + k) + 1 := by omega
    rw [e, bitsMSB, ih, bitsMSB, List.append_assoc]
    congr 2
    rw [Nat.div_div_eq_div_mul, pow_succ, Nat.mul_comm]

theorem bitsMSB_inj (n : Nat) : ∀ v w, bitsMSB n v = bitsMSB n w → v % 2 ^ n = w % 2 ^ n := by
  induction n with
  | zero => intro v w _; simp [Nat.mod_one]
  | succ n ih =>
    intro v w h
    simp only [bitsMSB] at h
    have hlen : (bitsMSB n (v / 2)).length = (bitsMSB n (w / 2)).length := by
      rw [bitsMSB_length, bitsMSB_length]
    obtain ⟨h1, h2⟩ := List.append_inj h hlen
    have h3 := ih _ _ h1
    have h4 : v % 2 = w % 2 := by
      by_cases hv : v % 2 = 0 <;> by_cases hw : w % 2 = 0
      · omega
      · simp [hv, hw] at h2
      · simp [hv, hw] at h2
      · omega
    rw [pow_succ', Nat.mod_mul, Nat.mod_mul, h3, h4]

/-- When a rendering is a prefix of another, its value is the high part of the
other value. -/
theorem prefix_bitsMSB {n m v w : Nat} (hv : v < 2 ^ n) (hw : w < 2 ^ m)
    (h : bitsMSB n v <+: bitsMSB m w) : n ≤ m ∧ w / 2 ^ (m - n) = v := by
  have hle : n ≤ m := by
    have := h.length_le
    rwa [bitsMSB_length, bitsMSB_length] at this
  refine ⟨hle, ?_⟩
  have e : m = n + (m - n) := by omega
  have h2 : bitsMSB n (w / 2 ^ (m - n)) <+: bitsMSB m w := by
    conv_rhs => rw [e, bitsMSB_add]
    exact List.prefix_append _ _
  have h3 : bitsMSB n v = bitsMSB n (w / 2 ^ (m - n)) := by
    apply List.IsPrefix.eq_of_length
    · exact List.prefix_of_prefix_length_le h h2 (by rw [bitsMSB_length, bitsMSB_length])
    · rw [bitsMSB_length, bitsMSB_length]
  have h4 := bitsMSB_inj n _ _ h3
  have h5 : w / 2 ^ (m - n) < 2 ^ n := by
    apply Nat.div_lt_of_lt_mul
    rw [← pow_add]
    have : m - n + n = m := by omega
    rw [this]; exact hw
  rw [Nat.mod_eq_of_lt hv, Nat.mod_eq_of_lt h5] at h4
  exact h4.symm

end HuffmanCanonical

/-! ## The main loop of `generateCanonicalCodes` -/

namespace HuffmanCanonical
open Huffman

theorem sortedSymbols_sorted (m : CharMap Nat) : (sortedSymbols m).Sorted pairLE :=
  List.sorted_insertionSort pairLE _

theorem sortedSymbols_perm (m : CharMap Nat) :
    (sortedSymbols m).Perm (m.map (fun p => (p.2, p.1))) :=
  List.perm_insertionSort pairLE _

/-- The list in (length, symbol) order is unique. -/
theorem sortedSymbols_unique (m : CharMap Nat) (l : List (Nat × Int))
    (hp : l.Perm (m.map (fun p => (p.2, p.1)))) (hs : l.Sorted pairLE) :
    l = sortedSymbols m :=
  List.eq_of_perm_of_sorted (hp.trans (sortedSymbols_perm m).symm) hs (sortedSymbols_sorted m)

theorem assigned_append (pre post : List (Nat × Int)) : ∀ (c l : Nat),
    assigned c l (pre ++ post) =
      assigned c l pre ++ assigned (runAdvance (c, l) pre).1 (runAdvance (c, l) pre).2 post := by
  induction pre with
  | nil => intro c l; rfl
  | cons x xs ih =>
    intro c l
    have e := ih (advance c l x.1).1 (advance c l x.1).2
    simp only [runAdvance] at e
    show (x.2, renderCode (advance c l x.1).1 (advance c l x.1).2) ::
        assigned (advance c l x.1).1 (advance c l x.1).2 (xs ++ post) = _
    rw [e]
    rfl

theorem assigned_keys (L : List (Nat × Int)) : ∀ (c l : Nat),
    (assigned c l L).map Prod.fst = L.map Prod.snd := by
  induction L with
  | nil => intro c l; rfl
  | cons x xs ih => intro c l; simp only [assigned, List.map_cons, ih]

theorem runAdvance_append (cur : Nat × Nat) (pre post : List (Nat × Int)) :
    runAdvance cur (pre ++ post) = runAdvance (runAdvance cur pre) post := by
  unfold runAdvance; rw [List.foldl_append]

theorem foldl_canonStep (L : List (Nat × Int)) : ∀ st : CanonState,
    (L.foldl canonStep st).canonicalCodes =
      (assigned st.currentCode st.currentLength L).foldl
        (fun (acc : CharMap Bits) p => acc.set p.1 p.2) st.canonicalCodes := by
  induction L with
  | nil => intro st; rfl
  | cons x xs ih =>
    intro st
    simp only [List.foldl_cons, assigned]
    rw [ih]
    rfl

theorem generateCanonicalCodes_table (h : Huffman) :
    h.generateCanonicalCodes.canonicalCodes =
      (assigned 0 0 (sortedSymbols h.codeLengths)).foldl
        (fun (acc : CharMap Bits) p => acc.set p.1 p.2) h.canonicalCodes := by
  unfold generateCanonicalCodes
  simp only
  rw [foldl_canonStep]

theorem generateCanonicalCodes_fields (h : Huffman) :
    h.generateCanonicalCodes.frequencies = h.frequencies ∧
      h.generateCanonicalCodes.root = h.root ∧
      h.generateCanonicalCodes.huffmanCodes = h.huffmanCodes ∧
      h.generateCanonicalCodes.codeLengths = h.codeLengths ∧
      h.generateCanonicalCodes.compressedData = h.compressedData :=
  ⟨rfl, rfl, rfl, rfl, rfl⟩

namespace CharMap

variable {V : Type}

theorem foldl_set_get?_of_not_mem (ps : List (Int × V)) (k : Int)
    (hk : k ∉ ps.map Prod.fst) : ∀ m : CharMap V,
    (ps.foldl (fun (acc : CharMap V) p => acc.set p.1 p.2) m).get? k = m.get? k := by
  induction ps with
  | nil => intro m; rfl
  | cons p rest ih =>
    intro m
    simp only [List.map_cons, List.mem_cons, not_or] at hk
    simp only [List.foldl_cons]
    rw [ih hk.2, get?_set_ne _ _ hk.1]

/-- The value found after a sequence of assignments to distinct keys. -/
theorem foldl_set_get? (ps : List (Int × V)) (hnd : (ps.map Prod.fst).Nodup) (m : CharMap V)
    {k : Int} {v : V} (h : (k, v) ∈ ps) :
    (ps.foldl (fun (acc : CharMap V) p => acc.set p.1 p.2) m).get? k = some v := by
  obtain ⟨s, t, rfl⟩ := List.append_of_mem h
  simp only [List.map_append, List.map_cons] at hnd
  have hk : k ∉ t.map Prod.fst := by
    have := (List.nodup_append.mp hnd).2.1
    exact (List.nodup_cons.mp this).1
  rw [List.foldl_append, List.foldl_cons, foldl_set_get?_of_not_mem t k hk, get?_set_self]

theorem foldl_set_keys (ps : List (Int × V)) : ∀ (m : CharMap V) (k : Int),
    k ∈ (ps.foldl (fun (acc : CharMap V) p => acc.set p.1 p.2) m).map Prod.fst ↔
      k ∈ ps.map Prod.fst ∨ k ∈ m.map Prod.fst := by
  induction ps with
  | nil => intro m k; simp
  | cons p rest ih =>
    intro m k
    simp only [List.foldl_cons, ih, List.map_cons, List.mem_cons]
    have h1 : k ∈ (m.set p.1 p.2).map Prod.fst ↔ k = p.1 ∨ k ∈ m.map Prod.fst := by
      constructor
      · exact keys_set_subset m p.1 p.2 k
      · intro hh
        have h2 : (m.set p.1 p.2).get? k ≠ none := by
          rcases hh with rfl | hh
          · rw [get?_set_self]; simp
          · by_cases e : k = p.1
            · subst e; rw [get?_set_self]; simp
            · rw [get?_set_ne _ _ e]
              exact fun h0 => ((get?_eq_none_iff m k).mp h0) hh
        by_contra hc
        exact h2 ((get?_eq_none_iff _ k).mpr hc)
    rw [h1]
    tauto

end CharMap

end HuffmanCanonical

/-! ## The loop state of `generateCanonicalCodes` -/

namespace HuffmanCanonical
open Huffman

theorem advance_snd (c l len : Nat) (h1 : l ≤ len) :
    (advance c l len).2 = len := by
  unfold advance
  split_ifs with a b
  · rfl
  · rfl
  · simp only; omega

theorem sorted_append_singleton {pre : List (Nat × Int)} {x : Nat × Int}
    (hs : (pre ++ [x]).Sorted pairLE) : pre.Sorted pairLE ∧ ∀ p ∈ pre, p.1 ≤ x.1 := by
  have := List.pairwise_append.mp hs
  refine ⟨this.1, ?_⟩
  intro p hp
  have h := this.2.2 p hp x (List.mem_singleton_self x)
  unfold pairLE at h
  omega

/-- After a symbol has been processed, `currentLength` is its length. -/
theorem runAdvance_snd (pre : List (Nat × Int)) : ∀ (x : Nat × Int),
    (pre ++ [x]).Sorted pairLE → (runAdvance (0, 0) (pre ++ [x])).2 = x.1 := by
  induction pre using List.reverseRecOn with
  | nil =>
    intro x _
    exact advance_snd 0 0 x.1 (Nat.zero_le _)
  | append_singleton pre y ih =>
    intro x hs
    obtain ⟨hs1, hle⟩ := sorted_append_singleton hs
    have ih' := ih y hs1
    rw [runAdvance_append]
    show (advance _ _ x.1).2 = x.1
    apply advance_snd
    rw [ih']; exact hle y (by simp)

theorem assigned_entry (pre post : List (Nat × Int)) (x : Nat × Int) :
    (x.2, renderCode (runAdvance (0, 0) (pre ++ [x])).1 (runAdvance (0, 0) (pre ++ [x])).2) ∈
      assigned 0 0 (pre ++ x :: post) := by
  rw [assigned_append]
  apply List.mem_append_right
  rw [runAdvance_append]
  exact List.mem_cons_self _ _

theorem refValue_append (pre : List (Nat × Int)) (y : Nat × Int) (l : Nat) :
    refValue (pre ++ [y]) l = refValue pre l + 2 ^ (l - y.1) := by
  simp [refValue]

theorem refValue_shift (pre : List (Nat × Int)) (y l : Nat) (hy : ∀ p ∈ pre, p.1 ≤ y)
    (hl : y ≤ l) : refValue pre l = refValue pre y * 2 ^ (l - y) := by
  induction pre with
  | nil => simp [refValue]
  | cons p rest ih =>
    have h1 := ih (fun q hq => hy q (List.mem_cons_of_mem _ hq))
    have hp := hy p (List.mem_cons_self _ _)
    simp only [refValue, List.map_cons, List.sum_cons] at h1 ⊢
    rw [h1, Nat.add_mul, ← pow_add]
    congr 2
    omega

theorem scaledKraft_append (a b : List (Nat × Int)) :
    scaledKraft (a ++ b) = scaledKraft a + scaledKraft b := by
  simp [scaledKraft]

theorem refValue_scaled (pre : List (Nat × Int)) (l : Nat) (hy : ∀ p ∈ pre, p.1 ≤ l)
    (hl : l ≤ 64) : refValue pre l * 2 ^ (64 - l) = scaledKraft pre := by
  induction pre with
  | nil => simp [refValue, scaledKraft]
  | cons p rest ih =>
    have h1 := ih (fun q hq => hy q (List.mem_cons_of_mem _ hq))
    have hp := hy p (List.mem_cons_self _ _)
    simp only [refValue, scaledKraft, List.map_cons, List.sum_cons] at h1 ⊢
    rw [Nat.add_mul, h1, ← pow_add]
    congr 2
    omega

/-- Under the Kraft inequality the reference value of a symbol fits its length. -/
theorem refValue_lt (pre : List (Nat × Int)) (x : Nat × Int) (hy : ∀ p ∈ pre, p.1 ≤ x.1)
    (hl : x.1 ≤ 64) (hk : scaledKraft (pre ++ [x]) ≤ 2 ^ 64) : refValue pre x.1 < 2 ^ x.1 := by
  have h1 := refValue_scaled pre x.1 hy hl
  rw [scaledKraft_append, ← h1] at hk
  have h2 : scaledKraft [x] = 2 ^ (64 - x.1) := by simp [scaledKraft]
  rw [h2] at hk
  have h3 : (2 : Nat) ^ 64 = 2 ^ x.1 * 2 ^ (64 - x.1) := by
    rw [← pow_add]; congr 1; omega
  rw [h3] at hk
  have hpos : 0 < 2 ^ (64 - x.1) := pow_pos (by norm_num) _
  have h4 : (refValue pre x.1 + 1) * 2 ^ (64 - x.1) ≤ 2 ^ x.1 * 2 ^ (64 - x.1) := by
    rw [Nat.add_mul, Nat.one_mul]; exact hk
  have := Nat.le_of_mul_le_mul_right h4 hpos
  omega

/-- Within 64 bits and under the Kraft inequality, the loop state after a symbol
is its reference value and its length. -/
theorem runAdvance_value (pre : List (Nat × Int)) : ∀ (x : Nat × Int),
    (pre ++ [x]).Sorted pairLE → (∀ p ∈ pre ++ [x], 1 ≤ p.1 ∧ p.1 ≤ 64) →
      scaledKraft (pre ++ [x]) ≤ 2 ^ 64 →
      runAdvance (0, 0) (pre ++ [x]) = (refValue pre x.1, x.1) := by
  induction pre using List.reverseRecOn with
  | nil =>
    intro x _ hb _
    simp [runAdvance, advance, refValue]
  | append_singleton pre y ih =>
    intro x hs hb hk
    obtain ⟨hs1, hle⟩ := sorted_append_singleton hs
    have hk1 : scaledKraft (pre ++ [y]) ≤ 2 ^ 64 := by
      rw [scaledKraft_append] at hk; omega
    have ih' := ih y hs1 (fun p hp => hb p (List.mem_append_left _ hp)) hk1
    obtain ⟨_, hley⟩ := sorted_append_singleton hs1
    have hyx : y.1 ≤ x.1 := hle y (by simp)
    have hy1 := (hb y (by simp)).1
    have hx64 := (hb x (by simp)).2
    have hlt := refValue_lt (pre ++ [y]) x hle hx64 hk
    have hshift := refValue_shift (pre ++ [y]) y.1 x.1
      (by
        intro p hp
        rcases List.mem_append.mp hp with hp | hp
        · exact hley p hp
        · simp at hp; rw [hp]) hyx
    have hv : refValue (pre ++ [y]) y.1 = refValue pre y.1 + 1 := by
      rw [refValue_append]; simp
    rw [hv] at hshift
    have hpow : (2 : Nat) ^ x.1 ≤ 2 ^ 64 := Nat.pow_le_pow_right (by norm_num) hx64
    have hpos : 0 < 2 ^ (x.1 - y.1) := pow_pos (by norm_num) _
    have hvlt : refValue pre y.1 + 1 < 2 ^ 64 := by
      have : refValue pre y.1 + 1 ≤ (refValue pre y.1 + 1) * 2 ^ (x.1 - y.1) :=
        Nat.le_mul_of_pos_right _ hpos
      omega
    rw [runAdvance_append, ih']
    show advance (refValue pre y.1) y.1 x.1 = _
    unfold advance
    have hy0 : ¬ y.1 = 0 := by omega
    simp only [if_neg hy0, Nat.mod_eq_of_lt hvlt]
    split_ifs with hgt
    · rw [← hshift, Nat.mod_eq_of_lt (by omega)]
    · have e : x.1 = y.1 := by omega
      rw [e] at hshift ⊢
      simp at hshift
      rw [hshift]

end HuffmanCanonical

/-! ## The canonical code table -/

namespace HuffmanCanonical
open Huffman

theorem sortedSymbols_keys_nodup (m : CharMap Nat) (hm : (m.map Prod.fst).Nodup) :
    ((sortedSymbols m).map Prod.snd).Nodup := by
  have h1 := (sortedSymbols_perm m).map Prod.snd
  rw [h1.nodup_iff]
  simpa [List.map_map, Function.comp] using hm

/-- The code `generateCanonicalCodes` leaves for the symbol that comes after
`pre` in (length, symbol) order. -/
theorem canonical_get? (h : Huffman) (hm : (h.codeLengths.map Prod.fst).Nodup)
    (pre post : List (Nat × Int)) (x : Nat × Int)
    (hl : sortedSymbols h.codeLengths = pre ++ x :: post) :
    h.generateCanonicalCodes.canonicalCodes.get? x.2 =
      some (renderCode (runAdvance (0, 0) (pre ++ [x])).1 (runAdvance (0, 0) (pre ++ [x])).2) := by
  rw [generateCanonicalCodes_table]
  apply CharMap.foldl_set_get?
  · rw [assigned_keys]
    exact sortedSymbols_keys_nodup _ hm
  · rw [hl]
    exact assigned_entry pre post x

theorem scaledKraft_perm {a b : List (Nat × Int)} (h : a.Perm b) :
    scaledKraft a = scaledKraft b :=
  (h.map _).sum_eq

/-- The Kraft inequality of a table with lengths up to 64, scaled by `2 ^ 64`. -/
theorem scaledKraft_of_kraftSum (m : CharMap Nat) (hb : ∀ p ∈ m, p.2 ≤ 64) :
    ((scaledKraft (m.map (fun p => (p.2, p.1))) : Nat) : ℚ) = 2 ^ 64 * kraftSum m := by
  induction m with
  | nil => simp [scaledKraft, kraftSum]
  | cons p rest ih =>
    have h1 := ih (fun q hq => hb q (List.mem_cons_of_mem _ hq))
    have hp := hb p (List.mem_cons_self _ _)
    simp only [scaledKraft, kraftSum, List.map_cons, List.sum_cons, Nat.cast_add, mul_add,
      List.map_map] at h1 ⊢
    rw [h1]
    congr 1
    have e : (64 : Nat) = (64 - p.2) + p.2 := by omega
    have e2 : (2 : ℚ) ^ 64 = 2 ^ (64 - p.2) * 2 ^ p.2 := by
      rw [← pow_add, ← e]
    rw [e2]
    push_cast
    rw [one_div, inv_pow, mul_assoc, mul_inv_cancel₀ (by positivity), mul_one]

theorem scaledKraft_le (m : CharMap Nat) (hb : ∀ p ∈ m, p.2 ≤ 64) (hk : kraftSum m ≤ 1) :
    scaledKraft (sortedSymbols m) ≤ 2 ^ 64 := by
  rw [scaledKraft_perm (sortedSymbols_perm m)]
  have h1 := scaledKraft_of_kraftSum m hb
  have h2 : ((scaledKraft (m.map (fun p => (p.2, p.1))) : Nat) : ℚ) ≤ ((2 ^ 64 : Nat) : ℚ) := by
    rw [h1]
    push_cast
    have : (2 : ℚ) ^ 64 * kraftSum m ≤ 2 ^ 64 * 1 :=
      mul_le_mul_of_nonneg_left hk (by positivity)
    rw [mul_one] at this
    exact this
  exact_mod_cast h2

theorem sortedSymbols_bounds (m : CharMap Nat) (lo hi : Nat)
    (hb : ∀ p ∈ m, lo ≤ p.2 ∧ p.2 ≤ hi) : ∀ p ∈ sortedSymbols m, lo ≤ p.1 ∧ p.1 ≤ hi := by
  intro p hp
  have := (sortedSymbols_perm m).subset hp
  obtain ⟨q, hq, rfl⟩ := List.mem_map.mp this
  exact hb q hq

/-- Within 64 bits and under the Kraft inequality, the code of the symbol that
comes after `pre` in (length, symbol) order is the rendering of its reference
value, which fits its length. -/
theorem canonical_value (h : Huffman) (hm : (h.codeLengths.map Prod.fst).Nodup)
    (hb : ∀ p ∈ h.codeLengths, 1 ≤ p.2 ∧ p.2 ≤ 64) (hk : kraftSum h.codeLengths ≤ 1)
    (pre post : List (Nat × Int)) (x : Nat × Int)
    (hl : sortedSymbols h.codeLengths = pre ++ x :: post) :
    h.generateCanonicalCodes.canonicalCodes.get? x.2 = some (bitsMSB x.1 (refValue pre x.1)) ∧
      refValue pre x.1 < 2 ^ x.1 := by
  have hs := sortedSymbols_sorted h.codeLengths
  have hbs := sortedSymbols_bounds h.codeLengths 1 64 hb
  have hks := scaledKraft_le h.codeLengths (fun p hp => (hb p hp).2) hk
  rw [hl] at hs hbs hks
  have e : pre ++ x :: post = (pre ++ [x]) ++ post := by simp
  rw [e] at hs hbs hks
  have hs1 : (pre ++ [x]).Sorted pairLE := (List.pairwise_append.mp hs).1
  have hb1 : ∀ p ∈ pre ++ [x], 1 ≤ p.1 ∧ p.1 ≤ 64 :=
    fun p hp => hbs p (List.mem_append_left _ hp)
  have hk1 : scaledKraft (pre ++ [x]) ≤ 2 ^ 64 := by
    rw [scaledKraft_append] at hks; omega
  have hv := runAdvance_value pre x hs1 hb1 hk1
  refine ⟨?_, ?_⟩
  · rw [canonical_get? h hm pre post x hl, hv, renderCode_eq]
  · exact refValue_lt pre x (sorted_append_singleton hs1).2 (hb1 x (by simp)).2 hk1

/-- The code `generateCanonicalCodes` leaves for a symbol has the length the
code-length table gives it. -/
theorem canonical_length (h : Huffman) (hm : (h.codeLengths.map Prod.fst).Nodup)
    (s : Int) (len : Nat) (hs : (s, len) ∈ h.codeLengths) :
    ∃ code, h.generateCanonicalCodes.canonicalCodes.get? s = some code ∧ code.length = len := by
  have hmem : (len, s) ∈ sortedSymbols h.codeLengths :=
    (sortedSymbols_perm h.codeLengths).symm.subset (List.mem_map.mpr ⟨(s, len), hs, rfl⟩)
  obtain ⟨pre, post, hl⟩ := List.append_of_mem hmem
  have h1 := canonical_get? h hm pre post (len, s) hl
  refine ⟨_, h1, ?_⟩
  rw [renderCode_length]
  have hsort := sortedSymbols_sorted h.codeLengths
  rw [hl] at hsort
  have e : pre ++ (len, s) :: post = (pre ++ [(len, s)]) ++ post := by simp
  rw [e] at hsort
  exact runAdvance_snd pre (len, s) (List.pairwise_append.mp hsort).1

end HuffmanCanonical

/-! ## Kraft sums and prefix-freeness -/

namespace HuffmanCanonical
open Huffman

theorem kraftSum_perm {a b : CharMap Nat} (h : a.Perm b) : kraftSum a = kraftSum b :=
  (h.map _).sum_eq

/-- The Kraft sum of the leaves of a full tree whose root is at depth `d`. -/
theorem kraftSum_depths_full {t : Node} (ht : Node.Full t) :
    ∀ d : Nat, kraftSum (t.depths d) = (1 / 2 : ℚ) ^ d := by
  induction ht with
  | leaf s f => intro d; simp [kraftSum, Node.depths]
  | inner s f l r hl _ ihl ihr =>
    intro d
    rw [Node.depths_node hl.ne_null]
    have e : kraftSum (l.depths (d + 1) ++ r.depths (d + 1)) =
        kraftSum (l.depths (d + 1)) + kraftSum (r.depths (d + 1)) := by
      simp [kraftSum]
    rw [e, ihl, ihr, pow_succ]
    ring

theorem refValue_cons_mid (pre mid : List (Nat × Int)) (x : Nat × Int) (l : Nat) :
    refValue (pre ++ x :: mid) l = refValue pre l + 2 ^ (l - x.1) + refValue mid l := by
  simp [refValue]; ring

/-- Two codes rendered from reference values, the second at least one more
than the first shifted to its length, are not prefixes of each other. -/
theorem unrelated_of_values {n m v w : Nat} (hnm : n ≤ m) (hv : v < 2 ^ n) (hw : w < 2 ^ m)
    (hstep : (v + 1) * 2 ^ (m - n) ≤ w) : Unrelated (bitsMSB n v) (bitsMSB m w) := by
  constructor
  · intro h
    obtain ⟨_, h2⟩ := prefix_bitsMSB hv hw h
    have hpos : 0 < 2 ^ (m - n) := pow_pos (by norm_num) _
    have := (Nat.le_div_iff_mul_le hpos).mpr hstep
    omega
  · intro h
    obtain ⟨h1, h2⟩ := prefix_bitsMSB hw hv h
    have e : m = n := by omega
    subst e
    simp at h2 hstep
    omega

theorem Unrelated.symm {a b : Bits} (h : Unrelated a b) : Unrelated b a := ⟨h.2, h.1⟩

/-- Two distinct members of a list, in the order in which they occur. -/
theorem split_two {α : Type} {l : List α} {x y : α} (hx : x ∈ l) (hy : y ∈ l) (hne : x ≠ y) :
    (∃ pre mid post, l = pre ++ x :: (mid ++ y :: post)) ∨
      (∃ pre mid post, l = pre ++ y :: (mid ++ x :: post)) := by
  obtain ⟨s, t, rfl⟩ := List.append_of_mem hx
  rcases List.mem_append.mp hy with h | h
  · obtain ⟨s1, s2, rfl⟩ := List.append_of_mem h
    right
    exact ⟨s1, s2, t, by simp⟩
  · rcases List.mem_cons.mp h with h | h
    · exact absurd h.symm hne
    · obtain ⟨t1, t2, rfl⟩ := List.append_of_mem h
      left
      exact ⟨s, t1, t2, rfl⟩

/-- The codes of two symbols, the first coming before the second in (length,
symbol) order. -/
theorem canonical_unrelated_ordered (h : Huffman) (hm : (h.codeLengths.map Prod.fst).Nodup)
    (hb : ∀ p ∈ h.codeLengths, 1 ≤ p.2 ∧ p.2 ≤ 64) (hk : kraftSum h.codeLengths ≤ 1)
    (pre mid post : List (Nat × Int)) (x y : Nat × Int)
    (hl : sortedSymbols h.codeLengths = pre ++ x :: (mid ++ y :: post)) :
    ∃ cx cy, h.generateCanonicalCodes.canonicalCodes.get? x.2 = some cx ∧
      h.generateCanonicalCodes.canonicalCodes.get? y.2 = some cy ∧ Unrelated cx cy := by
  obtain ⟨gx, vx⟩ := canonical_value h hm hb hk pre (mid ++ y :: post) x hl
  have hl2 : sortedSymbols h.codeLengths = (pre ++ x :: mid) ++ y :: post := by
    rw [hl]; simp
  obtain ⟨gy, vy⟩ := canonical_value h hm hb hk (pre ++ x :: mid) post y hl2
  refine ⟨_, _, gx, gy, ?_⟩
  have hs := sortedSymbols_sorted h.codeLengths
  rw [hl] at hs
  have hs' := List.pairwise_append.mp hs
  have hxy : x.1 ≤ y.1 := by
    have := (List.pairwise_cons.mp hs'.2.1).1 y (by simp)
    unfold pairLE at this; omega
  have hpx : ∀ p ∈ pre, p.1 ≤ x.1 := by
    intro p hp
    have := hs'.2.2 p hp x (by simp)
    unfold pairLE at this; omega
  apply unrelated_of_values hxy vx vy
  rw [refValue_cons_mid, refValue_shift pre x.1 y.1 hpx hxy, Nat.add_mul, Nat.one_mul]
  omega

/-- Within 64 bits and under the Kraft inequality, the canonical codes of two
distinct symbols of the code-length table are not prefixes of each other. -/
theorem canonical_unrelated (h : Huffman) (hm : (h.codeLengths.map Prod.fst).Nodup)
    (hb : ∀ p ∈ h.codeLengths, 1 ≤ p.2 ∧ p.2 ≤ 64) (hk : kraftSum h.codeLengths ≤ 1)
    (a b : Int) (ha : a ∈ h.codeLengths.map Prod.fst) (hb' : b ∈ h.codeLengths.map Prod.fst)
    (hab : a ≠ b) :
    ∃ ca cb, h.generateCanonicalCodes.canonicalCodes.get? a = some ca ∧
      h.generateCanonicalCodes.canonicalCodes.get? b = some cb ∧ Unrelated ca cb := by
  obtain ⟨p, hp, rfl⟩ := List.mem_map.mp ha
  obtain ⟨q, hq, rfl⟩ := List.mem_map.mp hb'
  have hx : (p.2, p.1) ∈ sortedSymbols h.codeLengths :=
    (sortedSymbols_perm h.codeLengths).symm.subset (List.mem_map.mpr ⟨p, hp, rfl⟩)
  have hy : (q.2, q.1) ∈ sortedSymbols h.codeLengths :=
    (sortedSymbols_perm h.codeLengths).symm.subset (List.mem_map.mpr ⟨q, hq, rfl⟩)
  have hne : (p.2, p.1) ≠ (q.2, q.1) := by
    intro e
    exact hab (congrArg Prod.snd e)
  rcases split_two hx hy hne with ⟨pre, mid, post, hl⟩ | ⟨pre, mid, post, hl⟩
  · exact canonical_unrelated_ordered h hm hb hk pre mid post _ _ hl
  · obtain ⟨cy, cx, gy, gx, hu⟩ := canonical_unrelated_ordered h hm hb hk pre mid post _ _ hl
    exact ⟨cx, cy, gx, gy, hu.symm⟩

end HuffmanCanonical

/-! ## The height of the tree -/

namespace HuffmanCanonical
open Huffman

namespace Node

theorem good_leaf (s : Int) (f : Nat) : Good (leaf s f) := by
  simp [leaf, Good]

theorem maxChild_leaf (s : Int) (f : Nat) : maxChild (leaf s f) = 0 := by
  simp [leaf, maxChild, frequency]

/-- In a full tree with summed frequencies, the frequency of a node is the sum
of the frequencies of the leaves below it. -/
theorem frequency_eq_sum {t : Node} (ht : Full t) (hs : SumOK t) :
    t.frequency = (t.leaves.map Prod.snd).sum := by
  induction ht with
  | leaf s f => simp [leaves, frequency]
  | inner s f l r hl hr ihl ihr =>
    rw [leaves_node hl.ne_null]
    unfold SumOK at hs
    rcases hs with hs | ⟨h1, h2, h3⟩
    · exact absurd hs.1 hl.ne_null
    · simp only [frequency, List.map_append, List.sum_append]
      rw [h1, ihl h2, ihr h3]

/-- A good full tree with summed frequencies and positive leaves weighs at least
`2 ^ (height / 2)`. -/
theorem weight_bound {t : Node} (ht : Full t) (hs : SumOK t) (hg : Good t)
    (hpos : ∀ p ∈ t.leaves, 1 ≤ p.2) :
    2 ^ (t.height / 2) ≤ t.frequency ∧ 2 ^ ((t.height + 1) / 2) ≤ t.frequency + t.maxChild := by
  induction ht with
  | leaf s f =>
    have : 1 ≤ f := hpos (s, f) (by simp [leaves])
    simp [height, frequency, maxChild]
    omega
  | inner s f l r hl hr ihl ihr =>
    have hln := hl.ne_null
    rw [leaves_node hln] at hpos
    unfold SumOK at hs
    unfold Good at hg
    rcases hs with hs | ⟨s1, s2, s3⟩
    · exact absurd hs.1 hln
    rcases hg with hg | ⟨g1, g2, g3, g4⟩
    · exact absurd hg.1 hln
    obtain ⟨al, bl⟩ := ihl s2 g1 (fun p hp => hpos p (List.mem_append_left _ hp))
    obtain ⟨ar, br⟩ := ihr s3 g2 (fun p hp => hpos p (List.mem_append_right _ hp))
    rw [height_node hln]
    subst s1
    show 2 ^ ((max l.height r.height + 1) / 2) ≤ l.frequency + r.frequency ∧
      2 ^ ((max l.height r.height + 1 + 1) / 2) ≤
        l.frequency + r.frequency + max l.frequency r.frequency
    rcases le_total l.height r.height with hh | hh
    · rw [max_eq_right hh]
      constructor
      · calc 2 ^ ((r.height + 1) / 2) ≤ r.frequency + r.maxChild := br
          _ ≤ l.frequency + r.frequency := by omega
      · have e : (r.height + 1 + 1) / 2 = r.height / 2 + 1 := by omega
        rw [e, pow_succ]
        have := le_max_right l.frequency r.frequency
        omega
    · rw [max_eq_left hh]
      constructor
      · calc 2 ^ ((l.height + 1) / 2) ≤ l.frequency + l.maxChild := bl
          _ ≤ l.frequency + r.frequency := by omega
      · have e : (l.height + 1 + 1) / 2 = l.height / 2 + 1 := by omega
        rw [e, pow_succ]
        have := le_max_left l.frequency r.frequency
        omega

end Node

/-- The merge loop keeps the sibling property: every tree of the queue is good,
and every tree of the queue weighs at least as much as either child of any
tree of the queue. -/
theorem good_invariant (tie : Nat → Nat) (fuel k : Nat) (pq : PriorityQueue)
    (h1 : ∀ t ∈ pq, Node.Good t)
    (h2 : ∀ t ∈ pq, ∀ u ∈ pq, u.maxChild ≤ t.frequency) :
    ∀ t ∈ mergeLoop tie fuel k pq, Node.Good t := by
  have key := mergeLoop_invariant tie
    (fun q => (∀ t ∈ q, Node.Good t) ∧ (∀ t ∈ q, ∀ u ∈ q, u.maxChild ≤ t.frequency)) ?_
    fuel k pq ⟨h1, h2⟩
  · exact key.1
  rintro q l r ⟨a1, a2⟩ hl hr
  have hlq : l ∈ q := hl.1
  have hrq : r ∈ q := List.mem_of_mem_erase hr.1
  have hlr : l.frequency ≤ r.frequency := isTop_frequency_le hl r hrq
  have hrest : ∀ t ∈ (q.pop l).pop r, t ∈ q ∧ r.frequency ≤ t.frequency := by
    intro t ht
    have h3 : t ∈ q.pop l := List.mem_of_mem_erase ht
    exact ⟨List.mem_of_mem_erase h3, isTop_frequency_le hr t h3⟩
  have hmc : (Node.internal (l.frequency + r.frequency) l r).maxChild = r.frequency := by
    simp [Node.internal, Node.maxChild, hlr]
  have hfr : (Node.internal (l.frequency + r.frequency) l r).frequency =
      l.frequency + r.frequency := rfl
  constructor
  · intro t ht
    rcases List.mem_cons.mp ht with rfl | ht
    · unfold Node.internal Node.Good
      right
      exact ⟨a1 l hlq, a1 r hrq, a2 r hrq l hlq, a2 l hlq r hrq⟩
    · exact a1 t (hrest t ht).1
  · intro t ht u hu
    rcases List.mem_cons.mp ht with rfl | ht <;> rcases List.mem_cons.mp hu with rfl | hu
    · rw [hmc, hfr]; omega
    · rw [hfr]
      have := a2 l hlq u (hrest u hu).1
      omega
    · rw [hmc]; exact (hrest t ht).2
    · exact a2 t (hrest t ht).1 u (hrest u hu).1

/-- The tree `buildTree` leaves on a table of at least two entries is good. -/
theorem buildTree_root_good (tie : Nat → Nat) (h : Huffman)
    (hlen : 2 ≤ h.frequencies.length) : Node.Good (h.buildTree tie).root := by
  have hq := initialQueue_length h.frequencies
  have hne : initialQueue h.frequencies ≠ [] := by
    intro h0; rw [h0] at hq; simp at hq; omega
  have hleafs : ∀ t ∈ initialQueue h.frequencies, ∃ s f, t = Node.leaf s f := by
    intro t ht
    rw [initialQueue_eq] at ht
    simp only [List.mem_reverse, List.mem_map] at ht
    obtain ⟨p, _, rfl⟩ := ht
    exact ⟨_, _, rfl⟩
  have hinv := good_invariant tie (initialQueue h.frequencies).length 0
    (initialQueue h.frequencies)
    (by
      intro t ht
      obtain ⟨s, f, rfl⟩ := hleafs t ht
      exact Node.good_leaf s f)
    (by
      intro t _ u hu
      obtain ⟨s, f, rfl⟩ := hleafs u hu
      rw [Node.maxChild_leaf]; exact Nat.zero_le _)
  have hl := mergeLoop_length tie (initialQueue h.frequencies).length 0
    (initialQueue h.frequencies) hne (by omega)
  have hroot : (h.buildTree tie).root =
      PriorityQueue.top (tie (2 * ((initialQueue h.frequencies).length - 1)))
        (mergeLoop tie (initialQueue h.frequencies).length 0 (initialQueue h.frequencies)) := by
    unfold buildTree
    simp only
    rw [if_neg (by omega)]
  rw [hroot]
  have hne2 : mergeLoop tie (initialQueue h.frequencies).length 0
      (initialQueue h.frequencies) ≠ [] := by
    intro h0; rw [h0] at hl; simp at hl
  exact hinv _ (top_isTop _ _ hne2).1

end HuffmanCanonical

/-! ## The code-length table of a text -/

namespace HuffmanCanonical
open Huffman

theorem text_ne_nil_of_length {text : Text} (h : 30 ≤ text.length) : text ≠ [] := by
  intro h0; rw [h0] at h; simp at h

/-- The keys of the code-length table are the characters of the text. -/
theorem coded_keys (tie : Nat → Nat) (h : Huffman) (text : Text) (hne : text ≠ []) (x : Int) :
    x ∈ (coded tie h text).codeLengths.map Prod.fst ↔ x ∈ text := by
  obtain ⟨_, _, c3, _, c5, _, _⟩ := coded_spec tie h text hne
  rw [(c5.map Prod.fst).mem_iff, Node.depths_fst, (c3.map Prod.fst).mem_iff]
  exact (frequencies_spec text).2.1 x

theorem coded_keys_nodup (tie : Nat → Nat) (h : Huffman) (text : Text) (hne : text ≠ []) :
    ((coded tie h text).codeLengths.map Prod.fst).Nodup :=
  (coded_spec tie h text hne).2.2.2.2.2.1.nodup

/-- Every code length is at least 1. -/
theorem coded_lengths_pos (tie : Nat → Nat) (h : Huffman) (text : Text) (hne : text ≠ []) :
    ∀ p ∈ (coded tie h text).codeLengths, 1 ≤ p.2 := by
  obtain ⟨c1, _, _, _, c5, _, _⟩ := coded_spec tie h text hne
  intro p hp
  have hp' := c5.subset hp
  cases hr : (coded tie h text).root with
  | null => rw [hr] at c1; exact absurd rfl c1
  | node s f l r =>
    rw [hr] at c1 hp'
    have hl : l ≠ Node.null := c1
    rw [Node.depths_node hl] at hp'
    rcases List.mem_append.mp hp' with h1 | h1
    · have := Node.depths_ge l 1 p h1; omega
    · have := Node.depths_ge r 1 p h1; omega

/-- The height of the tree of a text shorter than `2 ^ 31`. -/
theorem coded_height (tie : Nat → Nat) (h : Huffman) (text : Text) (hne : text ≠ [])
    (hint : text.length < 2 ^ 31) : (coded tie h text).root.height ≤ 61 := by
  obtain ⟨c1, c2, c3, c4, _, _, _⟩ := coded_spec tie h text hne
  obtain ⟨r1, _⟩ := coded_root tie h text hne
  have hfs : (h.clear.calculateFrequencies text).frequencies = text.foldl incrementCount [] := rfl
  by_cases h2 : 2 ≤ text.dedup.length
  · have hfull := c4 h2
    have hgood : Node.Good (coded tie h text).root := by
      rw [r1]
      apply buildTree_root_good
      rw [hfs, frequencies_length]; exact h2
    have hpos : ∀ p ∈ (coded tie h text).root.leaves, 1 ≤ p.2 :=
      fun p hp => frequencies_pos text p (c3.subset hp)
    have hw := (Node.weight_bound hfull c2 hgood hpos).1
    have hsum : (coded tie h text).root.frequency = text.length := by
      rw [Node.frequency_eq_sum hfull c2, (c3.map Prod.snd).sum_eq]
      exact (frequencies_spec text).2.2.2
    rw [hsum] at hw
    by_contra hc
    have h62 : 31 ≤ (coded tie h text).root.height / 2 := by omega
    have : (2 : Nat) ^ 31 ≤ 2 ^ ((coded tie h text).root.height / 2) :=
      Nat.pow_le_pow_right (by norm_num) h62
    omega
  · have hlen : (text.foldl incrementCount []).length = 1 := by
      rw [frequencies_length]
      have : 0 < text.dedup.length := by
        apply List.length_pos.mpr
        intro h0
        exact hne (List.dedup_eq_nil _ |>.mp h0)
      omega
    obtain ⟨p, hp⟩ := List.length_eq_one.mp hlen
    obtain ⟨s, f⟩ := p
    rw [r1, buildTree_root_of_single tie _ s f (hfs.trans hp)]
    simp [Node.internal, Node.leaf, Node.height]

/-- The code lengths of a text shorter than `2 ^ 31` are between 1 and 64. -/
theorem coded_lengths_bound (tie : Nat → Nat) (h : Huffman) (text : Text) (hne : text ≠ [])
    (hint : text.length < 2 ^ 31) :
    ∀ p ∈ (coded tie h text).codeLengths, 1 ≤ p.2 ∧ p.2 ≤ 64 := by
  intro p hp
  refine ⟨coded_lengths_pos tie h text hne p hp, ?_⟩
  obtain ⟨_, _, _, _, c5, _, _⟩ := coded_spec tie h text hne
  have h1 := Node.depths_le_height _ 0 p (c5.subset hp)
  have h2 := coded_height tie h text hne hint
  omega

/-- The Kraft sum of the code lengths of a text. -/
theorem coded_kraft (tie : Nat → Nat) (h : Huffman) (text : Text) (hne : text ≠ []) :
    kraftSum (coded tie h text).codeLengths ≤ 1 ∧
      (2 ≤ text.dedup.length → kraftSum (coded tie h text).codeLengths = 1) := by
  obtain ⟨c1, c2, c3, c4, c5, _, _⟩ := coded_spec tie h text hne
  obtain ⟨r1, _⟩ := coded_root tie h text hne
  have hfs : (h.clear.calculateFrequencies text).frequencies = text.foldl incrementCount [] := rfl
  rw [kraftSum_perm c5]
  by_cases h2 : 2 ≤ text.dedup.length
  · have e := kraftSum_depths_full (c4 h2) 0
    rw [pow_zero] at e
    exact ⟨le_of_eq e, fun _ => e⟩
  · refine ⟨?_, fun hh => absurd hh h2⟩
    have hlen : (text.foldl incrementCount []).length = 1 := by
      rw [frequencies_length]
      have : 0 < text.dedup.length := by
        apply List.length_pos.mpr
        intro h0
        exact hne (List.dedup_eq_nil _ |>.mp h0)
      omega
    obtain ⟨p, hp⟩ := List.length_eq_one.mp hlen
    obtain ⟨s, f⟩ := p
    rw [r1, buildTree_root_of_single tie _ s f (hfs.trans hp)]
    simp [Node.internal, Node.leaf, Node.depths, kraftSum]
    norm_num

end HuffmanCanonical

/-! ## `compressText` and `run` -/

namespace HuffmanCanonical
open Huffman

theorem appendCode_of_get? (h : Huffman) (c : Int) (code : Bits)
    (hc : h.canonicalCodes.get? c = some code) :
    appendCode h c = { h with compressedData := h.compressedData ++ code } := by
  unfold appendCode
  rw [hc]

/-- When every character of the text has an entry in the canonical table,
`compressText` appends the codes of the characters and changes nothing else. -/
theorem compressText_covered (text : Text) : ∀ (h : Huffman),
    (∀ c ∈ text, ∃ code, h.canonicalCodes.get? c = some code) →
      compressText h text =
        { h with compressedData := h.compressedData ++ encode h.canonicalCodes text } := by
  induction text with
  | nil => intro h _; simp [compressText, encode]
  | cons c rest ih =>
    intro h hc
    obtain ⟨code, hcode⟩ := hc c (List.mem_cons_self _ _)
    have e : compressText h (c :: rest) = compressText (appendCode h c) rest := rfl
    rw [e, appendCode_of_get? h c code hcode]
    have ih' := ih { h with compressedData := h.compressedData ++ code }
      (fun x hx => hc x (List.mem_cons_of_mem _ hx))
    rw [ih']
    simp [encode, hcode, List.flatMap_cons]

/-- The keys of the canonical table are the characters of the text. -/
theorem canonicalized_keys (tie : Nat → Nat) (h : Huffman) (text : Text) (hne : text ≠ [])
    (x : Int) : x ∈ (canonicalized tie h text).canonicalCodes.map Prod.fst ↔ x ∈ text := by
  unfold canonicalized
  rw [generateCanonicalCodes_table, CharMap.foldl_set_keys, assigned_keys,
    (coded_root tie h text hne).2.2.1]
  rw [((sortedSymbols_perm (coded tie h text).codeLengths).map Prod.snd).mem_iff]
  simp only [List.map_map, List.map_nil, List.not_mem_nil, or_false]
  exact coded_keys tie h text hne x

theorem canonicalized_fields (tie : Nat → Nat) (h : Huffman) (text : Text) :
    (canonicalized tie h text).frequencies = (coded tie h text).frequencies ∧
      (canonicalized tie h text).root = (coded tie h text).root ∧
      (canonicalized tie h text).huffmanCodes = (coded tie h text).huffmanCodes ∧
      (canonicalized tie h text).codeLengths = (coded tie h text).codeLengths ∧
      (canonicalized tie h text).compressedData = (coded tie h text).compressedData :=
  ⟨rfl, rfl, rfl, rfl, rfl⟩

/-- Every character of the text has a code length of at least 1 and a canonical
code of that length. -/
theorem canonicalized_entry (tie : Nat → Nat) (h : Huffman) (text : Text) (hne : text ≠ [])
    (s : Int) (hs : s ∈ text) :
    ∃ len code, (canonicalized tie h text).codeLengths.get? s = some len ∧
      (canonicalized tie h text).canonicalCodes.get? s = some code ∧
      code.length = len ∧ 1 ≤ len := by
  have hk := (coded_keys tie h text hne s).mpr hs
  obtain ⟨p, hp, rfl⟩ := List.mem_map.mp hk
  have hnd := coded_keys_nodup tie h text hne
  obtain ⟨code, h1, h2⟩ := canonical_length (coded tie h text) hnd p.1 p.2 hp
  exact ⟨p.2, code, CharMap.get?_of_mem _ hnd hp, h1, h2, coded_lengths_pos tie h text hne p hp⟩

/-- The object `run` leaves for a non-empty text: the tables of the first four
stages, and the encoding of the text. -/
theorem pipeline_eq (tie : Nat → Nat) (h : Huffman) (text : Text) (hne : text ≠ []) :
    pipeline tie h text =
      { canonicalized tie h text with
        compressedData := encode (canonicalized tie h text).canonicalCodes text } := by
  unfold pipeline
  rw [compressText_covered]
  · have : (canonicalized tie h text).compressedData = [] :=
      (coded_root tie h text hne).2.2.2.1
    rw [this]; rfl
  · intro c hc
    obtain ⟨_, code, _, h2, _⟩ := canonicalized_entry tie h text hne c hc
    exact ⟨code, h2⟩

theorem run_state (tie : Nat → Nat) (h : Huffman) (text : Text) (hlen : 30 ≤ text.length) :
    (run tie h text).state =
      { canonicalized tie h text with
        compressedData := encode (canonicalized tie h text).canonicalCodes text } := by
  unfold run
  rw [if_neg (by omega)]
  exact pipeline_eq tie h text (text_ne_nil_of_length hlen)

end HuffmanCanonical

/-! ## Facts used by the claims -/

namespace HuffmanCanonical
open Huffman

theorem encode_cons (table : CharMap Bits) (c : Int) (s : Text) :
    encode table (c :: s) = (table.get? c).getD [] ++ encode table s := by
  simp [encode, List.flatMap_cons]

/-- A table whose codes are non-empty and pairwise unrelated on a set of
symbols encodes the strings over these symbols injectively. -/
theorem encode_injective (table : CharMap Bits) (S : Int → Prop)
    (hcode : ∀ a, S a → ∃ code, table.get? a = some code ∧ code ≠ [])
    (hfree : ∀ a b, S a → S b → a ≠ b → ∀ ca cb, table.get? a = some ca →
      table.get? b = some cb → Unrelated ca cb) :
    ∀ (s1 s2 : Text), (∀ c ∈ s1, S c) → (∀ c ∈ s2, S c) →
      encode table s1 = encode table s2 → s1 = s2 := by
  intro s1
  induction s1 with
  | nil =>
    intro s2 _ h2 he
    cases s2 with
    | nil => rfl
    | cons b r =>
      obtain ⟨cb, hb, hne⟩ := hcode b (h2 b (List.mem_cons_self _ _))
      rw [encode_cons, hb] at he
      simp [encode] at he
      exact absurd he.1 hne
  | cons a r ih =>
    intro s2 h1 h2 he
    obtain ⟨ca, ha, hnea⟩ := hcode a (h1 a (List.mem_cons_self _ _))
    cases s2 with
    | nil =>
      rw [encode_cons, ha] at he
      simp [encode] at he
      exact absurd he.1 hnea
    | cons b r2 =>
      obtain ⟨cb, hb, hneb⟩ := hcode b (h2 b (List.mem_cons_self _ _))
      rw [encode_cons, encode_cons, ha, hb] at he
      simp only [Option.getD_some] at he
      have hab : a = b := by
        by_contra hne
        have hu := hfree a b (h1 a (List.mem_cons_self _ _)) (h2 b (List.mem_cons_self _ _))
          hne ca cb ha hb
        rcases List.append_eq_append_iff.mp he with ⟨a', h3, _⟩ | ⟨c', h3, _⟩
        · exact hu.1 ⟨a', h3.symm⟩
        · exact hu.2 ⟨c', h3.symm⟩
      subst hab
      rw [ha] at hb
      cases hb
      have he2 := List.append_cancel_left he
      rw [ih r2 (fun c hc => h1 c (List.mem_cons_of_mem _ hc))
        (fun c hc => h2 c (List.mem_cons_of_mem _ hc)) he2]

theorem unrelated_ne {a b : Bits} (h : Unrelated a b) : a ≠ b := by
  rintro rfl
  exact h.1 (List.prefix_refl _)

/-- The canonical codes of two distinct characters of a text shorter than
`2 ^ 31` are not prefixes of each other. -/
theorem canonicalized_unrelated (tie : Nat → Nat) (h : Huffman) (text : Text) (hne : text ≠ [])
    (hint : text.length < 2 ^ 31) (a b : Int) (ha : a ∈ text) (hb : b ∈ text) (hab : a ≠ b) :
    ∃ ca cb, (canonicalized tie h text).canonicalCodes.get? a = some ca ∧
      (canonicalized tie h text).canonicalCodes.get? b = some cb ∧ Unrelated ca cb :=
  canonical_unrelated (coded tie h text) (coded_keys_nodup tie h text hne)
    (coded_lengths_bound tie h text hne hint) (coded_kraft tie h text hne).1 a b
    ((coded_keys tie h text hne a).mpr ha) ((coded_keys tie h text hne b).mpr hb) hab

theorem foldl_incrementCount_replicate (c : Int) (n : Nat) : ∀ k : Nat,
    (List.replicate n c).foldl incrementCount [(c, k)] = [(c, k + n)] := by
  induction n with
  | zero => intro k; rfl
  | succ n ih =>
    intro k
    simp only [List.replicate_succ, List.foldl_cons, incrementCount, if_true]
    rw [ih]
    congr 2
    omega

theorem frequencies_single (text : Text) (c : Int) (hne : text ≠ []) (hall : ∀ x ∈ text, x = c) :
    text.foldl incrementCount [] = [(c, text.length)] := by
  have e : text = List.replicate text.length c := List.eq_replicate_iff.mpr ⟨rfl, hall⟩
  cases hn : text.length with
  | zero => exact absurd (List.length_eq_zero.mp hn) hne
  | succ n =>
    rw [hn] at e
    rw [e]
    simp only [List.replicate_succ, List.foldl_cons, incrementCount]
    rw [foldl_incrementCount_replicate]
    congr 2
    omega

theorem encode_single (c : Int) (code : Bits) (text : Text) (hall : ∀ x ∈ text, x = c) :
    encode [(c, code)] text = (List.replicate text.length code).flatten := by
  induction text with
  | nil => rfl
  | cons x r ih =>
    have hx : x = c := hall x (List.mem_cons_self _ _)
    subst hx
    rw [encode_cons, ih (fun y hy => hall y (List.mem_cons_of_mem _ hy))]
    simp [CharMap.get?, List.replicate_succ]

/-- The tables `run` builds for a text made of one repeated character. -/
theorem canonicalized_single (tie : Nat → Nat) (h : Huffman) (text : Text) (c : Int)
    (hne : text ≠ []) (hall : ∀ x ∈ text, x = c) :
    (canonicalized tie h text).codeLengths = [(c, 1)] ∧
      (canonicalized tie h text).canonicalCodes = [(c, ['0'])] := by
  obtain ⟨r1, _, r3, _, r5, _⟩ := coded_root tie h text hne
  have hfs : (h.clear.calculateFrequencies text).frequencies = [(c, text.length)] :=
    frequencies_single text c hne hall
  have hroot := buildTree_root_of_single tie _ c text.length hfs
  rw [← r1] at hroot
  have hcl : (coded tie h text).codeLengths = [(c, 1)] := by
    rw [r5, hroot]
    simp [Node.internal, Node.leaf, Node.depths, CharMap.set]
  refine ⟨hcl, ?_⟩
  unfold canonicalized
  rw [generateCanonicalCodes_table, r3, hcl]
  simp [sortedSymbols, assigned, advance, renderCode, renderLoop, CharMap.set]

theorem encode_congr (t1 t2 : CharMap Bits) (s : Text)
    (h : ∀ c ∈ s, (t1.get? c).getD [] = (t2.get? c).getD []) : encode t1 s = encode t2 s := by
  induction s with
  | nil => rfl
  | cons x r ih =>
    rw [encode_cons, encode_cons, h x (List.mem_cons_self _ _),
      ih (fun c hc => h c (List.mem_cons_of_mem _ hc))]

end HuffmanCanonical

/-! ## Optimality: exchanging and merging lengths -/

namespace HuffmanCanonical
open Huffman

/-- A Kraft sum of lengths up to `M`, scaled by `2 ^ M`, is a natural number. -/
theorem natKraft (xs : List Nat) (M : Nat) (hM : ∀ x ∈ xs, x ≤ M) :
    (((xs.map (fun x => 2 ^ (M - x))).sum : Nat) : ℚ) =
      2 ^ M * (xs.map (fun x => (1 / 2 : ℚ) ^ x)).sum := by
  induction xs with
  | nil => simp
  | cons x rest ih =>
    have h1 := ih (fun y hy => hM y (List.mem_cons_of_mem _ hy))
    have hx := hM x (List.mem_cons_self _ _)
    simp only [List.map_cons, List.sum_cons, Nat.cast_add, mul_add]
    rw [h1]
    congr 1
    have e : M = (M - x) + x := by omega
    have e2 : (2 : ℚ) ^ M = 2 ^ (M - x) * 2 ^ x := by
      rw [← pow_add, ← e]
    rw [e2]
    push_cast
    rw [one_div, inv_pow, mul_assoc, mul_inv_cancel₀ (by positivity), mul_one]

/-- When the Kraft inequality holds and one length exceeds all the others, it
can be lowered to the largest of the others. -/
theorem kraft_lower_max (la lb : Nat) (rest : List Nat) (hab : lb ≤ la)
    (hrest : ∀ x ∈ rest, x ≤ lb)
    (hk : (1 / 2 : ℚ) ^ la + ((1 / 2 : ℚ) ^ lb + (rest.map (fun x => (1 / 2 : ℚ) ^ x)).sum) ≤ 1) :
    (1 / 2 : ℚ) ^ lb + ((1 / 2 : ℚ) ^ lb + (rest.map (fun x => (1 / 2 : ℚ) ^ x)).sum) ≤ 1 := by
  rcases Nat.eq_or_lt_of_le hab with h | h
  · subst h; exact hk
  · have hn := natKraft (lb :: rest) lb (by
      intro x hx
      rcases List.mem_cons.mp hx with rfl | hx
      · exact le_refl _
      · exact hrest x hx)
    simp only [List.map_cons, List.sum_cons] at hn
    set S : ℚ := (1 / 2 : ℚ) ^ lb + (rest.map (fun x => (1 / 2 : ℚ) ^ x)).sum with hS
    set N : Nat := 2 ^ (lb - lb) + (rest.map (fun x => 2 ^ (lb - x))).sum with hN
    have hpos : (0 : ℚ) < (1 / 2 : ℚ) ^ la := by positivity
    have hS1 : S < 1 := lt_of_lt_of_le (lt_add_of_pos_left S hpos) hk
    have h2pos : (0 : ℚ) < 2 ^ lb := by positivity
    have hlt : (N : ℚ) < ((2 ^ lb : Nat) : ℚ) := by
      rw [hn]
      push_cast
      calc (2 : ℚ) ^ lb * S < 2 ^ lb * 1 := by
            exact mul_lt_mul_of_pos_left hS1 h2pos
        _ = 2 ^ lb := mul_one _
    have hlt' : N < 2 ^ lb := by exact_mod_cast hlt
    have hle : ((N + 1 : Nat) : ℚ) ≤ ((2 ^ lb : Nat) : ℚ) := by
      exact_mod_cast hlt'
    push_cast at hle
    rw [hn] at hle
    have e1 : (1 : ℚ) = 2 ^ lb * (1 / 2 : ℚ) ^ lb := by
      rw [one_div, inv_pow, mul_inv_cancel₀ (by positivity)]
    have hle2 : (2 : ℚ) ^ lb * (S + (1 / 2 : ℚ) ^ lb) ≤ 2 ^ lb * 1 := by
      rw [mul_add, ← e1, mul_one]; exact hle
    have := le_of_mul_le_mul_left hle2 h2pos
    linarith

/-- Exchange: the lightest tree of an assignment can be given the largest
length without raising the weighted length; the lengths are only permuted. -/
theorem swap_max (t0 : Node) : ∀ (R : List (Node × Nat)) (l0 : Nat),
    (∀ p ∈ R, t0.frequency ≤ p.1.frequency) →
      ∃ (l0' : Nat) (R' : List (Node × Nat)),
        R'.map Prod.fst = R.map Prod.fst ∧
        (l0' :: R'.map Prod.snd).Perm (l0 :: R.map Prod.snd) ∧
        (∀ p ∈ R', p.2 ≤ l0') ∧
        t0.frequency * l0' + assignCost R' ≤ t0.frequency * l0 + assignCost R := by
  intro R
  induction R with
  | nil =>
    intro l0 _
    exact ⟨l0, [], rfl, List.Perm.refl _, by simp, le_refl _⟩
  | cons q R1 ih =>
    intro l0 hw
    obtain ⟨t1, l1⟩ := q
    obtain ⟨m, R2, e1, e2, e3, e4⟩ := ih l0 (fun p hp => hw p (List.mem_cons_of_mem _ hp))
    have hw1 : t0.frequency ≤ t1.frequency := hw (t1, l1) (List.mem_cons_self _ _)
    by_cases hc : l1 ≤ m
    · refine ⟨m, (t1, l1) :: R2, by simp [e1], ?_, ?_, ?_⟩
      · simp only [List.map_cons]
        exact (List.Perm.swap _ _ _).trans ((List.Perm.cons l1 e2).trans (List.Perm.swap _ _ _))
      · intro p hp
        rcases List.mem_cons.mp hp with rfl | hp
        · exact hc
        · exact e3 p hp
      · simp only [assignCost, List.map_cons, List.sum_cons] at e4 ⊢
        omega
    · have hlt : m < l1 := by omega
      refine ⟨l1, (t1, m) :: R2, by simp [e1], ?_, ?_, ?_⟩
      · simp only [List.map_cons]
        exact (List.Perm.cons l1 e2).trans (List.Perm.swap _ _ _)
      · intro p hp
        rcases List.mem_cons.mp hp with rfl | hp
        · exact le_of_lt hlt
        · exact le_trans (e3 p hp) (le_of_lt hlt)
      · simp only [assignCost, List.map_cons, List.sum_cons] at e4 ⊢
        obtain ⟨d, rfl⟩ : ∃ d, l1 = m + d := ⟨l1 - m, by omega⟩
        have h5 : t0.frequency * d ≤ t1.frequency * d := Nat.mul_le_mul_right d hw1
        rw [Nat.mul_add, Nat.mul_add]
        omega

end HuffmanCanonical

/-! ## Optimality: the merge loop -/

namespace HuffmanCanonical
open Huffman

theorem assignKraft_perm {A B : List (Node × Nat)} (h : A.Perm B) :
    assignKraft A = assignKraft B := (h.map _).sum_eq

theorem assignCost_perm {A B : List (Node × Nat)} (h : A.Perm B) :
    assignCost A = assignCost B := (h.map _).sum_eq

theorem forestCost_perm {p q : PriorityQueue} (h : p.Perm q) :
    forestCost p = forestCost q := (h.map _).sum_eq

theorem assignKraft_eq (A : List (Node × Nat)) :
    assignKraft A = ((A.map Prod.snd).map (fun x => (1 / 2 : ℚ) ^ x)).sum := by
  unfold assignKraft
  rw [List.map_map]
  rfl

theorem sum_half_pow_nonneg (xs : List Nat) :
    0 ≤ (xs.map (fun x => (1 / 2 : ℚ) ^ x)).sum := by
  apply List.sum_nonneg
  intro y hy
  obtain ⟨x, _, rfl⟩ := List.mem_map.mp hy
  positivity

/-- Merging: an assignment of lengths to a queue that satisfies the Kraft
inequality yields one for the queue in which the two lightest trees are
replaced by their parent, cheaper by at least the weight of the parent. -/
theorem merge_assignment (a b : Node) (la lb : Nat) (R : List (Node × Nat))
    (hab : a.frequency ≤ b.frequency) (hR : ∀ p ∈ R, b.frequency ≤ p.1.frequency)
    (hk : assignKraft ((a, la) :: (b, lb) :: R) ≤ 1) :
    ∃ (lc : Nat) (R' : List (Node × Nat)), R'.map Prod.fst = R.map Prod.fst ∧
      (1 / 2 : ℚ) ^ lc + assignKraft R' ≤ 1 ∧
      (a.frequency + b.frequency) * lc + assignCost R' + (a.frequency + b.frequency) ≤
        a.frequency * la + b.frequency * lb + assignCost R := by
  obtain ⟨la', R1, e1, e2, e3, e4⟩ := swap_max a ((b, lb) :: R) la (by
    intro p hp
    rcases List.mem_cons.mp hp with rfl | hp
    · exact hab
    · exact le_trans hab (hR p hp))
  cases R1 with
  | nil => simp at e1
  | cons q R2 =>
    obtain ⟨b', lb1⟩ := q
    simp only [List.map_cons, List.cons.injEq] at e1
    obtain ⟨rfl, e1⟩ := e1
    obtain ⟨lb', R3, f1, f2, f3, f4⟩ := swap_max b' R2 lb1 (by
      intro p hp
      have : p.1 ∈ R.map Prod.fst := by
        rw [← e1]; exact List.mem_map.mpr ⟨p, hp, rfl⟩
      obtain ⟨q, hq, hq1⟩ := List.mem_map.mp this
      rw [← hq1]; exact hR q hq)
    have hmax : lb' ≤ la' := by
      have : lb' ∈ lb1 :: R2.map Prod.snd := f2.subset (List.mem_cons_self _ _)
      rcases List.mem_cons.mp this with h | h
      · rw [h]; exact e3 (b', lb1) (List.mem_cons_self _ _)
      · obtain ⟨q, hq, hq1⟩ := List.mem_map.mp h
        rw [← hq1]; exact e3 q (List.mem_cons_of_mem _ hq)
    have hK : (1 / 2 : ℚ) ^ la' +
        ((1 / 2 : ℚ) ^ lb' + ((R3.map Prod.snd).map (fun x => (1 / 2 : ℚ) ^ x)).sum) ≤ 1 := by
      have k1 : assignKraft ((a, la) :: (b', lb) :: R) =
          ((la :: (((b', lb) :: R).map Prod.snd)).map (fun x => (1 / 2 : ℚ) ^ x)).sum := by
        rw [assignKraft_eq]; rfl
      have k2 := ((e2.map (fun x => (1 / 2 : ℚ) ^ x)).sum_eq)
      have k3 := ((f2.map (fun x => (1 / 2 : ℚ) ^ x)).sum_eq)
      rw [k1, ← k2] at hk
      simp only [List.map_cons, List.sum_cons] at hk k3 ⊢
      rw [k3]
      exact hk
    have hK2 := kraft_lower_max la' lb' (R3.map Prod.snd) hmax (by
      intro x hx
      obtain ⟨q, hq, rfl⟩ := List.mem_map.mp hx
      exact f3 q hq) hK
    have hnn := sum_half_pow_nonneg (R3.map Prod.snd)
    have hm : 1 ≤ lb' := by
      by_contra hc
      have h0 : lb' = 0 := by omega
      rw [h0] at hK2
      simp only [pow_zero] at hK2
      linarith
    obtain ⟨m, rfl⟩ : ∃ m, lb' = m + 1 := ⟨lb' - 1, by omega⟩
    refine ⟨m, R3, f1.trans e1, ?_, ?_⟩
    · rw [assignKraft_eq]
      have : (1 / 2 : ℚ) ^ m = (1 / 2 : ℚ) ^ (m + 1) + (1 / 2 : ℚ) ^ (m + 1) := by
        rw [pow_succ]; ring
      rw [this]
      linarith
    · simp only [assignCost, List.map_cons, List.sum_cons] at e4 f4 ⊢
      have h1 : a.frequency * (m + 1) ≤ a.frequency * la' := Nat.mul_le_mul_left _ hmax
      have h2 : (a.frequency + b'.frequency) * m + (a.frequency + b'.frequency) =
          a.frequency * (m + 1) + b'.frequency * (m + 1) := by ring
      omega

theorem extract_entry (A : List (Node × Nat)) (x : Node) (rest : List Node)
    (h : (A.map Prod.fst).Perm (x :: rest)) :
    ∃ (lx : Nat) (A' : List (Node × Nat)), A.Perm ((x, lx) :: A') ∧
      (A'.map Prod.fst).Perm rest := by
  have hx : x ∈ A.map Prod.fst := h.symm.subset (List.mem_cons_self _ _)
  obtain ⟨p, hp, rfl⟩ := List.mem_map.mp hx
  obtain ⟨y, ly⟩ := p
  have h0 := List.perm_cons_erase hp
  refine ⟨ly, _, h0, ?_⟩
  have h1 := h0.map Prod.fst
  simp only [List.map_cons] at h1
  exact (List.Perm.cons_inv (h1.symm.trans h))

namespace Node

/-- Moving a full tree with summed frequencies one level down adds its weight
to its weighted path length. -/
theorem cost_succ {t : Node} (ht : Full t) (hs : SumOK t) :
    ∀ d : Nat, t.cost (d + 1) = t.cost d + t.frequency := by
  induction ht with
  | leaf s f => intro d; simp [cost, frequency, Nat.mul_succ]
  | inner s f l r hl hr ihl ihr =>
    intro d
    unfold SumOK at hs
    rcases hs with hs | ⟨s1, s2, s3⟩
    · exact absurd hs.1 hl.ne_null
    · rw [cost_node hl.ne_null, cost_node hl.ne_null, ihl s2, ihr s3]
      have e : (node s f l r).frequency = f := rfl
      rw [e, s1]
      omega

end Node

/-- The tree the merge loop ends on costs no more than any assignment of
lengths to the trees of the queue that satisfies the Kraft inequality. -/
theorem mergeLoop_optimal (tie : Nat → Nat) : ∀ (fuel k : Nat) (pq : PriorityQueue),
    pq ≠ [] → pq.length ≤ fuel + 1 → (∀ t ∈ pq, Node.Full t ∧ Node.SumOK t) →
      ∀ A : List (Node × Nat), (A.map Prod.fst).Perm pq → assignKraft A ≤ 1 →
        ∀ T ∈ mergeLoop tie fuel k pq, T.cost 0 ≤ forestCost pq + assignCost A := by
  have single : ∀ (pq : PriorityQueue), pq ≠ [] → pq.length ≤ 1 → ∀ A : List (Node × Nat),
      ∀ T ∈ pq, T.cost 0 ≤ forestCost pq + assignCost A := by
    intro pq hne hlen A T hT
    have hpos : 0 < pq.length := List.length_pos.mpr hne
    obtain ⟨t, rfl⟩ := List.length_eq_one.mp (by omega : pq.length = 1)
    rw [List.mem_singleton] at hT
    subst hT
    simp [forestCost]
  intro fuel
  induction fuel with
  | zero =>
    intro k pq hne hlen _ A _ _ T hT
    exact single pq hne (by omega) A T hT
  | succ n ih =>
    intro k pq hne hlen hwf A hA hk T hT
    rw [mergeLoop_succ] at hT
    split_ifs at hT with h1
    · obtain ⟨ha, hb, hperm⟩ := merge_step_spec (tie k) (tie (k + 1)) pq h1
      set l := pq.top (tie k) with hl
      set r := (pq.pop l).top (tie (k + 1)) with hr
      set rest := (pq.pop l).pop r with hrest
      have hlq : l ∈ pq := ha.1
      have hrq : r ∈ pq := List.mem_of_mem_erase hb.1
      have hlr : l.frequency ≤ r.frequency := isTop_frequency_le ha r hrq
      obtain ⟨la, A1, p1, q1⟩ := extract_entry A l (r :: rest) (hA.trans hperm)
      obtain ⟨lb, A2, p2, q2⟩ := extract_entry A1 r rest q1
      have hAperm : A.Perm ((l, la) :: (r, lb) :: A2) := p1.trans (List.Perm.cons _ p2)
      have hR : ∀ p ∈ A2, r.frequency ≤ p.1.frequency := by
        intro p hp
        have h3 : p.1 ∈ rest := q2.subset (List.mem_map.mpr ⟨p, hp, rfl⟩)
        exact isTop_frequency_le hb p.1 (List.mem_of_mem_erase h3)
      have hk' : assignKraft ((l, la) :: (r, lb) :: A2) ≤ 1 := by
        rw [← assignKraft_perm hAperm]; exact hk
      obtain ⟨lc, R', m1, m2, m3⟩ := merge_assignment l r la lb A2 hlr hR hk'
      have hfl := hwf l hlq
      have hfr := hwf r hrq
      have hwf' : ∀ t ∈ Node.internal (l.frequency + r.frequency) l r :: rest,
          Node.Full t ∧ Node.SumOK t := by
        intro t ht
        rcases List.mem_cons.mp ht with rfl | ht
        · exact ⟨Node.full_internal hfl.1 hfr.1, Node.sumOK_internal hfl.2 hfr.2⟩
        · exact hwf t (List.mem_of_mem_erase (List.mem_of_mem_erase ht))
      have hlen' : (Node.internal (l.frequency + r.frequency) l r :: rest).length ≤ n + 1 := by
        have := hperm.length_eq
        simp only [List.length_cons] at this ⊢
        omega
      have hih := ih (k + 2) (Node.internal (l.frequency + r.frequency) l r :: rest)
        (by simp) hlen' hwf'
        ((Node.internal (l.frequency + r.frequency) l r, lc) :: R')
        (by
          simp only [List.map_cons]
          rw [m1]
          exact List.Perm.cons _ q2)
        (by
          simp only [assignKraft, List.map_cons, List.sum_cons] at m2 ⊢
          exact m2)
        T hT
      have c1 : (Node.internal (l.frequency + r.frequency) l r).cost 0 =
          l.cost 0 + l.frequency + (r.cost 0 + r.frequency) := by
        rw [Node.internal, Node.cost_node hfl.1.ne_null, Node.cost_succ hfl.1 hfl.2,
          Node.cost_succ hfr.1 hfr.2]
      have c2 : forestCost pq = l.cost 0 + (r.cost 0 + forestCost rest) := by
        rw [forestCost_perm hperm]; simp [forestCost]
      have c3 : assignCost A = l.frequency * la + (r.frequency * lb + assignCost A2) := by
        rw [assignCost_perm hAperm]; simp [assignCost]
      have c4 : forestCost (Node.internal (l.frequency + r.frequency) l r :: rest) =
          (Node.internal (l.frequency + r.frequency) l r).cost 0 + forestCost rest := by
        simp [forestCost]
      have c5 : assignCost ((Node.internal (l.frequency + r.frequency) l r, lc) :: R') =
          (l.frequency + r.frequency) * lc + assignCost R' := by
        simp [assignCost, Node.internal, Node.frequency]
      rw [c4, c5, c1] at hih
      rw [c2, c3]
      omega
    · exact single pq hne (by omega) A T hT

end HuffmanCanonical

/-! ## Optimality: the code lengths of a text -/

namespace HuffmanCanonical
open Huffman

namespace Node

/-- The weighted path length of a tree, read through any function that gives
every leaf symbol its depth. -/
theorem cost_eq_weighted (len : Int → Nat) (t : Node) : ∀ d : Nat,
    (∀ p ∈ t.depths d, len p.1 = p.2) →
      t.cost d = (t.leaves.map (fun p => p.2 * len p.1)).sum := by
  induction t with
  | null => intro d _; rfl
  | node s f l r ihl ihr =>
    intro d hd
    by_cases hleaf : l = null ∧ r = null
    · simp only [depths, if_pos hleaf, List.mem_singleton, forall_eq] at hd
      simp only [cost, leaves, if_pos hleaf, List.map_cons, List.map_nil, List.sum_cons,
        List.sum_nil, Nat.add_zero]
      rw [hd]
    · simp only [depths, if_neg hleaf, List.mem_append] at hd
      simp only [cost, leaves, if_neg hleaf, List.map_append, List.sum_append]
      rw [ihl (d + 1) (fun p hp => hd p (Or.inl hp)), ihr (d + 1) (fun p hp => hd p (Or.inr hp))]

end Node

/-- The frequency table of a text, up to order: one entry per distinct
character, with its number of occurrences. -/
theorem frequencies_perm (text : Text) :
    (text.foldl incrementCount []).Perm (text.dedup.map (fun s => (s, text.count s))) := by
  obtain ⟨h1, _, h3, _⟩ := frequencies_spec text
  have hnd1 : (text.foldl incrementCount []).Nodup := List.Nodup.of_map Prod.fst h1
  have hnd2 : (text.dedup.map (fun s => (s, text.count s))).Nodup := by
    apply List.Nodup.map _ (List.nodup_dedup text)
    intro a b hab
    exact congrArg Prod.fst hab
  rw [List.perm_ext_iff_of_nodup hnd1 hnd2]
  rintro ⟨x, n⟩
  rw [h3]
  simp only [List.mem_map, List.mem_dedup, Prod.mk.injEq]
  constructor
  · rintro ⟨hx, rfl⟩
    exact ⟨x, hx, rfl, rfl⟩
  · rintro ⟨y, hy, rfl, rfl⟩
    exact ⟨hy, rfl⟩

/-- The tree built for a table of at least two entries costs no more than any
assignment of lengths to the entries of the table that satisfies the Kraft
inequality. -/
theorem treeCoded_optimal (tie : Nat → Nat) (h : Huffman) (hlen : 2 ≤ h.frequencies.length)
    (L : Int → Nat)
    (hk : (h.frequencies.map (fun p => (1 / 2 : ℚ) ^ L p.1)).sum ≤ 1) :
    (treeCoded tie h).root.cost 0 ≤ (h.frequencies.map (fun p => p.2 * L p.1)).sum := by
  have hfne : h.frequencies ≠ [] := by
    intro h0; rw [h0] at hlen; simp at hlen
  obtain ⟨r1, _⟩ := treeCoded_root tie h hfne
  set fs := h.frequencies with hfsdef
  have hq := initialQueue_length fs
  have hqne : initialQueue fs ≠ [] := by
    intro h0; rw [h0] at hq; simp at hq; omega
  have hroot : (treeCoded tie h).root =
      PriorityQueue.top (tie (2 * ((initialQueue fs).length - 1)))
        (mergeLoop tie (initialQueue fs).length 0 (initialQueue fs)) := by
    rw [r1]
    unfold buildTree
    simp only [← hfsdef]
    rw [if_neg (by omega)]
  have hl := mergeLoop_length tie (initialQueue fs).length 0 (initialQueue fs) hqne (by omega)
  have hne2 : mergeLoop tie (initialQueue fs).length 0 (initialQueue fs) ≠ [] := by
    intro h0; rw [h0] at hl; simp at hl
  have hmem := (top_isTop (tie (2 * ((initialQueue fs).length - 1))) _ hne2).1
  rw [← hroot] at hmem
  have hperm : (initialQueue fs).Perm (fs.map (fun p => Node.leaf p.1 p.2)) := by
    rw [initialQueue_eq]; exact List.reverse_perm _
  have key := mergeLoop_optimal tie (initialQueue fs).length 0 (initialQueue fs) hqne
    (by omega) (initialQueue_forest fs).1
    ((initialQueue fs).map (fun t => (t, L t.symbol)))
    (by
      rw [List.map_map]
      have : (Prod.fst ∘ fun t : Node => (t, L t.symbol)) = id := rfl
      rw [this, List.map_id])
    (by
      rw [assignKraft, List.map_map, ((hperm.map _).sum_eq), List.map_map]
      exact hk)
    _ hmem
  have c1 : forestCost (initialQueue fs) = 0 := by
    rw [forestCost_perm hperm]
    unfold forestCost
    rw [List.map_map]
    apply List.sum_eq_zero
    intro x hx
    obtain ⟨p, _, rfl⟩ := List.mem_map.mp hx
    simp [Node.leaf, Node.cost]
  have c2 : assignCost ((initialQueue fs).map (fun t => (t, L t.symbol))) =
      (fs.map (fun p => p.2 * L p.1)).sum := by
    unfold assignCost
    rw [List.map_map, ((hperm.map _).sum_eq), List.map_map]
    rfl
  rw [c1, c2, Nat.zero_add] at key
  exact key

/-- The code length of every leaf symbol is the depth of its leaf. -/
theorem treeCoded_length_of_depth (tie : Nat → Nat) (h : Huffman) (hne : h.frequencies ≠ [])
    (hnd : (h.frequencies.map Prod.fst).Nodup) (hcl : h.codeLengths = [])
    (hhc : h.huffmanCodes = []) :
    ∀ p ∈ (treeCoded tie h).root.depths 0,
      ((treeCoded tie h).codeLengths.get? p.1).getD 0 = p.2 := by
  obtain ⟨_, _, _, _, c5, c6, _⟩ := treeCoded_spec tie h hne hnd hcl hhc
  intro p hp
  have : (p.1, p.2) ∈ (treeCoded tie h).codeLengths := c5.symm.subset hp
  rw [CharMap.get?_of_mem _ c6.nodup this]
  rfl

/-- The weighted path length of the tree of a table is the sum over the table
of frequency times code length. -/
theorem treeCoded_cost (tie : Nat → Nat) (h : Huffman) (hne : h.frequencies ≠ [])
    (hnd : (h.frequencies.map Prod.fst).Nodup) (hcl : h.codeLengths = [])
    (hhc : h.huffmanCodes = []) :
    (treeCoded tie h).root.cost 0 =
      (h.frequencies.map (fun p =>
        p.2 * ((treeCoded tie h).codeLengths.get? p.1).getD 0)).sum := by
  obtain ⟨_, _, c3, _, _, _, _⟩ := treeCoded_spec tie h hne hnd hcl hhc
  rw [Node.cost_eq_weighted (fun s => ((treeCoded tie h).codeLengths.get? s).getD 0) _ 0
    (treeCoded_length_of_depth tie h hne hnd hcl hhc)]
  exact (c3.map _).sum_eq

/-- The Kraft sum of the code lengths, read over the entries of the table. -/
theorem treeCoded_kraft_table (tie : Nat → Nat) (h : Huffman) (hne : h.frequencies ≠ [])
    (hnd : (h.frequencies.map Prod.fst).Nodup) (hcl : h.codeLengths = [])
    (hhc : h.huffmanCodes = []) :
    (h.frequencies.map (fun p =>
        (1 / 2 : ℚ) ^ ((treeCoded tie h).codeLengths.get? p.1).getD 0)).sum =
      kraftSum ((treeCoded tie h).root.depths 0) := by
  obtain ⟨_, _, c3, _, _, _, _⟩ := treeCoded_spec tie h hne hnd hcl hhc
  have hlen := treeCoded_length_of_depth tie h hne hnd hcl hhc
  have e1 : (h.frequencies.map (fun p =>
      (1 / 2 : ℚ) ^ ((treeCoded tie h).codeLengths.get? p.1).getD 0)) =
      (h.frequencies.map Prod.fst).map (fun s =>
        (1 / 2 : ℚ) ^ ((treeCoded tie h).codeLengths.get? s).getD 0) := by
    rw [List.map_map]; rfl
  have e2 : kraftSum ((treeCoded tie h).root.depths 0) =
      ((((treeCoded tie h).root.depths 0).map Prod.fst).map (fun s =>
        (1 / 2 : ℚ) ^ ((treeCoded tie h).codeLengths.get? s).getD 0)).sum := by
    unfold kraftSum
    rw [List.map_map]
    congr 1
    apply List.map_congr_left
    intro p hp
    show (1 / 2 : ℚ) ^ p.2 = (1 / 2 : ℚ) ^ ((treeCoded tie h).codeLengths.get? p.1).getD 0
    rw [hlen p hp]
  rw [e1, e2, Node.depths_fst]
  exact (((c3.map Prod.fst).symm).map _).sum_eq

/-- The tree built for a text of at least two distinct characters costs no more
than any assignment of lengths to the entries of the frequency table that
satisfies the Kraft inequality. -/
theorem coded_tree_optimal (tie : Nat → Nat) (h : Huffman) (text : Text)
    (h2 : 2 ≤ text.dedup.length) (L : Int → Nat)
    (hk : ((text.foldl incrementCount []).map (fun p => (1 / 2 : ℚ) ^ L p.1)).sum ≤ 1) :
    (coded tie h text).root.cost 0 ≤
      ((text.foldl incrementCount []).map (fun p => p.2 * L p.1)).sum :=
  treeCoded_optimal tie (h.clear.calculateFrequencies text)
    (by
      have e : (h.clear.calculateFrequencies text).frequencies =
        text.foldl incrementCount [] := rfl
      rw [e, frequencies_length]; exact h2) L hk

/-- The weighted path length of the tree of a text is the sum over the distinct
characters of occurrences times code length. -/
theorem coded_cost (tie : Nat → Nat) (h : Huffman) (text : Text) (hne : text ≠ []) :
    (coded tie h text).root.cost 0 =
      (text.dedup.map (fun s =>
        text.count s * ((coded tie h text).codeLengths.get? s).getD 0)).sum := by
  have h1 := treeCoded_cost tie (h.clear.calculateFrequencies text)
    (frequencies_ne_nil text hne) (frequencies_spec text).1 rfl rfl
  rw [coded_eq, h1]
  have e : (h.clear.calculateFrequencies text).frequencies = text.foldl incrementCount [] := rfl
  rw [e, ((frequencies_perm text).map _).sum_eq, List.map_map]
  rfl

/-- Regrouping a sum over the characters of a text by distinct character. -/
theorem sum_map_eq_sum_dedup (text : Text) (g : Int → Nat) :
    (text.map g).sum = (text.dedup.map (fun s => text.count s * g s)).sum := by
  rw [Finset.sum_list_map_count, ← List.sum_toFinset _ (List.nodup_dedup text)]
  have e : text.dedup.toFinset = text.toFinset := by
    ext a; simp
  rw [e]
  simp

theorem encode_length (table : CharMap Bits) (s : Text) :
    (encode table s).length = (s.map (fun c => ((table.get? c).getD []).length)).sum := by
  induction s with
  | nil => rfl
  | cons x r ih => rw [encode_cons, List.length_append, ih]; simp

end HuffmanCanonical

/-! ## Ties of the queue -/

namespace HuffmanCanonical
open Huffman

/-- `CompareNodes` leaves two nodes unordered exactly when they have the same
frequency and the same symbol. -/
theorem compareNodes_tie_iff (a b : Node) :
    (CompareNodes a b = false ∧ CompareNodes b a = false) ↔
      (a.frequency = b.frequency ∧ a.symbol = b.symbol) := by
  have h1 : CompareNodes a b = false ↔ ¬ (CompareNodes a b = true) := by simp
  have h2 : CompareNodes b a = false ↔ ¬ (CompareNodes b a = true) := by simp
  rw [h1, h2, compareNodes_iff, compareNodes_iff]
  constructor
  · intro h; constructor <;> omega
  · rintro ⟨e1, e2⟩; constructor <;> omega

/-- The weighted length of the code of a table does not exceed that of the code
built for the same table in another order with another resolution of ties. -/
theorem weighted_length_le (tie1 tie2 : Nat → Nat) (fs1 fs2 : List (Int × Nat))
    (hne : fs1 ≠ []) (hnd : (fs1.map Prod.fst).Nodup) (hperm : fs1.Perm fs2) :
    (fs1.map (fun p => p.2 * ((codeLengthsOf tie1 fs1).get? p.1).getD 0)).sum ≤
      (fs2.map (fun p => p.2 * ((codeLengthsOf tie2 fs2).get? p.1).getD 0)).sum := by
  have hne2 : fs2 ≠ [] := by
    intro h0; rw [h0] at hperm; exact hne (List.perm_nil.mp hperm)
  have hnd2 : (fs2.map Prod.fst).Nodup := ((hperm.map Prod.fst).nodup_iff).mp hnd
  have c1 := treeCoded_cost tie1 { Huffman.new with frequencies := fs1 } hne hnd rfl rfl
  have c2 := treeCoded_cost tie2 { Huffman.new with frequencies := fs2 } hne2 hnd2 rfl rfl
  show (fs1.map (fun p => p.2 *
      ((treeCoded tie1 { Huffman.new with frequencies := fs1 }).codeLengths.get? p.1).getD 0)).sum ≤
    (fs2.map (fun p => p.2 *
      ((treeCoded tie2 { Huffman.new with frequencies := fs2 }).codeLengths.get? p.1).getD 0)).sum
  rw [← c1, ← c2]
  by_cases h2 : 2 ≤ fs1.length
  · have h22 : 2 ≤ fs2.length := by rw [← hperm.length_eq]; exact h2
    have hfull := (treeCoded_spec tie2 { Huffman.new with frequencies := fs2 } hne2 hnd2
      rfl rfl).2.2.2.1 h22
    have hk := treeCoded_kraft_table tie2 { Huffman.new with frequencies := fs2 } hne2 hnd2
      rfl rfl
    rw [kraftSum_depths_full hfull 0, pow_zero] at hk
    have key := treeCoded_optimal tie1 { Huffman.new with frequencies := fs1 } h2
      (fun s => ((treeCoded tie2 { Huffman.new with frequencies := fs2 }).codeLengths.get? s).getD 0)
      (by
        have e : (fs1.map (fun p => (1 / 2 : ℚ) ^ ((treeCoded tie2
            { Huffman.new with frequencies := fs2 }).codeLengths.get? p.1).getD 0)).sum =
            (fs2.map (fun p => (1 / 2 : ℚ) ^ ((treeCoded tie2
            { Huffman.new with frequencies := fs2 }).codeLengths.get? p.1).getD 0)).sum :=
          (hperm.map _).sum_eq
        show (fs1.map (fun p => (1 / 2 : ℚ) ^ ((treeCoded tie2
            { Huffman.new with frequencies := fs2 }).codeLengths.get? p.1).getD 0)).sum ≤ 1
        rw [e]
        exact le_of_eq hk)
    rw [c2]
    refine le_trans key (le_of_eq ?_)
    exact (hperm.map _).sum_eq
  · have hpos : 0 < fs1.length := List.length_pos.mpr hne
    obtain ⟨p, hp⟩ := List.length_eq_one.mp (by omega : fs1.length = 1)
    obtain ⟨s, f⟩ := p
    subst hp
    have hfs2 : fs2 = [(s, f)] := List.perm_singleton.mp hperm.symm
    subst hfs2
    have r1 := (treeCoded_root tie1 { Huffman.new with frequencies := [(s, f)] } hne).1
    have r2 := (treeCoded_root tie2 { Huffman.new with frequencies := [(s, f)] } hne).1
    rw [r1, r2, buildTree_root_of_single tie1 _ s f rfl, buildTree_root_of_single tie2 _ s f rfl]

/-- The weighted length of the code of a table depends neither on the order of
the table nor on the resolution of ties. -/
theorem weighted_length_tie_independent (tie1 tie2 : Nat → Nat) (fs1 fs2 : List (Int × Nat))
    (hne : fs1 ≠ []) (hnd : (fs1.map Prod.fst).Nodup) (hperm : fs1.Perm fs2) :
    (fs1.map (fun p => p.2 * ((codeLengthsOf tie1 fs1).get? p.1).getD 0)).sum =
      (fs2.map (fun p => p.2 * ((codeLengthsOf tie2 fs2).get? p.1).getD 0)).sum := by
  have hne2 : fs2 ≠ [] := by
    intro h0; rw [h0] at hperm; exact hne (List.perm_nil.mp hperm)
  have hnd2 : (fs2.map Prod.fst).Nodup := ((hperm.map Prod.fst).nodup_iff).mp hnd
  exact le_antisymm (weighted_length_le tie1 tie2 fs1 fs2 hne hnd hperm)
    (weighted_length_le tie2 tie1 fs2 fs1 hne2 hnd2 hperm.symm)

end HuffmanCanonical

/-! ## Key sets and lengths after `run` -/

namespace HuffmanCanonical
open Huffman

theorem Node.paths_fst (t : Node) : ∀ code : Bits,
    (t.paths code).map Prod.fst = t.leaves.map Prod.fst := by
  induction t with
  | null => intro code; rfl
  | node s f l r ihl ihr =>
    intro code
    by_cases hleaf : l = Node.null ∧ r = Node.null
    · simp [Node.leaves, Node.paths, hleaf]
    · simp only [Node.leaves, Node.paths, if_neg hleaf, List.map_append, ihl, ihr]

/-- The keys of the Huffman code table are the characters of the text. -/
theorem coded_huffman_keys (tie : Nat → Nat) (h : Huffman) (text : Text) (hne : text ≠ [])
    (x : Int) : x ∈ (coded tie h text).huffmanCodes.map Prod.fst ↔ x ∈ text := by
  obtain ⟨_, _, c3, _, _, _, c7⟩ := coded_spec tie h text hne
  rw [(c7.map Prod.fst).mem_iff, Node.paths_fst, (c3.map Prod.fst).mem_iff]
  exact (frequencies_spec text).2.1 x

/-- The canonical table after `generateCanonicalCodes`, up to order. -/
theorem canonicalized_nonempty_codes (tie : Nat → Nat) (h : Huffman) (text : Text)
    (hne : text ≠ []) :
    ∀ p ∈ (canonicalized tie h text).canonicalCodes, p.2 ≠ [] := by
  intro p hp
  have hk : p.1 ∈ (canonicalized tie h text).canonicalCodes.map Prod.fst :=
    List.mem_map.mpr ⟨p, hp, rfl⟩
  have hx := (canonicalized_keys tie h text hne p.1).mp hk
  obtain ⟨len, code, _, h2, h3, h4⟩ := canonicalized_entry tie h text hne p.1 hx
  have hord : (canonicalized tie h text).canonicalCodes.Ordered := by
    unfold canonicalized
    rw [generateCanonicalCodes_table]
    exact CharMap.foldl_set_ordered _ _ (by
      rw [(coded_root tie h text hne).2.2.1]; exact CharMap.ordered_nil)
  have := CharMap.get?_of_mem _ hord.nodup hp
  rw [h2] at this
  cases this
  intro h0
  rw [h0] at h3
  simp at h3
  omega

/-- For a given resolution of the ties, the stages of `run` do not depend on the
data members of the object before the call. -/
theorem coded_fresh (tie : Nat → Nat) (h : Huffman) (text : Text) :
    coded tie h text = coded tie Huffman.new text := rfl

theorem pipeline_fresh (tie : Nat → Nat) (h : Huffman) (text : Text) :
    pipeline tie h text = pipeline tie Huffman.new text := rfl

/-- The Kraft sum of the code lengths, read over the distinct characters. -/
theorem coded_kraft_dedup (tie : Nat → Nat) (h : Huffman) (text : Text) (hne : text ≠ []) :
    (text.dedup.map (fun s =>
        (1 / 2 : ℚ) ^ ((coded tie h text).codeLengths.get? s).getD 0)).sum =
      kraftSum (coded tie h text).codeLengths := by
  have h1 := treeCoded_kraft_table tie (h.clear.calculateFrequencies text)
    (frequencies_ne_nil text hne) (frequencies_spec text).1 rfl rfl
  have e : (h.clear.calculateFrequencies text).frequencies = text.foldl incrementCount [] := rfl
  rw [e, ((frequencies_perm text).map _).sum_eq, List.map_map] at h1
  rw [kraftSum_perm (coded_spec tie h text hne).2.2.2.2.1]
  rw [coded_eq]
  exact h1

/-- The weighted length of the code of a text is at most that of any
assignment of lengths that satisfies the Kraft inequality. -/
theorem coded_weighted_le (tie : Nat → Nat) (h : Huffman) (text : Text) (hne : text ≠ [])
    (h2 : 2 ≤ text.dedup.length) (L : Int → Nat)
    (hk : (text.dedup.map (fun s => (1 / 2 : ℚ) ^ L s)).sum ≤ 1) :
    (text.dedup.map (fun s =>
        text.count s * ((coded tie h text).codeLengths.get? s).getD 0)).sum ≤
      (text.dedup.map (fun s => text.count s * L s)).sum := by
  rw [← coded_cost tie h text hne]
  have hp := frequencies_perm text
  have e1 : ((text.foldl incrementCount []).map (fun p => (1 / 2 : ℚ) ^ L p.1)).sum =
      (text.dedup.map (fun s => (1 / 2 : ℚ) ^ L s)).sum := by
    rw [(hp.map _).sum_eq, List.map_map]; rfl
  have e2 : ((text.foldl incrementCount []).map (fun p => p.2 * L p.1)).sum =
      (text.dedup.map (fun s => text.count s * L s)).sum := by
    rw [(hp.map _).sum_eq, List.map_map]; rfl
  rw [← e2]
  exact coded_tree_optimal tie h text h2 L (by rw [e1]; exact hk)

end HuffmanCanonical
namespace HuffmanCanonical
open Huffman

theorem coded_codeLengths_eq (tie : Nat → Nat) (h : Huffman) (text : Text) :
    (coded tie h text).codeLengths = codeLengthsOf tie (text.foldl incrementCount []) := rfl

/-- The length of the output of `run`, as a weighted sum over the frequency
table of the text. -/
theorem pipeline_output_length (tie : Nat → Nat) (h : Huffman) (text : Text) (hne : text ≠ []) :
    (pipeline tie h text).compressedData.length =
      ((text.foldl incrementCount []).map (fun p =>
        p.2 * ((codeLengthsOf tie (text.foldl incrementCount [])).get? p.1).getD 0)).sum := by
  rw [pipeline_eq tie h text hne]
  show (encode (canonicalized tie h text).canonicalCodes text).length = _
  have hlenc : (text.map (fun c =>
      (((canonicalized tie h text).canonicalCodes.get? c).getD []).length)) =
      text.map (fun c => ((coded tie h text).codeLengths.get? c).getD 0) := by
    apply List.map_congr_left
    intro c hc
    obtain ⟨len, code, a1, a2, a3, _⟩ := canonicalized_entry tie h text hne c hc
    have a1' : (coded tie h text).codeLengths.get? c = some len := a1
    rw [a2, a1']
    exact a3
  rw [encode_length, hlenc, sum_map_eq_sum_dedup, ((frequencies_perm text).map _).sum_eq,
    List.map_map]
  rfl

/-- The length of the output of `run` does not depend on the resolution of the
ties of the queue. -/
theorem pipeline_output_length_tie (tie1 tie2 : Nat → Nat) (h1 h2 : Huffman) (text : Text)
    (hne : text ≠ []) :
    (pipeline tie1 h1 text).compressedData.length =
      (pipeline tie2 h2 text).compressedData.length := by
  rw [pipeline_output_length tie1 h1 text hne, pipeline_output_length tie2 h2 text hne]
  exact weighted_length_tie_independent tie1 tie2 _ _ (frequencies_ne_nil text hne)
    (frequencies_spec text).1 (List.Perm.refl _)

theorem pipeline_frequencies (tie : Nat → Nat) (h : Huffman) (text : Text) (hne : text ≠ []) :
    (pipeline tie h text).frequencies = text.foldl incrementCount [] := by
  rw [pipeline_eq tie h text hne]
  exact (coded_root tie h text hne).2.1

theorem run_of_long (tie : Nat → Nat) (h : Huffman) (text : Text) (hlen : 30 ≤ text.length) :
    (run tie h text).state = pipeline tie h text := by
  unfold run
  rw [if_neg (by omega)]

end HuffmanCanonical

/-! ## Monotonicity of the code lengths -/

namespace HuffmanCanonical
open Huffman

/-- Two distinct members of a list without repetition can be brought to the
front. -/
theorem perm_two {D : List Int} (hnd : D.Nodup) {a b : Int} (ha : a ∈ D) (hb : b ∈ D)
    (hab : a ≠ b) : ∃ rest, D.Perm (a :: b :: rest) ∧ a ∉ rest ∧ b ∉ rest := by
  have p1 := List.perm_cons_erase ha
  have hb1 : b ∈ D.erase a := (List.mem_erase_of_ne (Ne.symm hab)).mpr hb
  have p2 := List.perm_cons_erase hb1
  have p3 : D.Perm (a :: b :: (D.erase a).erase b) := p1.trans (p2.cons a)
  have hnd3 := (p3.nodup_iff).mp hnd
  rw [List.nodup_cons, List.nodup_cons] at hnd3
  refine ⟨_, p3, ?_, hnd3.2.1⟩
  intro h0
  exact hnd3.1 (List.mem_cons_of_mem _ h0)

/-- A more frequent character does not get a longer code. -/
theorem coded_monotone (tie : Nat → Nat) (h : Huffman) (text : Text) (hne : text ≠ [])
    (a b : Int) (ha : a ∈ text) (hb : b ∈ text) (hc : text.count b < text.count a) :
    ((coded tie h text).codeLengths.get? a).getD 0 ≤
      ((coded tie h text).codeLengths.get? b).getD 0 := by
  by_contra hlt
  rw [not_le] at hlt
  have hab : a ≠ b := by
    intro e
    rw [e] at hc
    exact lt_irrefl _ hc
  obtain ⟨rest, hp, har, hbr⟩ := perm_two (List.nodup_dedup text) (List.mem_dedup.mpr ha)
    (List.mem_dedup.mpr hb) hab
  have h2 : 2 ≤ text.dedup.length := by
    rw [hp.length_eq]
    simp
  generalize hlen : (fun s => ((coded tie h text).codeLengths.get? s).getD 0) = len at *
  have ela : ((coded tie h text).codeLengths.get? a).getD 0 = len a := by rw [← hlen]
  have elb : ((coded tie h text).codeLengths.get? b).getD 0 = len b := by rw [← hlen]
  rw [ela, elb] at hlt
  have hL : ∀ s ∈ rest, (if s = a then len b else if s = b then len a else len s) = len s := by
    intro s hs
    have h1 : s ≠ a := fun e => har (e ▸ hs)
    have h3 : s ≠ b := fun e => hbr (e ▸ hs)
    rw [if_neg h1, if_neg h3]
  have hk0 := coded_kraft_dedup tie h text hne
  have hk1 := (coded_kraft tie h text hne).1
  have hk0' : (text.dedup.map (fun s => (1 / 2 : ℚ) ^ len s)).sum =
      kraftSum (coded tie h text).codeLengths := by
    rw [← hk0, ← hlen]
  have hk : (text.dedup.map (fun s => (1 / 2 : ℚ) ^
      (if s = a then len b else if s = b then len a else len s))).sum ≤ 1 := by
    have e : (text.dedup.map (fun s => (1 / 2 : ℚ) ^
        (if s = a then len b else if s = b then len a else len s))).sum =
        (text.dedup.map (fun s => (1 / 2 : ℚ) ^ len s)).sum := by
      rw [(hp.map _).sum_eq, (hp.map _).sum_eq]
      simp only [List.map_cons, List.sum_cons, if_true, if_neg (Ne.symm hab)]
      have e2 : rest.map (fun s => (1 / 2 : ℚ) ^
          (if s = a then len b else if s = b then len a else len s)) =
          rest.map (fun s => (1 / 2 : ℚ) ^ len s) :=
        List.map_congr_left (fun s hs => by rw [hL s hs])
      rw [e2]
      ring
    rw [e, hk0']
    exact hk1
  have hw := coded_weighted_le tie h text hne h2
    (fun s => if s = a then len b else if s = b then len a else len s) hk
  have hw' : (text.dedup.map (fun s => text.count s * len s)).sum ≤
      (text.dedup.map (fun s => text.count s *
        (if s = a then len b else if s = b then len a else len s))).sum := by
    rw [← hlen]
    rw [← hlen] at hw
    exact hw
  rw [(hp.map _).sum_eq, (hp.map _).sum_eq] at hw'
  simp only [List.map_cons, List.sum_cons, if_true, if_neg (Ne.symm hab)] at hw'
  have e3 : rest.map (fun s => text.count s *
      (if s = a then len b else if s = b then len a else len s)) =
      rest.map (fun s => text.count s * len s) :=
    List.map_congr_left (fun s hs => by rw [hL s hs])
  rw [e3] at hw'
  obtain ⟨d, hd⟩ := Nat.exists_eq_add_of_lt hc
  obtain ⟨e, he⟩ := Nat.exists_eq_add_of_lt hlt
  rw [hd, he] at hw'
  have : (text.count b + d + 1) * (len b + e + 1) + text.count b * len b =
      (text.count b + d + 1) * len b + text.count b * (len b + e + 1) + (d + 1) * (e + 1) := by
    ring
  have hpos : 0 < (d + 1) * (e + 1) := Nat.mul_pos (Nat.succ_pos _) (Nat.succ_pos _)
  omega

end HuffmanCanonical

/-! ## Texts whose characters are equally frequent -/

namespace HuffmanCanonical
open Huffman

theorem sum_ge_of_ge (xs : List ℚ) (m : ℚ) (h1 : ∀ x ∈ xs, m ≤ x) :
    m * xs.length ≤ xs.sum := by
  induction xs with
  | nil => simp
  | cons a t ih =>
    have ha := h1 a (List.mem_cons_self _ _)
    have := ih (fun x hx => h1 x (List.mem_cons_of_mem _ hx))
    simp only [List.length_cons, List.sum_cons, Nat.cast_add, Nat.cast_one]
    linarith

/-- Numbers that are all at least `m` and sum to at most `m` times their
number are all equal to `m`. -/
theorem all_eq_of_sum_le (xs : List ℚ) (m : ℚ) (h1 : ∀ x ∈ xs, m ≤ x)
    (h2 : xs.sum ≤ m * xs.length) : ∀ x ∈ xs, x = m := by
  induction xs with
  | nil => intro x hx; cases hx
  | cons a t ih =>
    have ha := h1 a (List.mem_cons_self _ _)
    have ht : ∀ x ∈ t, m ≤ x := fun x hx => h1 x (List.mem_cons_of_mem _ hx)
    have hs := sum_ge_of_ge t m ht
    simp only [List.length_cons, List.sum_cons, Nat.cast_add, Nat.cast_one] at h2
    intro x hx
    rcases List.mem_cons.mp hx with e | hx
    · rw [e]; linarith
    · exact ih ht (by linarith) x hx

/-- Lengths whose Kraft sum is at most 1 and whose sum is as small as the bound
`hg` allows all attain the bound. -/
theorem lengths_pinned (D : List Int) (len : Int → ℕ) (c m : ℚ) (hc : 0 ≤ c)
    (hg : ∀ l : ℕ, m ≤ l + c * (1 / 2 : ℚ) ^ l)
    (hk : (D.map (fun s => (1 / 2 : ℚ) ^ len s)).sum ≤ 1)
    (hs : (((D.map len).sum : ℕ) : ℚ) + c ≤ m * D.length) :
    ∀ s ∈ D, (len s : ℚ) + c * (1 / 2 : ℚ) ^ len s = m := by
  have e : ∀ D : List Int, (D.map (fun s => (len s : ℚ) + c * (1 / 2 : ℚ) ^ len s)).sum =
      (((D.map len).sum : ℕ) : ℚ) + c * (D.map (fun s => (1 / 2 : ℚ) ^ len s)).sum := by
    intro D
    induction D with
    | nil => simp
    | cons a t ih =>
      simp only [List.map_cons, List.sum_cons, ih, Nat.cast_add]
      ring
  have h2 : (D.map (fun s => (len s : ℚ) + c * (1 / 2 : ℚ) ^ len s)).sum ≤
      m * ((D.map (fun s => (len s : ℚ) + c * (1 / 2 : ℚ) ^ len s)).length : ℕ) := by
    rw [e, List.length_map]
    have := mul_le_mul_of_nonneg_left hk hc
    linarith
  intro s hs'
  exact all_eq_of_sum_le _ m (by
    intro x hx
    obtain ⟨t, _, rfl⟩ := List.mem_map.mp hx
    exact hg _) h2 _ (List.mem_map.mpr ⟨s, hs', rfl⟩)

theorem pin_two (l : ℕ) : (7 / 2 : ℚ) ≤ l + 6 * (1 / 2 : ℚ) ^ l ∧
    ((l : ℚ) + 6 * (1 / 2 : ℚ) ^ l = 7 / 2 → l = 2) := by
  rcases l with _ | _ | _ | _ | l
  · norm_num
  · norm_num
  · norm_num
  · norm_num
  · have hp : (0 : ℚ) < (1 / 2) ^ (l + 4) := by positivity
    have hl : (0 : ℚ) ≤ l := Nat.cast_nonneg l
    push_cast
    constructor
    · linarith
    · intro h; linarith

theorem pin_five_six (l : ℕ) : (7 : ℚ) ≤ l + 64 * (1 / 2 : ℚ) ^ l ∧
    ((l : ℚ) + 64 * (1 / 2 : ℚ) ^ l = 7 → l = 5 ∨ l = 6) := by
  rcases l with _ | _ | _ | _ | _ | _ | _ | _ | l
  · norm_num
  · norm_num
  · norm_num
  · norm_num
  · norm_num
  · norm_num
  · norm_num
  · norm_num
  · have hp : (0 : ℚ) < (1 / 2) ^ (l + 8) := by positivity
    have hl : (0 : ℚ) ≤ l := Nat.cast_nonneg l
    push_cast
    constructor
    · linarith
    · intro h; linarith

theorem sum_map_const (D : List Int) (k : Nat) : (D.map (fun _ => k)).sum = D.length * k := by
  induction D with
  | nil => simp
  | cons a t ih => simp only [List.map_cons, List.sum_cons, ih, List.length_cons]; ring

theorem sum_map_const_rat (D : List Int) (k : ℚ) :
    (D.map (fun _ => k)).sum = D.length * k := by
  induction D with
  | nil => simp
  | cons a t ih =>
    simp only [List.map_cons, List.sum_cons, ih, List.length_cons, Nat.cast_add, Nat.cast_one]
    ring

theorem sum_map_mul_const (D : List Int) (f : Nat) (g : Int → Nat) :
    (D.map (fun s => f * g s)).sum = f * (D.map g).sum := by
  induction D with
  | nil => simp
  | cons a t ih => simp only [List.map_cons, List.sum_cons, ih]; ring

/-- The code length of a character of the text, read in the table. -/
theorem coded_get?_getD (tie : Nat → Nat) (h : Huffman) (text : Text) (hne : text ≠ [])
    (s : Int) (hs : s ∈ text) :
    (coded tie h text).codeLengths.get? s =
      some (((coded tie h text).codeLengths.get? s).getD 0) := by
  obtain ⟨len, _, a1, _⟩ := canonicalized_entry tie h text hne s hs
  have a1' : (coded tie h text).codeLengths.get? s = some len := a1
  rw [a1']
  rfl

/-- Four equally frequent symbols all get code length 2. -/
theorem coded_four_equal (tie : Nat → Nat) (h : Huffman) (text : Text) (hne : text ≠ [])
    (h4 : text.dedup.length = 4)
    (heq : ∀ x ∈ text, ∀ y ∈ text, text.count x = text.count y) :
    ∀ s ∈ text, (coded tie h text).codeLengths.get? s = some 2 := by
  obtain ⟨x0, hx0⟩ := List.exists_mem_of_ne_nil text hne
  have hf : 0 < text.count x0 := List.count_pos_iff.mpr hx0
  have hk : (text.dedup.map (fun _ => (1 / 2 : ℚ) ^ (2 : ℕ))).sum ≤ 1 := by
    rw [sum_map_const_rat, h4]
    norm_num
  have hw := coded_weighted_le tie h text hne (by omega) (fun _ => 2) hk
  have e1 : text.dedup.map (fun s =>
      text.count s * ((coded tie h text).codeLengths.get? s).getD 0) =
      text.dedup.map (fun s =>
        text.count x0 * ((coded tie h text).codeLengths.get? s).getD 0) :=
    List.map_congr_left (fun s hs => by rw [heq s (List.mem_dedup.mp hs) x0 hx0])
  have e2 : text.dedup.map (fun s => text.count s * 2) =
      text.dedup.map (fun _ => text.count x0 * 2) :=
    List.map_congr_left (fun s hs => by rw [heq s (List.mem_dedup.mp hs) x0 hx0])
  rw [e1, e2, sum_map_mul_const, sum_map_const, h4] at hw
  have hsum : (text.dedup.map (fun s =>
      ((coded tie h text).codeLengths.get? s).getD 0)).sum ≤ 8 := by
    have : text.count x0 * (text.dedup.map (fun s =>
        ((coded tie h text).codeLengths.get? s).getD 0)).sum ≤ text.count x0 * 8 := by
      calc _ ≤ 4 * (text.count x0 * 2) := hw
        _ = text.count x0 * 8 := by ring
    exact Nat.le_of_mul_le_mul_left this hf
  have hkr : (text.dedup.map (fun s =>
      (1 / 2 : ℚ) ^ ((coded tie h text).codeLengths.get? s).getD 0)).sum ≤ 1 := by
    rw [coded_kraft_dedup tie h text hne]
    exact (coded_kraft tie h text hne).1
  have hpin := lengths_pinned text.dedup
    (fun s => ((coded tie h text).codeLengths.get? s).getD 0) 6 (7 / 2) (by norm_num)
    (fun l => (pin_two l).1) hkr (by
      rw [h4]
      have : (((text.dedup.map (fun s =>
          ((coded tie h text).codeLengths.get? s).getD 0)).sum : ℕ) : ℚ) ≤ 8 := by
        exact_mod_cast hsum
      have e4 : ((4 : ℕ) : ℚ) = 4 := by norm_num
      rw [e4]
      linarith)
  intro s hs
  have := (pin_two _).2 (hpin s (List.mem_dedup.mpr hs))
  rw [coded_get?_getD tie h text hne s hs]
  exact congrArg some this

end HuffmanCanonical

/-! ## The test input with forty distinct characters -/

namespace HuffmanCanonical
open Huffman

theorem test_uniform_nodup : test_uniform.Nodup := by decide

theorem test_uniform_ne_nil : test_uniform ≠ [] := by decide

/-- Every character of `test_uniform` gets a code of length 5 or 6. -/
theorem coded_uniform (tie : Nat → Nat) (h : Huffman) :
    ∀ s ∈ test_uniform, (coded tie h test_uniform).codeLengths.get? s = some 5 ∨
      (coded tie h test_uniform).codeLengths.get? s = some 6 := by
  have hne := test_uniform_ne_nil
  have hD : test_uniform.dedup = test_uniform := List.dedup_eq_self.mpr test_uniform_nodup
  have hlen : test_uniform.length = 40 := by decide
  have hk : (test_uniform.dedup.map (fun s =>
      (1 / 2 : ℚ) ^ (if s < 107 then 5 else 6 : ℕ))).sum ≤ 1 := by
    rw [hD]
    have e : test_uniform = [97, 98, 99, 100, 101, 102, 103, 104, 105, 106, 107, 108, 109, 110,
      111, 112, 113, 114, 115, 116, 117, 118, 119, 120, 121, 122, 48, 49, 50, 51, 52, 53, 54, 55,
      56, 57, 46, 44, 33, 63] := by decide
    rw [e]
    simp only [List.map_cons, List.map_nil, List.sum_cons, List.sum_nil]
    norm_num
  have hw := coded_weighted_le tie h test_uniform hne (by rw [hD, hlen]; omega)
    (fun s => if s < 107 then 5 else 6) hk
  have e1 : test_uniform.dedup.map (fun s =>
      test_uniform.count s * ((coded tie h test_uniform).codeLengths.get? s).getD 0) =
      test_uniform.dedup.map (fun s =>
        ((coded tie h test_uniform).codeLengths.get? s).getD 0) :=
    List.map_congr_left (fun s hs => by
      rw [List.count_eq_one_of_mem test_uniform_nodup (List.mem_dedup.mp hs), one_mul])
  have e2 : (test_uniform.dedup.map (fun s =>
      test_uniform.count s * (if s < 107 then 5 else 6))).sum = 216 := by decide
  rw [e1, e2] at hw
  have hkr : (test_uniform.dedup.map (fun s =>
      (1 / 2 : ℚ) ^ ((coded tie h test_uniform).codeLengths.get? s).getD 0)).sum ≤ 1 := by
    rw [coded_kraft_dedup tie h test_uniform hne]
    exact (coded_kraft tie h test_uniform hne).1
  have hpin := lengths_pinned test_uniform.dedup
    (fun s => ((coded tie h test_uniform).codeLengths.get? s).getD 0) 64 7 (by norm_num)
    (fun l => (pin_five_six l).1) hkr (by
      rw [hD, hlen]
      rw [hD] at hw
      have : (((test_uniform.map (fun s =>
          ((coded tie h test_uniform).codeLengths.get? s).getD 0)).sum : ℕ) : ℚ) ≤ 216 := by
        exact_mod_cast hw
      have e4 : ((40 : ℕ) : ℚ) = 40 := by norm_num
      rw [e4]
      linarith)
  intro s hs
  have := (pin_five_six _).2 (hpin s (List.mem_dedup.mpr hs))
  rw [coded_get?_getD tie h test_uniform hne s hs]
  rcases this with e | e
  · exact Or.inl (congrArg some e)
  · exact Or.inr (congrArg some e)

end HuffmanCanonical

/-! ## Four equally frequent symbols -/

namespace HuffmanCanonical
open Huffman

theorem list_four {α : Type} (l : List α) (h : l.length = 4) :
    ∃ a b c d, l = [a, b, c, d] := by
  rcases l with _ | ⟨a, _ | ⟨b, _ | ⟨c, _ | ⟨d, _ | ⟨e, t⟩⟩⟩⟩⟩
  all_goals simp at h
  exact ⟨a, b, c, d, rfl⟩

/-- The table of code lengths has one entry for each distinct character. -/
theorem coded_table_length (tie : Nat → Nat) (h : Huffman) (text : Text) (hne : text ≠ []) :
    (coded tie h text).codeLengths.length = text.dedup.length := by
  obtain ⟨_, _, c3, _, c5, _, _⟩ := coded_spec tie h text hne
  have e1 := c5.length_eq
  have e2 : ((coded tie h text).root.depths 0).length = (coded tie h text).root.leaves.length := by
    have := congrArg List.length (Node.depths_fst (coded tie h text).root 0)
    simpa using this
  have e3 := c3.length_eq
  have e4 := (frequencies_perm text).length_eq
  rw [e1, e2, e3, e4, List.length_map]

/-- The canonical codes of four symbols of length 2. -/
theorem assigned_four (s1 s2 s3 s4 : Int) :
    assigned 0 0 [(2, s1), (2, s2), (2, s3), (2, s4)] =
      [(s1, ['0', '0']), (s2, ['0', '1']), (s3, ['1', '0']), (s4, ['1', '1'])] := by
  have a1 : advance 0 0 2 = (0, 2) := by decide
  have a2 : advance 0 2 2 = (1, 2) := by decide
  have a3 : advance 1 2 2 = (2, 2) := by decide
  have a4 : advance 2 2 2 = (3, 2) := by decide
  have r0 : bitsMSB 2 0 = ['0', '0'] := by decide
  have r1 : bitsMSB 2 1 = ['0', '1'] := by decide
  have r2 : bitsMSB 2 2 = ['1', '0'] := by decide
  have r3 : bitsMSB 2 3 = ['1', '1'] := by decide
  simp only [assigned, a1, a2, a3, a4, renderCode_eq, r0, r1, r2, r3]

theorem coded_four_table (tie : Nat → Nat) (h : Huffman) (text : Text) (hne : text ≠ [])
    (h4 : text.dedup.length = 4)
    (heq : ∀ x ∈ text, ∀ y ∈ text, text.count x = text.count y) :
    ∃ s1 s2 s3 s4 : Int, s1 < s2 ∧ s2 < s3 ∧ s3 < s4 ∧
      (∀ x, x ∈ text ↔ x = s1 ∨ x = s2 ∨ x = s3 ∨ x = s4) ∧
      (coded tie h text).codeLengths = [(s1, 2), (s2, 2), (s3, 2), (s4, 2)] ∧
      (canonicalized tie h text).canonicalCodes =
        [(s1, ['0', '0']), (s2, ['0', '1']), (s3, ['1', '0']), (s4, ['1', '1'])] := by
  have hlen := coded_table_length tie h text hne
  rw [h4] at hlen
  obtain ⟨p1, p2, p3, p4, hcl⟩ := list_four _ hlen
  have hord := (coded_spec tie h text hne).2.2.2.2.2.1
  have hkeys := coded_keys tie h text hne
  have hval : ∀ p ∈ (coded tie h text).codeLengths, p.2 = 2 := by
    intro p hp
    have hk : p.1 ∈ text := (hkeys p.1).mp (List.mem_map.mpr ⟨p, hp, rfl⟩)
    have g1 := coded_four_equal tie h text hne h4 heq p.1 hk
    have g2 := CharMap.get?_of_mem _ hord.nodup (show (p.1, p.2) ∈ _ from hp)
    rw [g1] at g2
    exact (Option.some.inj g2).symm
  obtain ⟨s1, l1⟩ := p1
  obtain ⟨s2, l2⟩ := p2
  obtain ⟨s3, l3⟩ := p3
  obtain ⟨s4, l4⟩ := p4
  rw [hcl] at hval
  have v1 : l1 = 2 := hval (s1, l1) (by simp)
  have v2 : l2 = 2 := hval (s2, l2) (by simp)
  have v3 : l3 = 2 := hval (s3, l3) (by simp)
  have v4 : l4 = 2 := hval (s4, l4) (by simp)
  subst v1 v2 v3 v4
  unfold CharMap.Ordered at hord
  rw [hcl] at hord
  simp only [List.map_cons, List.map_nil, List.pairwise_cons, List.mem_cons, List.mem_singleton,
    forall_eq_or_imp, forall_eq] at hord
  obtain ⟨⟨h12, h13, h14, _⟩, ⟨h23, h24, _⟩, ⟨h34, _⟩, _⟩ := hord
  have hsorted : sortedSymbols (coded tie h text).codeLengths =
      [(2, s1), (2, s2), (2, s3), (2, s4)] := by
    symm
    apply sortedSymbols_unique
    · rw [hcl]; rfl
    · simp only [List.Sorted, List.pairwise_cons, List.mem_cons, List.mem_singleton,
        forall_eq_or_imp, forall_eq, pairLE]
      refine ⟨⟨?_, ?_, ?_, ?_⟩, ⟨?_, ?_, ?_⟩, ⟨?_, ?_⟩, ?_, ?_⟩ <;>
        first
          | (right; exact ⟨trivial, by omega⟩)
          | (intro a ha; cases ha)
          | exact List.Pairwise.nil
  refine ⟨s1, s2, s3, s4, h12, h23, h34, ?_, hcl, ?_⟩
  · intro x
    rw [← hkeys x, hcl]
    simp
  · unfold canonicalized
    rw [generateCanonicalCodes_table, hsorted, assigned_four, (coded_root tie h text hne).2.2.1]
    have n21 : ¬ s2 < s1 := by omega
    have e21 : s2 ≠ s1 := by omega
    have n31 : ¬ s3 < s1 := by omega
    have e31 : s3 ≠ s1 := by omega
    have n32 : ¬ s3 < s2 := by omega
    have e32 : s3 ≠ s2 := by omega
    have n41 : ¬ s4 < s1 := by omega
    have e41 : s4 ≠ s1 := by omega
    have n42 : ¬ s4 < s2 := by omega
    have e42 : s4 ≠ s2 := by omega
    have n43 : ¬ s4 < s3 := by omega
    have e43 : s4 ≠ s3 := by omega
    simp only [List.foldl_cons, List.foldl_nil, CharMap.set, if_neg n21, if_neg e21, if_neg n31,
      if_neg e31, if_neg n32, if_neg e32, if_neg n41, if_neg e41, if_neg n42, if_neg e42,
      if_neg n43, if_neg e43]

/-- The length of the output when every character has a code of length 2. -/
theorem output_length_two (tie : Nat → Nat) (h : Huffman) (text : Text) (hne : text ≠ [])
    (hall : ∀ s ∈ text, (coded tie h text).codeLengths.get? s = some 2) :
    (pipeline tie h text).compressedData.length = 2 * text.length := by
  rw [pipeline_eq tie h text hne]
  show (encode (canonicalized tie h text).canonicalCodes text).length = _
  have hlenc : (text.map (fun c =>
      (((canonicalized tie h text).canonicalCodes.get? c).getD []).length)) =
      text.map (fun _ => 2) := by
    apply List.map_congr_left
    intro c hc
    obtain ⟨len, code, a1, a2, a3, _⟩ := canonicalized_entry tie h text hne c hc
    have a1' : (coded tie h text).codeLengths.get? c = some len := a1
    rw [hall c hc] at a1'
    rw [a2]
    show code.length = 2
    rw [a3]
    exact (Option.some.inj a1').symm
  rw [encode_length, hlenc, sum_map_const]
  ring

end HuffmanCanonical

/-! ## Facts about the state after `run` -/

namespace HuffmanCanonical
open Huffman

/-- The canonical table has ascending keys. -/
theorem canonicalized_ordered (tie : Nat → Nat) (h : Huffman) (text : Text) (hne : text ≠ []) :
    (canonicalized tie h text).canonicalCodes.Ordered := by
  unfold canonicalized
  rw [generateCanonicalCodes_table]
  exact CharMap.foldl_set_ordered _ _ (by
    rw [(coded_root tie h text hne).2.2.1]; exact CharMap.ordered_nil)

/-- The canonical table has one entry for each distinct character. -/
theorem canonicalized_table_length (tie : Nat → Nat) (h : Huffman) (text : Text)
    (hne : text ≠ []) :
    (canonicalized tie h text).canonicalCodes.length = text.dedup.length := by
  have h1 := (canonicalized_ordered tie h text hne).nodup
  have hp : ((canonicalized tie h text).canonicalCodes.map Prod.fst).Perm text.dedup := by
    rw [List.perm_ext_iff_of_nodup h1 (List.nodup_dedup text)]
    intro a
    rw [canonicalized_keys tie h text hne a, List.mem_dedup]
  have := hp.length_eq
  rw [List.length_map] at this
  exact this

end HuffmanCanonical
namespace HuffmanCanonical
open Huffman

/-- The canonical code `run` leaves for a character whose code length is known. -/
theorem run_code_of_length (tie : Nat → Nat) (h : Huffman) (text : Text)
    (hlen : 30 ≤ text.length) (c : Int) (hc : c ∈ text) (n : Nat)
    (hget : (coded tie h text).codeLengths.get? c = some n) :
    ∃ code, (run tie h text).state.canonicalCodes.get? c = some code ∧ code.length = n := by
  rw [run_state tie h text hlen]
  obtain ⟨len, code, a1, a2, a3, _⟩ :=
    canonicalized_entry tie h text (text_ne_nil_of_length hlen) c hc
  have a1' : (coded tie h text).codeLengths.get? c = some len := a1
  rw [hget] at a1'
  refine ⟨code, a2, ?_⟩
  rw [a3]
  exact (Option.some.inj a1').symm

theorem run_output_length_two (tie : Nat → Nat) (h : Huffman) (text : Text)
    (hlen : 30 ≤ text.length)
    (hall : ∀ s ∈ text, (coded tie h text).codeLengths.get? s = some 2) :
    (run tie h text).state.compressedData.length = 2 * text.length := by
  rw [run_of_long tie h text hlen]
  exact output_length_two tie h text (text_ne_nil_of_length hlen) hall

theorem run_unrelated (tie : Nat → Nat) (h : Huffman) (text : Text)
    (hlen : 30 ≤ text.length) (hint : text.length < 2 ^ 31) (a b : Int) (ha : a ∈ text)
    (hb : b ∈ text) (hab : a ≠ b) :
    ∃ ca cb, (run tie h text).state.canonicalCodes.get? a = some ca ∧
      (run tie h text).state.canonicalCodes.get? b = some cb ∧ ca ≠ cb ∧ Unrelated ca cb := by
  rw [run_state tie h text hlen]
  obtain ⟨ca, cb, g1, g2, hu⟩ := canonicalized_unrelated tie h text
    (text_ne_nil_of_length hlen) hint a b ha hb hab
  exact ⟨ca, cb, g1, g2, unrelated_ne hu, hu⟩

theorem run_table_length (tie : Nat → Nat) (h : Huffman) (text : Text)
    (hlen : 30 ≤ text.length) :
    (run tie h text).state.canonicalCodes.length = text.dedup.length := by
  rw [run_state tie h text hlen]
  exact canonicalized_table_length tie h text (text_ne_nil_of_length hlen)

theorem run_keys (tie : Nat → Nat) (h : Huffman) (text : Text) (hlen : 30 ≤ text.length)
    (x : Int) : x ∈ (run tie h text).state.canonicalCodes.map Prod.fst ↔ x ∈ text := by
  rw [run_state tie h text hlen]
  exact canonicalized_keys tie h text (text_ne_nil_of_length hlen) x

theorem test_few_symbols_length : test_few_symbols.length = 40 := by decide

theorem test_few_symbols_dedup : test_few_symbols.dedup.length = 4 := by decide

theorem test_few_symbols_counts : ∀ c ∈ test_few_symbols, test_few_symbols.count c = 10 := by
  decide

theorem test_few_symbols_equal : ∀ x ∈ test_few_symbols, ∀ y ∈ test_few_symbols,
    test_few_symbols.count x = test_few_symbols.count y := by
  intro x hx y hy
  rw [test_few_symbols_counts x hx, test_few_symbols_counts y hy]

theorem test_uniform_length : test_uniform.length = 40 := by decide

end HuffmanCanonical

/-! ## Values and lexicographic order of the canonical codes -/

namespace HuffmanCanonical
open Huffman

theorem bitsValue_append (a : Bits) (c : Char) :
    bitsValue (a ++ [c]) = 2 * bitsValue a + (if c = '1' then 1 else 0) := by
  unfold bitsValue
  rw [List.foldl_append]
  rfl

/-- The value of a rendered code is the number rendered. -/
theorem bitsValue_bitsMSB (n : Nat) : ∀ v, v < 2 ^ n → bitsValue (bitsMSB n v) = v := by
  induction n with
  | zero =>
    intro v hv
    simp at hv
    subst hv
    rfl
  | succ n ih =>
    intro v hv
    have h2 : v / 2 < 2 ^ n := by
      rw [pow_succ] at hv
      omega
    show bitsValue (bitsMSB n (v / 2) ++ [if v % 2 = 0 then '0' else '1']) = v
    rw [bitsValue_append, ih _ h2]
    by_cases h0 : v % 2 = 0
    · rw [if_pos h0]
      simp
      omega
    · rw [if_neg h0]
      simp
      omega

theorem lex_append_of_length {a b : Bits} (h : List.Lex (· < ·) a b)
    (hl : a.length = b.length) (c d : Bits) : List.Lex (· < ·) (a ++ c) (b ++ d) := by
  induction h with
  | nil => simp at hl
  | cons _ ih =>
    simp only [List.length_cons, Nat.add_right_cancel_iff] at hl
    exact List.Lex.cons (ih hl)
  | rel hr => exact List.Lex.rel hr

/-- On the same number of bits, a smaller number is rendered as a string that
comes first in lexicographic order. -/
theorem lex_bitsMSB (n : Nat) : ∀ v w, v < w → w < 2 ^ n →
    List.Lex (· < ·) (bitsMSB n v) (bitsMSB n w) := by
  induction n with
  | zero =>
    intro v w h1 h2
    simp at h2
    omega
  | succ n ih =>
    intro v w h1 h2
    have hw : w / 2 < 2 ^ n := by
      rw [pow_succ] at h2
      omega
    show List.Lex (· < ·) (bitsMSB n (v / 2) ++ [if v % 2 = 0 then '0' else '1'])
      (bitsMSB n (w / 2) ++ [if w % 2 = 0 then '0' else '1'])
    by_cases hlt : v / 2 < w / 2
    · exact lex_append_of_length (ih _ _ hlt hw)
        (by rw [bitsMSB_length, bitsMSB_length]) _ _
    · have e : v / 2 = w / 2 := by omega
      have e0 : v % 2 = 0 := by omega
      have e1 : ¬ w % 2 = 0 := by omega
      rw [e, if_pos e0, if_neg e1]
      exact List.Lex.append_left _ (List.Lex.rel (by decide)) _

/-- A code comes before, in lexicographic order, every code of at least its
length whose value is at least one more than its own shifted to that length. -/
theorem lex_of_values {n m v w : Nat} (hnm : n ≤ m) (hw : w < 2 ^ m)
    (hstep : (v + 1) * 2 ^ (m - n) ≤ w) :
    List.Lex (· < ·) (bitsMSB n v) (bitsMSB m w) := by
  obtain ⟨k, rfl⟩ := Nat.exists_eq_add_of_le hnm
  rw [bitsMSB_add]
  have ek : n + k - n = k := by omega
  rw [ek] at hstep
  have hpos : 0 < 2 ^ k := pow_pos (by norm_num) _
  have h1 : v < w / 2 ^ k := by
    have := (Nat.le_div_iff_mul_le hpos).mpr hstep
    omega
  have h2 : w / 2 ^ k < 2 ^ n := by
    rw [Nat.div_lt_iff_lt_mul hpos, ← pow_add]
    exact hw
  exact List.Lex.append_right _ _ (lex_bitsMSB n _ _ h1 h2)

/-- The codes of two symbols, the first coming before the second in (length,
symbol) order: their values and their order. -/
theorem canonical_values_ordered (h : Huffman) (hm : (h.codeLengths.map Prod.fst).Nodup)
    (hb : ∀ p ∈ h.codeLengths, 1 ≤ p.2 ∧ p.2 ≤ 64) (hk : kraftSum h.codeLengths ≤ 1)
    (pre mid post : List (Nat × Int)) (x y : Nat × Int)
    (hl : sortedSymbols h.codeLengths = pre ++ x :: (mid ++ y :: post)) :
    ∃ cx cy, h.generateCanonicalCodes.canonicalCodes.get? x.2 = some cx ∧
      h.generateCanonicalCodes.canonicalCodes.get? y.2 = some cy ∧
      cx.length = x.1 ∧ cy.length = y.1 ∧ x.1 ≤ y.1 ∧
      (pre = [] → bitsValue cx = 0) ∧
      (bitsValue cx + 1) * 2 ^ (y.1 - x.1) ≤ bitsValue cy ∧
      (mid = [] → bitsValue cy = (bitsValue cx + 1) * 2 ^ (y.1 - x.1)) ∧
      List.Lex (· < ·) cx cy := by
  obtain ⟨gx, vx⟩ := canonical_value h hm hb hk pre (mid ++ y :: post) x hl
  have hl2 : sortedSymbols h.codeLengths = (pre ++ x :: mid) ++ y :: post := by
    rw [hl]; simp
  obtain ⟨gy, vy⟩ := canonical_value h hm hb hk (pre ++ x :: mid) post y hl2
  have hs := sortedSymbols_sorted h.codeLengths
  rw [hl] at hs
  have hs' := List.pairwise_append.mp hs
  have hxy : x.1 ≤ y.1 := by
    have := (List.pairwise_cons.mp hs'.2.1).1 y (by simp)
    unfold pairLE at this; omega
  have hpx : ∀ p ∈ pre, p.1 ≤ x.1 := by
    intro p hp
    have := hs'.2.2 p hp x (by simp)
    unfold pairLE at this; omega
  have hval : refValue (pre ++ x :: mid) y.1 =
      (refValue pre x.1 + 1) * 2 ^ (y.1 - x.1) + refValue mid y.1 := by
    rw [refValue_cons_mid, refValue_shift pre x.1 y.1 hpx hxy, Nat.add_mul, Nat.one_mul]
  refine ⟨_, _, gx, gy, bitsMSB_length _ _, bitsMSB_length _ _, hxy, ?_, ?_, ?_, ?_⟩
  · intro e
    rw [bitsValue_bitsMSB _ _ vx, e]
    rfl
  · rw [bitsValue_bitsMSB _ _ vx, bitsValue_bitsMSB _ _ vy, hval]
    omega
  · intro e
    rw [bitsValue_bitsMSB _ _ vx, bitsValue_bitsMSB _ _ vy, hval, e]
    show _ + 0 = _
    omega
  · apply lex_of_values hxy vy
    rw [hval]
    omega

end HuffmanCanonical

namespace HuffmanCanonical
open Huffman

theorem run_codeLengths (tie : Nat → Nat) (h : Huffman) (text : Text)
    (hlen : 30 ≤ text.length) :
    (run tie h text).state.codeLengths = (coded tie h text).codeLengths := by
  rw [run_state tie h text hlen]
  rfl

theorem run_canonicalCodes (tie : Nat → Nat) (h : Huffman) (text : Text)
    (hlen : 30 ≤ text.length) :
    (run tie h text).state.canonicalCodes =
      (coded tie h text).generateCanonicalCodes.canonicalCodes := by
  rw [run_state tie h text hlen]
  rfl

end HuffmanCanonical

/-! ## The range of the `int` counters -/

namespace HuffmanCanonical
open Huffman

/-- In a text shorter than `2 ^ 31` no character occurs `2 ^ 31` times. -/
theorem count_in_range (text : Text) (hint : text.length < 2 ^ 31) (x : Int) :
    text.count x < 2 ^ 31 :=
  lt_of_le_of_lt (List.count_le_length x text) hint

/-- The counts of a text shorter than `2 ^ 31` are below `2 ^ 31`: the `int`
counter of `frequencies[c]++` never overflows. -/
theorem frequencies_in_range (text : Text) (hint : text.length < 2 ^ 31) :
    ∀ p ∈ text.foldl incrementCount [], p.2 < 2 ^ 31 := by
  intro p hp
  have := ((frequencies_spec text).2.2.1 p.1 p.2).mp hp
  rw [this.2]
  exact count_in_range text hint p.1

theorem run_frequencies (tie : Nat → Nat) (h : Huffman) (text : Text)
    (hlen : 30 ≤ text.length) :
    (run tie h text).state.frequencies = text.foldl incrementCount [] := by
  rw [run_of_long tie h text hlen]
  exact pipeline_frequencies tie h text (text_ne_nil_of_length hlen)

theorem run_frequencies_in_range (tie : Nat → Nat) (h : Huffman) (text : Text)
    (hlen : 30 ≤ text.length) (hint : text.length < 2 ^ 31) :
    ∀ p ∈ (run tie h text).state.frequencies, p.2 < 2 ^ 31 := by
  rw [run_frequencies tie h text hlen]
  exact frequencies_in_range text hint

/-- The output of `run` has the same length whatever the resolution of the ties
and the prior state. -/
theorem run_output_length_tie (tie1 tie2 : Nat → Nat) (h1 h2 : Huffman) (text : Text)
    (hlen : 30 ≤ text.length) :
    (run tie1 h1 text).state.compressedData.length =
      (run tie2 h2 text).state.compressedData.length := by
  rw [run_of_long tie1 h1 text hlen, run_of_long tie2 h2 text hlen]
  exact pipeline_output_length_tie tie1 tie2 h1 h2 text (text_ne_nil_of_length hlen)

/-- The key sets of the tables `run` leaves. -/
theorem run_table_keys (tie : Nat → Nat) (h : Huffman) (text : Text)
    (hlen : 30 ≤ text.length) (x : Int) :
    (x ∈ (run tie h text).state.huffmanCodes.map Prod.fst ↔ x ∈ text) ∧
      (x ∈ (run tie h text).state.codeLengths.map Prod.fst ↔ x ∈ text) ∧
      (x ∈ (run tie h text).state.canonicalCodes.map Prod.fst ↔ x ∈ text) := by
  rw [run_state tie h text hlen]
  have hne := text_ne_nil_of_length hlen
  exact ⟨coded_huffman_keys tie h text hne x, coded_keys tie h text hne x,
    canonicalized_keys tie h text hne x⟩

/-- The state after `run` for a given resolution of the ties does not depend on
the fields of the object before the call. -/
theorem run_fresh (tie : Nat → Nat) (h : Huffman) (text : Text) (hlen : 30 ≤ text.length) :
    (run tie h text).state = (run tie Huffman.new text).state := by
  rw [run_of_long tie h text hlen, run_of_long tie Huffman.new text hlen]
  exact pipeline_fresh tie h text

/-- The weighted length of the code of a text, read on the state after `run`,
is the length of the output. -/
theorem run_weighted_length (tie : Nat → Nat) (h : Huffman) (text : Text)
    (hlen : 30 ≤ text.length) :
    (run tie h text).state.compressedData.length =
      (text.dedup.map (fun s =>
        text.count s * ((run tie h text).state.codeLengths.get? s).getD 0)).sum := by
  rw [run_codeLengths tie h text hlen, run_of_long tie h text hlen,
    pipeline_output_length tie h text (text_ne_nil_of_length hlen),
    ((frequencies_perm text).map _).sum_eq, List.map_map]
  rfl

end HuffmanCanonical

/-! ## The claims -/

namespace HuffmanCanonical
open Huffman

/-- C1: for every text of at least 30 characters that the `int` counters of
the program can count (fewer than `2 ^ 31` characters), the canonical code
table `run` leaves is prefix-free: two distinct characters of the text both
have a canonical code, the two codes differ, and neither is a prefix of the
other.  This holds for every resolution `tie` of the ties of the queue and
every prior state `h` of the object. -/
theorem canonical_codes_prefix_free (tie : Nat → Nat) (h : Huffman) (text : Text)
    (hlen : 30 ≤ text.length) (hint : text.length < 2 ^ 31)
    (a b : Int) (ha : a ∈ text) (hb : b ∈ text) (hab : a ≠ b) :
    ∃ ca cb, (run tie h text).state.canonicalCodes.get? a = some ca ∧
      (run tie h text).state.canonicalCodes.get? b = some cb ∧
      ca ≠ cb ∧ ¬ ca <+: cb ∧ ¬ cb <+: ca := by
  rw [run_state tie h text hlen]
  obtain ⟨ca, cb, h1, h2, hu⟩ :=
    canonicalized_unrelated tie h text (text_ne_nil_of_length hlen) hint a b ha hb hab
  exact ⟨ca, cb, h1, h2, unrelated_ne hu, hu.1, hu.2⟩

theorem canonical_codes_prefix_free_witness :
    30 ≤ test_few_symbols.length ∧ test_few_symbols.length < 2 ^ 31 ∧
      (97 : Int) ∈ test_few_symbols ∧ (98 : Int) ∈ test_few_symbols ∧ (97 : Int) ≠ 98 ∧
      ∃ ca cb,
        (run (fun _ => 0) Huffman.new test_few_symbols).state.canonicalCodes.get? 97 = some ca ∧
        (run (fun _ => 0) Huffman.new test_few_symbols).state.canonicalCodes.get? 98 = some cb ∧
        ca ≠ cb ∧ ¬ ca <+: cb ∧ ¬ cb <+: ca :=
  ⟨by decide, by decide, by decide, by decide, by decide,
    canonical_codes_prefix_free (fun _ => 0) Huffman.new test_few_symbols (by decide) (by decide)
      97 98 (by decide) (by decide) (by decide)⟩

/-- C2: `generateCanonicalCodes` agrees with the reference canonical
assignment.  For every code-length table (a map, so with ascending keys)
whose lengths are between 1 and 64 and satisfy the Kraft inequality, and for
the list `l` of its (length, symbol) pairs in (length, symbol) order, the code
left for the `i`-th symbol of `l` is the reference rendering, on exactly its
length, of the sum over the earlier symbols of `2 ^ (len_i - len_j)`; that sum
is below `2 ^ len_i`. -/
theorem generateCanonicalCodes_matches_reference (h : Huffman) (l : List (Nat × Int))
    (hmap : h.codeLengths.Ordered)
    (hrange : ∀ p ∈ h.codeLengths, 1 ≤ p.2 ∧ p.2 ≤ 64)
    (hkraft : kraftSum h.codeLengths ≤ 1)
    (hperm : l.Perm (h.codeLengths.map (fun p => (p.2, p.1))))
    (hsorted : l.Sorted pairLE)
    (i : Nat) (hi : i < l.length) :
    h.generateCanonicalCodes.canonicalCodes.get? (l[i]).2 =
        some (referenceBits (l[i]).1 (((l.take i).map (fun p => 2 ^ ((l[i]).1 - p.1))).sum)) ∧
      ((l.take i).map (fun p => 2 ^ ((l[i]).1 - p.1))).sum < 2 ^ (l[i]).1 := by
  have hl := sortedSymbols_unique h.codeLengths l hperm hsorted
  have hsplit : l = l.take i ++ l[i] :: l.drop (i + 1) := by
    rw [← List.drop_eq_getElem_cons hi, List.take_append_drop]
  have hv := canonical_value h hmap.nodup hrange hkraft (l.take i) (l.drop (i + 1)) l[i]
    (by rw [← hl]; exact hsplit)
  rw [← bitsMSB_eq_referenceBits]
  exact hv

theorem generateCanonicalCodes_matches_reference_witness :
    CharMap.Ordered ([(97, 1), (98, 2), (99, 2)] : CharMap Nat) ∧
      (∀ p ∈ ([(97, 1), (98, 2), (99, 2)] : CharMap Nat), 1 ≤ p.2 ∧ p.2 ≤ 64) ∧
      kraftSum [(97, 1), (98, 2), (99, 2)] ≤ 1 ∧
      ([(1, 97), (2, 98), (2, 99)] : List (Nat × Int)).Perm
        (([(97, 1), (98, 2), (99, 2)] : CharMap Nat).map (fun p => (p.2, p.1))) ∧
      ([(1, 97), (2, 98), (2, 99)] : List (Nat × Int)).Sorted pairLE ∧
      (Huffman.generateCanonicalCodes
          { Huffman.new with codeLengths := [(97, 1), (98, 2), (99, 2)] }).canonicalCodes.get? 99 =
        some (referenceBits 2 (2 ^ (2 - 1) + (2 ^ (2 - 2) + 0))) ∧
      2 ^ (2 - 1) + (2 ^ (2 - 2) + 0) < 2 ^ 2 :=
  ⟨by unfold CharMap.Ordered; decide, by decide, by norm_num [kraftSum], by decide,
    by unfold List.Sorted; decide,
    generateCanonicalCodes_matches_reference
      { Huffman.new with codeLengths := [(97, 1), (98, 2), (99, 2)] }
      [(1, 97), (2, 98), (2, 99)] (by unfold CharMap.Ordered; decide) (by decide)
      (by norm_num [kraftSum]) (by decide) (by unfold List.Sorted; decide) 2 (by decide)⟩

/-- C3: the code `run` builds is an optimal prefix code.  For every text of at
least 30 characters, shorter than `2 ^ 31` (the range of the `int` counters),
with at least two distinct characters: every character of the text has a code
length of at least 1 and a canonical code of that length; the canonical codes
of two distinct characters are not prefixes of each other; the Kraft sum of
the code lengths is exactly 1; and the weighted length (the sum over the
distinct characters of occurrences times code length), which is the length of
the encoded output, is at most the weighted length of every assignment `L` of
code lengths to the characters that satisfies the Kraft inequality, that is of
every prefix-free binary code over these characters.  (The lengths of `L`
need not be assumed positive.) -/
theorem huffman_code_optimal (tie : Nat → Nat) (h : Huffman) (text : Text)
    (hlen : 30 ≤ text.length) (hint : text.length < 2 ^ 31) (h2 : 2 ≤ text.dedup.length)
    (L : Int → Nat)
    (hkraft : (text.dedup.map (fun s => (1 / 2 : ℚ) ^ L s)).sum ≤ 1) :
    (∀ s ∈ text, ∃ len code, (run tie h text).state.codeLengths.get? s = some len ∧
        1 ≤ len ∧ (run tie h text).state.canonicalCodes.get? s = some code ∧
        code.length = len) ∧
    (∀ a ∈ text, ∀ b ∈ text, a ≠ b → ∃ ca cb,
        (run tie h text).state.canonicalCodes.get? a = some ca ∧
        (run tie h text).state.canonicalCodes.get? b = some cb ∧ Unrelated ca cb) ∧
    (text.dedup.map (fun s =>
        (1 / 2 : ℚ) ^ ((run tie h text).state.codeLengths.get? s).getD 0)).sum = 1 ∧
    (text.dedup.map (fun s =>
        text.count s * ((run tie h text).state.codeLengths.get? s).getD 0)).sum ≤
      (text.dedup.map (fun s => text.count s * L s)).sum ∧
    (run tie h text).state.compressedData.length =
      (text.dedup.map (fun s =>
        text.count s * ((run tie h text).state.codeLengths.get? s).getD 0)).sum := by
  have hne := text_ne_nil_of_length hlen
  refine ⟨?_, ?_, ?_, ?_, run_weighted_length tie h text hlen⟩
  · intro s hs
    rw [run_state tie h text hlen]
    obtain ⟨len, code, a1, a2, a3, a4⟩ := canonicalized_entry tie h text hne s hs
    exact ⟨len, code, a1, a4, a2, a3⟩
  · intro a ha b hb hab
    obtain ⟨ca, cb, g1, g2, _, hu⟩ := run_unrelated tie h text hlen hint a b ha hb hab
    exact ⟨ca, cb, g1, g2, hu⟩
  · rw [run_codeLengths tie h text hlen, coded_kraft_dedup tie h text hne]
    exact (coded_kraft tie h text hne).2 h2
  · rw [run_codeLengths tie h text hlen]
    exact coded_weighted_le tie h text hne h2 L hkraft

theorem huffman_code_optimal_witness :
    30 ≤ test_few_symbols.length ∧ test_few_symbols.length < 2 ^ 31 ∧
      2 ≤ test_few_symbols.dedup.length ∧
      (test_few_symbols.dedup.map (fun s => (1 / 2 : ℚ) ^ (fun _ : Int => 2) s)).sum ≤ 1 ∧
      ((∀ s ∈ test_few_symbols, ∃ len code,
          (run (fun _ => 0) Huffman.new test_few_symbols).state.codeLengths.get? s = some len ∧
          1 ≤ len ∧
          (run (fun _ => 0) Huffman.new test_few_symbols).state.canonicalCodes.get? s =
            some code ∧
          code.length = len) ∧
      (∀ a ∈ test_few_symbols, ∀ b ∈ test_few_symbols, a ≠ b → ∃ ca cb,
          (run (fun _ => 0) Huffman.new test_few_symbols).state.canonicalCodes.get? a =
            some ca ∧
          (run (fun _ => 0) Huffman.new test_few_symbols).state.canonicalCodes.get? b =
            some cb ∧ Unrelated ca cb) ∧
      (test_few_symbols.dedup.map (fun s => (1 / 2 : ℚ) ^
          ((run (fun _ => 0) Huffman.new test_few_symbols).state.codeLengths.get? s).getD
            0)).sum = 1 ∧
      (test_few_symbols.dedup.map (fun s => test_few_symbols.count s *
          ((run (fun _ => 0) Huffman.new test_few_symbols).state.codeLengths.get? s).getD 0)).sum ≤
        (test_few_symbols.dedup.map (fun s =>
          test_few_symbols.count s * (fun _ : Int => 2) s)).sum ∧
      (run (fun _ => 0) Huffman.new test_few_symbols).state.compressedData.length =
        (test_few_symbols.dedup.map (fun s => test_few_symbols.count s *
          ((run (fun _ => 0) Huffman.new test_few_symbols).state.codeLengths.get? s).getD 0)).sum) :=
  have hd : test_few_symbols.dedup = [97, 98, 99, 100] := by decide
  have hk : (test_few_symbols.dedup.map (fun s => (1 / 2 : ℚ) ^ (fun _ : Int => 2) s)).sum ≤ 1 := by
    rw [hd]; norm_num
  ⟨by decide, by decide, by decide, hk,
    huffman_code_optimal (fun _ => 0) Huffman.new test_few_symbols (by decide) (by decide)
      (by decide) (fun _ => 2) hk⟩

/-- C4: for every text of at least 30 characters that the `int` counters of
the program can count (fewer than `2 ^ 31` characters), and the canonical
table `run` builds from it: on a string over the characters of the text the
encoder `compressText` appends the concatenation of the canonical codes of its
characters, and this map is injective, two different strings over the
characters of the text never giving the same bit sequence. -/
theorem encoding_uniquely_decodable (tie : Nat → Nat) (h : Huffman) (text : Text)
    (hlen : 30 ≤ text.length) (hint : text.length < 2 ^ 31) :
    (∀ s : Text, (∀ c ∈ s, c ∈ text) →
        ((run tie h text).state.compressText s).compressedData =
          (run tie h text).state.compressedData ++
            encode (run tie h text).state.canonicalCodes s) ∧
      (∀ s1 s2 : Text, (∀ c ∈ s1, c ∈ text) → (∀ c ∈ s2, c ∈ text) →
        encode (run tie h text).state.canonicalCodes s1 =
          encode (run tie h text).state.canonicalCodes s2 → s1 = s2) := by
  rw [run_state tie h text hlen]
  have hne := text_ne_nil_of_length hlen
  constructor
  · intro s hs
    rw [compressText_covered]
    intro c hc
    obtain ⟨_, code, _, h2, _⟩ := canonicalized_entry tie h text hne c (hs c hc)
    exact ⟨code, h2⟩
  · intro s1 s2 h1 h2 he
    refine encode_injective (canonicalized tie h text).canonicalCodes (fun c => c ∈ text)
      ?_ ?_ s1 s2 h1 h2 he
    · intro a ha
      obtain ⟨len, code, _, hc, hl, hpos⟩ := canonicalized_entry tie h text hne a ha
      refine ⟨code, hc, ?_⟩
      intro h0
      rw [h0] at hl
      simp at hl
      omega
    · intro a b ha hb hab ca cb hca hcb
      obtain ⟨ca', cb', h3, h4, hu⟩ := canonicalized_unrelated tie h text hne hint a b ha hb hab
      rw [hca] at h3
      rw [hcb] at h4
      cases h3
      cases h4
      exact hu

theorem encoding_uniquely_decodable_witness :
    30 ≤ test_few_symbols.length ∧ test_few_symbols.length < 2 ^ 31 ∧
      (∀ c ∈ ([97, 98, 97] : Text), c ∈ test_few_symbols) ∧
      ((run (fun _ => 0) Huffman.new test_few_symbols).state.compressText
          [97, 98, 97]).compressedData =
        (run (fun _ => 0) Huffman.new test_few_symbols).state.compressedData ++
          encode (run (fun _ => 0) Huffman.new test_few_symbols).state.canonicalCodes
            [97, 98, 97] ∧
      (encode (run (fun _ => 0) Huffman.new test_few_symbols).state.canonicalCodes [97, 98, 97] =
          encode (run (fun _ => 0) Huffman.new test_few_symbols).state.canonicalCodes
            [97, 98, 97] →
        ([97, 98, 97] : Text) = [97, 98, 97]) :=
  ⟨by decide, by decide, by decide,
    (encoding_uniquely_decodable (fun _ => 0) Huffman.new test_few_symbols (by decide)
      (by decide)).1 [97, 98, 97] (by decide),
    (encoding_uniquely_decodable (fun _ => 0) Huffman.new test_few_symbols (by decide)
      (by decide)).2 [97, 98, 97] [97, 98, 97] (by decide) (by decide)⟩

/-- C5: for every text of at least 30 characters, the code lengths `buildTree`
and `generateCodes` produce satisfy the Kraft inequality: the sum over the
code-length table of `2 ^ (-length)` is at most 1; and when the text has at
least two distinct characters, every node of the tree is a leaf or has two
children and the sum is exactly 1. -/
theorem code_lengths_kraft (tie : Nat → Nat) (h : Huffman) (text : Text)
    (hlen : 30 ≤ text.length) :
    kraftSum (run tie h text).state.codeLengths ≤ 1 ∧
      (2 ≤ text.dedup.length →
        Node.Full (run tie h text).state.root ∧
          kraftSum (run tie h text).state.codeLengths = 1) := by
  rw [run_state tie h text hlen]
  have hne := text_ne_nil_of_length hlen
  obtain ⟨k1, k2⟩ := coded_kraft tie h text hne
  exact ⟨k1, fun h2 => ⟨(coded_spec tie h text hne).2.2.2.1 h2, k2 h2⟩⟩

theorem code_lengths_kraft_witness :
    30 ≤ test_few_symbols.length ∧ 2 ≤ test_few_symbols.dedup.length ∧
      kraftSum (run (fun _ => 0) Huffman.new test_few_symbols).state.codeLengths ≤ 1 ∧
      Node.Full (run (fun _ => 0) Huffman.new test_few_symbols).state.root ∧
      kraftSum (run (fun _ => 0) Huffman.new test_few_symbols).state.codeLengths = 1 :=
  ⟨by decide, by decide,
    (code_lengths_kraft (fun _ => 0) Huffman.new test_few_symbols (by decide)).1,
    (code_lengths_kraft (fun _ => 0) Huffman.new test_few_symbols (by decide)).2 (by decide)⟩

/-- C6: for every text of at least 30 characters, every character of the text
has a code length of at least 1 and a canonical code of at least one bit (of
that same length); and when the text is one character repeated, the code
length of that character is exactly 1, its canonical code is exactly `"0"`,
and the encoded output is one `'0'` per character of the text. -/
theorem code_lengths_at_least_one (tie : Nat → Nat) (h : Huffman) (text : Text)
    (hlen : 30 ≤ text.length) :
    (∀ s ∈ text, ∃ len code,
        (run tie h text).state.codeLengths.get? s = some len ∧ 1 ≤ len ∧
        (run tie h text).state.canonicalCodes.get? s = some code ∧ code.length = len ∧
        1 ≤ code.length) ∧
      (∀ c : Int, (∀ x ∈ text, x = c) →
        (run tie h text).state.codeLengths = [(c, 1)] ∧
        (run tie h text).state.canonicalCodes = [(c, ['0'])] ∧
        (run tie h text).state.compressedData = List.replicate text.length '0') := by
  rw [run_state tie h text hlen]
  have hne := text_ne_nil_of_length hlen
  constructor
  · intro s hs
    obtain ⟨len, code, a1, a2, a3, a4⟩ := canonicalized_entry tie h text hne s hs
    exact ⟨len, code, a1, a4, a2, a3, by omega⟩
  · intro c hall
    obtain ⟨b1, b2⟩ := canonicalized_single tie h text c hne hall
    refine ⟨b1, b2, ?_⟩
    show encode (canonicalized tie h text).canonicalCodes text = _
    rw [b2, encode_single c ['0'] text hall]
    simp

theorem code_lengths_at_least_one_witness :
    30 ≤ (List.replicate 30 (97 : Int)).length ∧
      (∀ x ∈ List.replicate 30 (97 : Int), x = 97) ∧
      (∀ s ∈ List.replicate 30 (97 : Int), ∃ len code,
        (run (fun _ => 0) Huffman.new (List.replicate 30 97)).state.codeLengths.get? s =
          some len ∧ 1 ≤ len ∧
        (run (fun _ => 0) Huffman.new (List.replicate 30 97)).state.canonicalCodes.get? s =
          some code ∧ code.length = len ∧ 1 ≤ code.length) ∧
      (run (fun _ => 0) Huffman.new (List.replicate 30 97)).state.codeLengths = [(97, 1)] ∧
      (run (fun _ => 0) Huffman.new (List.replicate 30 97)).state.canonicalCodes =
        [(97, ['0'])] ∧
      (run (fun _ => 0) Huffman.new (List.replicate 30 97)).state.compressedData =
        List.replicate (List.replicate 30 (97 : Int)).length '0' :=
  ⟨by decide, by decide,
    (code_lengths_at_least_one (fun _ => 0) Huffman.new (List.replicate 30 97) (by decide)).1,
    (code_lengths_at_least_one (fun _ => 0) Huffman.new (List.replicate 30 97) (by decide)).2
      97 (by decide)⟩

/-- C7: for every non-empty frequency table whose counts add up to less than
`2 ^ 31` (so that no `int` sum `combinedFreq` overflows), the tree `buildTree`
returns has as many leaves as the table has entries, its leaves are exactly
the entries of the table (each symbol with its frequency), every node that is
not a leaf carries the sum of the frequencies of its children, and the root
carries the sum of all the counts, which is in the range of `int`. -/
theorem buildTree_leaves_and_weights (tie : Nat → Nat) (h : Huffman)
    (hne : h.frequencies ≠ []) (hsum : (h.frequencies.map Prod.snd).sum < 2 ^ 31) :
    (h.buildTree tie).root.leaves.length = h.frequencies.length ∧
      (h.buildTree tie).root.leaves.Perm h.frequencies ∧
      Node.SumOK (h.buildTree tie).root ∧
      (h.buildTree tie).root.frequency = (h.frequencies.map Prod.snd).sum ∧
      (h.buildTree tie).root.frequency < 2 ^ 31 := by
  obtain ⟨_, r2, r3, r4⟩ := buildTree_root_spec tie h hne
  have hroot : (h.buildTree tie).root.frequency = (h.frequencies.map Prod.snd).sum := by
    by_cases h2 : 2 ≤ h.frequencies.length
    · rw [Node.frequency_eq_sum (r4 h2) r2, (r3.map Prod.snd).sum_eq]
    · have hpos : 0 < h.frequencies.length := List.length_pos.mpr hne
      obtain ⟨p, hp⟩ := List.length_eq_one.mp (by omega : h.frequencies.length = 1)
      obtain ⟨s, f⟩ := p
      rw [buildTree_root_of_single tie h s f hp, hp]
      simp [Node.internal, Node.frequency]
  exact ⟨r3.length_eq, r3, r2, hroot, by rw [hroot]; exact hsum⟩

theorem buildTree_leaves_and_weights_witness :
    ({ Huffman.new with frequencies := [(97, 3), (98, 5), (99, 1)] } : Huffman).frequencies ≠ [] ∧
      (({ Huffman.new with frequencies := [(97, 3), (98, 5), (99, 1)] } :
        Huffman).frequencies.map Prod.snd).sum < 2 ^ 31 ∧
      ((Huffman.buildTree (fun _ => 0)
          { Huffman.new with frequencies := [(97, 3), (98, 5), (99, 1)] }).root.leaves.length =
        ({ Huffman.new with frequencies := [(97, 3), (98, 5), (99, 1)] } : Huffman).frequencies.length ∧
      (Huffman.buildTree (fun _ => 0)
          { Huffman.new with frequencies := [(97, 3), (98, 5), (99, 1)] }).root.leaves.Perm
        ({ Huffman.new with frequencies := [(97, 3), (98, 5), (99, 1)] } : Huffman).frequencies ∧
      Node.SumOK (Huffman.buildTree (fun _ => 0)
          { Huffman.new with frequencies := [(97, 3), (98, 5), (99, 1)] }).root ∧
      (Huffman.buildTree (fun _ => 0)
          { Huffman.new with frequencies := [(97, 3), (98, 5), (99, 1)] }).root.frequency =
        (({ Huffman.new with frequencies := [(97, 3), (98, 5), (99, 1)] } :
          Huffman).frequencies.map Prod.snd).sum ∧
      (Huffman.buildTree (fun _ => 0)
          { Huffman.new with frequencies := [(97, 3), (98, 5), (99, 1)] }).root.frequency <
        2 ^ 31) :=
  ⟨by decide, by decide, buildTree_leaves_and_weights (fun _ => 0)
    { Huffman.new with frequencies := [(97, 3), (98, 5), (99, 1)] } (by decide) (by decide)⟩

/-- C8, failing input: the frequency table `a`..`g` with count 1 and `h` with
count 2.  Its leaves are pushed once in the order `a b c d e f g h` and once
in the order `a b c d f g h e`; in both runs the leaves leave the queue in
symbol order, and the three internal nodes of frequency 2 they form all carry
`'\0'`, so that `CompareNodes` orders no two of them.  With these tied nodes
removed in the order in which a binary heap (`std::push_heap`,
`std::pop_heap`) removes them, which is what the two choice sequences record,
`buildTree` and `generateCodes` give `a`, `b` three bits and `c`, `d` four for
the first order, and `a`, `b` four bits and `c`, `d` three for the second. -/
theorem code_lengths_depend_on_push_order :
    ([(97, 1), (98, 1), (99, 1), (100, 1), (101, 1), (102, 1), (103, 1), (104, 2)] :
        List (Int × Nat)).Perm
      [(97, 1), (98, 1), (99, 1), (100, 1), (102, 1), (103, 1), (104, 2), (101, 1)] ∧
    codeLengthsOf (fun k => ([0, 0, 0, 0, 0, 0, 0, 1] : List Nat).getD k 0)
        [(97, 1), (98, 1), (99, 1), (100, 1), (101, 1), (102, 1), (103, 1), (104, 2)] =
      [(97, 3), (98, 3), (99, 4), (100, 4), (101, 3), (102, 3), (103, 3), (104, 2)] ∧
    codeLengthsOf (fun k => ([0, 0, 0, 0, 0, 0, 0, 2, 1] : List Nat).getD k 0)
        [(97, 1), (98, 1), (99, 1), (100, 1), (102, 1), (103, 1), (104, 2), (101, 1)] =
      [(97, 4), (98, 4), (99, 3), (100, 3), (101, 3), (102, 3), (103, 3), (104, 2)] ∧
    CompareNodes (Node.internal 2 (Node.leaf 97 1) (Node.leaf 98 1))
        (Node.internal 2 (Node.leaf 99 1) (Node.leaf 100 1)) = false ∧
    CompareNodes (Node.internal 2 (Node.leaf 99 1) (Node.leaf 100 1))
        (Node.internal 2 (Node.leaf 97 1) (Node.leaf 98 1)) = false ∧
    CompareNodes (Node.internal 2 (Node.leaf 99 1) (Node.leaf 100 1))
        (Node.internal 2 (Node.leaf 101 1) (Node.leaf 102 1)) = false ∧
    CompareNodes (Node.internal 2 (Node.leaf 101 1) (Node.leaf 102 1))
        (Node.internal 2 (Node.leaf 99 1) (Node.leaf 100 1)) = false := by
  set_option maxRecDepth 1000000 in decide

/-- C8, what the code does fix: `CompareNodes` leaves two nodes unordered exactly
when they have the same frequency and the same symbol; two leaves of a table
never do, but internal nodes all carry `'\0'`, so two internal nodes of the
same frequency are never ordered.  For every non-empty frequency table whose
counts add up to less than `2 ^ 31` (the range of the `int` sums), whatever the
order in which the leaves are pushed (`fs2` is `fs1` in another order) and
whatever the resolutions `tie1`, `tie2` of the ties, the code lengths
`buildTree` and `generateCodes` assign have the same weighted sum of frequency
times length. -/
theorem code_lengths_determined_up_to_ties (tie1 tie2 : Nat → Nat) (fs1 fs2 : List (Int × Nat))
    (hne : fs1 ≠ []) (hnd : (fs1.map Prod.fst).Nodup) (hperm : fs1.Perm fs2)
    (hsum : (fs1.map Prod.snd).sum < 2 ^ 31) :
    (fs1.map (fun p => p.2 * ((codeLengthsOf tie1 fs1).get? p.1).getD 0)).sum =
        (fs2.map (fun p => p.2 * ((codeLengthsOf tie2 fs2).get? p.1).getD 0)).sum ∧
      (fs2.map Prod.snd).sum < 2 ^ 31 ∧
      (∀ a b : Node, (CompareNodes a b = false ∧ CompareNodes b a = false) ↔
        (a.frequency = b.frequency ∧ a.symbol = b.symbol)) ∧
      (∀ (f : Nat) (l1 r1 l2 r2 : Node),
        CompareNodes (Node.internal f l1 r1) (Node.internal f l2 r2) = false) ∧
      (∀ (s1 s2 : Int) (f1 f2 : Nat), s1 ≠ s2 →
        (CompareNodes (Node.leaf s1 f1) (Node.leaf s2 f2) = true ∨
          CompareNodes (Node.leaf s2 f2) (Node.leaf s1 f1) = true)) := by
  refine ⟨weighted_length_tie_independent tie1 tie2 fs1 fs2 hne hnd hperm, ?_,
    compareNodes_tie_iff, ?_, ?_⟩
  · rw [← (hperm.map Prod.snd).sum_eq]
    exact hsum
  · intro f l1 r1 l2 r2
    exact ((compareNodes_tie_iff _ _).mpr ⟨rfl, rfl⟩).1
  · intro s1 s2 f1 f2 hs
    by_contra hcon
    rw [not_or] at hcon
    have h1 : CompareNodes (Node.leaf s1 f1) (Node.leaf s2 f2) = false := by
      simpa using hcon.1
    have h3 : CompareNodes (Node.leaf s2 f2) (Node.leaf s1 f1) = false := by
      simpa using hcon.2
    exact hs ((compareNodes_tie_iff _ _).mp ⟨h1, h3⟩).2

theorem code_lengths_determined_up_to_ties_witness :
    ([(97, 1), (98, 1), (99, 1), (100, 1), (101, 1), (102, 1), (103, 1), (104, 2)] :
        List (Int × Nat)) ≠ [] ∧
      (([(97, 1), (98, 1), (99, 1), (100, 1), (101, 1), (102, 1), (103, 1), (104, 2)] :
        List (Int × Nat)).map Prod.fst).Nodup ∧
      ([(97, 1), (98, 1), (99, 1), (100, 1), (101, 1), (102, 1), (103, 1), (104, 2)] :
          List (Int × Nat)).Perm
        [(97, 1), (98, 1), (99, 1), (100, 1), (102, 1), (103, 1), (104, 2), (101, 1)] ∧
      (([(97, 1), (98, 1), (99, 1), (100, 1), (101, 1), (102, 1), (103, 1), (104, 2)] :
        List (Int × Nat)).map Prod.snd).sum < 2 ^ 31 ∧
      (([(97, 1), (98, 1), (99, 1), (100, 1), (101, 1), (102, 1), (103, 1), (104, 2)] :
          List (Int × Nat)).map (fun p => p.2 *
            ((codeLengthsOf (fun k => ([0, 0, 0, 0, 0, 0, 0, 1] : List Nat).getD k 0)
              [(97, 1), (98, 1), (99, 1), (100, 1), (101, 1), (102, 1), (103, 1),
                (104, 2)]).get? p.1).getD 0)).sum =
        (([(97, 1), (98, 1), (99, 1), (100, 1), (102, 1), (103, 1), (104, 2), (101, 1)] :
          List (Int × Nat)).map (fun p => p.2 *
            ((codeLengthsOf (fun k => ([0, 0, 0, 0, 0, 0, 0, 2, 1] : List Nat).getD k 0)
              [(97, 1), (98, 1), (99, 1), (100, 1), (102, 1), (103, 1), (104, 2),
                (101, 1)]).get? p.1).getD 0)).sum :=
  ⟨by decide, by decide, by decide, by decide,
    (code_lengths_determined_up_to_ties
      (fun k => ([0, 0, 0, 0, 0, 0, 0, 1] : List Nat).getD k 0)
      (fun k => ([0, 0, 0, 0, 0, 0, 0, 2, 1] : List Nat).getD k 0)
      [(97, 1), (98, 1), (99, 1), (100, 1), (101, 1), (102, 1), (103, 1), (104, 2)]
      [(97, 1), (98, 1), (99, 1), (100, 1), (102, 1), (103, 1), (104, 2), (101, 1)]
      (by decide) (by decide) (by decide) (by decide)).1⟩

/-- C9: `run` rejects a text (writes its error line) if and only if its length
is below 30; when it rejects, the object is returned exactly as it was, and
otherwise the object is the result of the stages of the pipeline. -/
theorem run_rejects_iff_short (tie : Nat → Nat) (h : Huffman) (text : Text) :
    ((run tie h text).cerr.isSome ↔ text.length < 30) ∧
      (text.length < 30 → (run tie h text).state = h) ∧
      (30 ≤ text.length →
        (run tie h text).state = pipeline tie h text ∧ (run tie h text).cerr = none) := by
  unfold run
  by_cases hl : text.length < 30
  · simp [if_pos hl, hl]
  · rw [if_neg hl]
    simp [hl]

theorem run_rejects_iff_short_witness :
    (List.replicate 29 (97 : Int)).length < 30 ∧ 30 ≤ (List.replicate 30 (97 : Int)).length ∧
      (run (fun _ => 0) Huffman.new (List.replicate 29 97)).state = Huffman.new ∧
      ((run (fun _ => 0) Huffman.new (List.replicate 30 97)).state =
          pipeline (fun _ => 0) Huffman.new (List.replicate 30 97) ∧
        (run (fun _ => 0) Huffman.new (List.replicate 30 97)).cerr = none) :=
  ⟨by decide, by decide,
    (run_rejects_iff_short (fun _ => 0) Huffman.new (List.replicate 29 97)).2.1 (by decide),
    (run_rejects_iff_short (fun _ => 0) Huffman.new (List.replicate 30 97)).2.2 (by decide)⟩

/-- C10, counterexample: on a table that has no entry for the character `98` of
the text, `compressText` returns an encoded bit sequence all the same, and
the table it leaves is not the table it was given. -/
theorem compressText_missing_symbol_no_failure :
    (98 : Int) ∈ ([97, 98] : Text) ∧
      CharMap.get? ([(97, ['0'])] : CharMap Bits) 98 = none ∧
      (Huffman.compressText { Huffman.new with canonicalCodes := [(97, ['0'])] }
        [97, 98]).compressedData = ['0'] ∧
      (Huffman.compressText { Huffman.new with canonicalCodes := [(97, ['0'])] }
        [97, 98]).canonicalCodes = [(97, ['0']), (98, [])] ∧
      (Huffman.compressText { Huffman.new with canonicalCodes := [(97, ['0'])] }
        [97, 98]).canonicalCodes ≠ [(97, ['0'])] := by
  decide

/-- C10, as amended: `compressText` never fails.  For every object and every
text it returns, the output being the previous output followed by the codes of
the characters that have an entry in the canonical table; a character without
entry contributes nothing and is inserted into the table with the empty code,
and every other entry of the table is left as it was. -/
theorem compressText_inserts_empty_code (text : Text) : ∀ (h : Huffman),
    (h.compressText text).compressedData = h.compressedData ++ encode h.canonicalCodes text ∧
      ∀ c : Int, (h.compressText text).canonicalCodes.get? c =
        if c ∈ text ∧ h.canonicalCodes.get? c = none then some [] else h.canonicalCodes.get? c := by
  induction text with
  | nil => intro h; simp [compressText, encode]
  | cons x r ih =>
    intro h
    have e : compressText h (x :: r) = compressText (appendCode h x) r := rfl
    rw [e]
    obtain ⟨i1, i2⟩ := ih (appendCode h x)
    cases hx : h.canonicalCodes.get? x with
    | some code =>
      have ha := appendCode_of_get? h x code hx
      rw [ha] at i1 i2 ⊢
      constructor
      · rw [i1, encode_cons, hx]
        simp
      · intro c
        rw [i2 c]
        by_cases hc : c = x
        · subst hc
          simp [hx]
        · simp [hc]
    | none =>
      have ha : appendCode h x =
          { h with
            canonicalCodes := CharMap.set h.canonicalCodes x []
            compressedData := h.compressedData ++ [] } := by
        unfold appendCode
        rw [hx]
      rw [ha] at i1 i2 ⊢
      constructor
      · rw [i1, encode_cons, hx]
        simp only [List.append_nil, Option.getD_none, List.nil_append]
        congr 1
        apply encode_congr
        intro c _
        by_cases hc : c = x
        · subst hc
          rw [CharMap.get?_set_self, hx]
          rfl
        · rw [CharMap.get?_set_ne _ _ hc]
      · intro c
        rw [i2 c]
        by_cases hc : c = x
        · subst hc
          simp [hx, CharMap.get?_set_self]
        · simp [hc, CharMap.get?_set_ne _ _ hc]

end HuffmanCanonical

/-! ## The claims, continued -/

namespace HuffmanCanonical
open Huffman

/-- C11: for every text of at least 30 characters, shorter than `2 ^ 31` (the
range of the `int` counts), every character of the text has a canonical code,
the encoded output after `run` is exactly the concatenation, in input order, of
the canonical codes of the characters of the text; its bit count is the sum
over the characters of the text of the length of their canonical code, which
is the sum over the frequency table of frequency times code length, every
count of the table being below `2 ^ 31`. -/
theorem encoded_output_is_concatenation (tie : Nat → Nat) (h : Huffman) (text : Text)
    (hlen : 30 ≤ text.length) (hint : text.length < 2 ^ 31) :
    (∀ c ∈ text, ∃ code, (run tie h text).state.canonicalCodes.get? c = some code) ∧
      (run tie h text).state.compressedData =
        encode (run tie h text).state.canonicalCodes text ∧
      (run tie h text).state.compressedData.length =
        (text.map (fun c =>
          (((run tie h text).state.canonicalCodes.get? c).getD []).length)).sum ∧
      (run tie h text).state.compressedData.length =
        ((run tie h text).state.frequencies.map (fun p =>
          p.2 * ((run tie h text).state.codeLengths.get? p.1).getD 0)).sum ∧
      (∀ p ∈ (run tie h text).state.frequencies, p.2 < 2 ^ 31) := by
  refine ⟨?_, ?_, ?_, ?_, run_frequencies_in_range tie h text hlen hint⟩
  all_goals rw [run_state tie h text hlen]
  all_goals have hne := text_ne_nil_of_length hlen
  · intro c hc
    obtain ⟨_, code, _, a2, _⟩ := canonicalized_entry tie h text hne c hc
    exact ⟨code, a2⟩
  · exact encode_length _ _
  · have hlenc : (text.map (fun c =>
        (((canonicalized tie h text).canonicalCodes.get? c).getD []).length)) =
        text.map (fun c => ((coded tie h text).codeLengths.get? c).getD 0) := by
      apply List.map_congr_left
      intro c hc
      obtain ⟨len, code, a1, a2, a3, _⟩ := canonicalized_entry tie h text hne c hc
      have a1' : (coded tie h text).codeLengths.get? c = some len := a1
      rw [a2, a1']
      exact a3
    show (encode (canonicalized tie h text).canonicalCodes text).length =
      ((coded tie h text).frequencies.map (fun p =>
        p.2 * ((coded tie h text).codeLengths.get? p.1).getD 0)).sum
    rw [encode_length, hlenc, sum_map_eq_sum_dedup, (coded_root tie h text hne).2.1,
      ((frequencies_perm text).map _).sum_eq, List.map_map]
    rfl

theorem encoded_output_is_concatenation_witness :
    30 ≤ test_few_symbols.length ∧ test_few_symbols.length < 2 ^ 31 ∧
      ((∀ c ∈ test_few_symbols, ∃ code,
          (run (fun _ => 0) Huffman.new test_few_symbols).state.canonicalCodes.get? c =
            some code) ∧
        (run (fun _ => 0) Huffman.new test_few_symbols).state.compressedData =
          encode (run (fun _ => 0) Huffman.new test_few_symbols).state.canonicalCodes
            test_few_symbols ∧
        (run (fun _ => 0) Huffman.new test_few_symbols).state.compressedData.length =
          (test_few_symbols.map (fun c =>
            (((run (fun _ => 0) Huffman.new test_few_symbols).state.canonicalCodes.get?
              c).getD []).length)).sum ∧
        (run (fun _ => 0) Huffman.new test_few_symbols).state.compressedData.length =
          ((run (fun _ => 0) Huffman.new test_few_symbols).state.frequencies.map (fun p =>
            p.2 * ((run (fun _ => 0) Huffman.new test_few_symbols).state.codeLengths.get?
              p.1).getD 0)).sum ∧
        (∀ p ∈ (run (fun _ => 0) Huffman.new test_few_symbols).state.frequencies,
          p.2 < 2 ^ 31)) :=
  ⟨by decide, by decide, encoded_output_is_concatenation (fun _ => 0) Huffman.new
    test_few_symbols (by decide) (by decide)⟩

/-- C12: for every text shorter than `2 ^ 31` (so that no `int` count
overflows), `calculateFrequencies` applied to an empty frequency table yields a
table without repeated key in which the entry of each symbol is exactly its
number of occurrences in the text: the counts add up to the length of the
text, every symbol of the text has a count of at least 1, no entry has count
0, a symbol that does not occur has no entry, and every count is below
`2 ^ 31`. -/
theorem calculateFrequencies_counts_occurrences (h : Huffman) (text : Text)
    (hempty : h.frequencies = []) (hint : text.length < 2 ^ 31) :
    ((h.calculateFrequencies text).frequencies.map Prod.fst).Nodup ∧
      (∀ x n, (x, n) ∈ (h.calculateFrequencies text).frequencies ↔
        (x ∈ text ∧ n = text.count x)) ∧
      ((h.calculateFrequencies text).frequencies.map Prod.snd).sum = text.length ∧
      (∀ x ∈ text, ∃ n, (x, n) ∈ (h.calculateFrequencies text).frequencies ∧ 1 ≤ n) ∧
      (∀ p ∈ (h.calculateFrequencies text).frequencies, p.2 ≠ 0) ∧
      (∀ x, x ∉ text → CharMap.get? (h.calculateFrequencies text).frequencies x = none) ∧
      (∀ p ∈ (h.calculateFrequencies text).frequencies, p.2 < 2 ^ 31) := by
  have e : (h.calculateFrequencies text).frequencies = text.foldl incrementCount [] := by
    unfold calculateFrequencies
    rw [hempty]
  rw [e]
  obtain ⟨s1, s2, s3, s4⟩ := frequencies_spec text
  refine ⟨s1, s3, s4, ?_, ?_, ?_, frequencies_in_range text hint⟩
  · intro x hx
    exact ⟨text.count x, (s3 x _).mpr ⟨hx, rfl⟩, List.count_pos_iff.mpr hx⟩
  · intro p hp
    have := frequencies_pos text p hp
    omega
  · intro x hx
    rw [get?_frequencies, if_neg hx]

theorem calculateFrequencies_counts_occurrences_witness :
    Huffman.new.frequencies = [] ∧ ([97, 98, 97] : Text).length < 2 ^ 31 ∧
      (((Huffman.new.calculateFrequencies [97, 98, 97]).frequencies.map Prod.fst).Nodup ∧
      (∀ x n, (x, n) ∈ (Huffman.new.calculateFrequencies [97, 98, 97]).frequencies ↔
        (x ∈ ([97, 98, 97] : Text) ∧ n = ([97, 98, 97] : Text).count x)) ∧
      ((Huffman.new.calculateFrequencies [97, 98, 97]).frequencies.map Prod.snd).sum =
        ([97, 98, 97] : Text).length ∧
      (∀ x ∈ ([97, 98, 97] : Text), ∃ n,
        (x, n) ∈ (Huffman.new.calculateFrequencies [97, 98, 97]).frequencies ∧ 1 ≤ n) ∧
      (∀ p ∈ (Huffman.new.calculateFrequencies [97, 98, 97]).frequencies, p.2 ≠ 0) ∧
      (∀ x, x ∉ ([97, 98, 97] : Text) →
        CharMap.get? (Huffman.new.calculateFrequencies [97, 98, 97]).frequencies x = none) ∧
      (∀ p ∈ (Huffman.new.calculateFrequencies [97, 98, 97]).frequencies, p.2 < 2 ^ 31)) :=
  ⟨rfl, by decide, calculateFrequencies_counts_occurrences Huffman.new [97, 98, 97] rfl
    (by decide)⟩

/-- C13, failing input: `run(test_uniform)` on a freshly constructed object, and
then `run(test_uniform)` once more on the same object.  `clear` empties
`frequencies`, but a `std::unordered_map` keeps its bucket array when it is
cleared, so the second run iterates over the same forty entries in another
order and pushes the leaves in another order; the twenty internal nodes of
frequency 2 all carry `'\0'`, `CompareNodes` orders no two of them, and the
binary heap of `std::priority_queue` removes them in another order.  The
choice sequences `firstRunChoices` and `secondRunChoices` record the removals
of the first and of the second run.  The
two runs give the same frequency table and an output of the same length, 216
bits, but different code lengths for twelve of the forty characters, and so
different canonical codes (`'!'` has six bits after the first run and five
after the second). -/
theorem second_run_changes_code_lengths :
    (run firstRunChoices Huffman.new test_uniform).state.codeLengths =
      [(33, 6), (44, 6), (46, 6), (48, 6), (49, 6), (50, 6), (51, 5), (52, 5), (53, 5),
        (54, 5), (55, 5), (56, 5), (57, 6), (63, 6), (97, 6), (98, 6), (99, 5), (100, 5),
        (101, 6), (102, 6), (103, 5), (104, 5), (105, 5), (106, 5), (107, 6), (108, 6),
        (109, 5), (110, 5), (111, 5), (112, 5), (113, 5), (114, 5), (115, 5), (116, 5),
        (117, 6), (118, 6), (119, 5), (120, 5), (121, 5), (122, 5)] ∧
    (run secondRunChoices (run firstRunChoices Huffman.new test_uniform).state
        test_uniform).state.codeLengths =
      [(33, 5), (44, 5), (46, 5), (48, 5), (49, 6), (50, 6), (51, 6), (52, 6), (53, 5),
        (54, 5), (55, 6), (56, 6), (57, 6), (63, 6), (97, 5), (98, 5), (99, 5), (100, 5),
        (101, 6), (102, 6), (103, 5), (104, 5), (105, 5), (106, 5), (107, 6), (108, 6),
        (109, 5), (110, 5), (111, 5), (112, 5), (113, 6), (114, 6), (115, 5), (116, 5),
        (117, 6), (118, 6), (119, 5), (120, 5), (121, 5), (122, 5)] ∧
    (run firstRunChoices Huffman.new test_uniform).state.canonicalCodes.get? 33 =
      some ['1', '1', '0', '0', '0', '0'] ∧
    (run secondRunChoices (run firstRunChoices Huffman.new test_uniform).state
        test_uniform).state.canonicalCodes.get? 33 =
      some ['0', '0', '0', '0', '0'] ∧
    (run firstRunChoices Huffman.new test_uniform).state.frequencies =
      (run secondRunChoices (run firstRunChoices Huffman.new test_uniform).state
        test_uniform).state.frequencies ∧
    (run firstRunChoices Huffman.new test_uniform).state.compressedData.length = 216 ∧
    (run secondRunChoices (run firstRunChoices Huffman.new test_uniform).state
        test_uniform).state.compressedData.length = 216 := by
  set_option maxRecDepth 1000000 in decide

/-- C13, what the code does guarantee.  For every text of at least 30
characters, shorter than `2 ^ 31` (the range of the `int` counts), whatever the
states `h1`, `h2` of the object before the two calls and whatever the
resolutions `tie1`, `tie2` of the ties of the queue in the two runs: the two
runs leave the same frequency table, with counts below `2 ^ 31`, tables with
the same keys, codes of the same weighted length, and outputs of the same
length.  No field of the object carries anything over: with one and the same
resolution of the ties the whole state after `run` is the same for `h1` and for
`h2`. -/
theorem runs_agree_up_to_tie_resolution (tie1 tie2 : Nat → Nat) (h1 h2 : Huffman)
    (text : Text) (hlen : 30 ≤ text.length) (hint : text.length < 2 ^ 31) :
    (run tie1 h1 text).state.frequencies = (run tie2 h2 text).state.frequencies ∧
      (∀ p ∈ (run tie1 h1 text).state.frequencies, p.2 < 2 ^ 31) ∧
      (∀ x, x ∈ (run tie1 h1 text).state.codeLengths.map Prod.fst ↔
        x ∈ (run tie2 h2 text).state.codeLengths.map Prod.fst) ∧
      (∀ x, x ∈ (run tie1 h1 text).state.canonicalCodes.map Prod.fst ↔
        x ∈ (run tie2 h2 text).state.canonicalCodes.map Prod.fst) ∧
      (text.dedup.map (fun s =>
          text.count s * ((run tie1 h1 text).state.codeLengths.get? s).getD 0)).sum =
        (text.dedup.map (fun s =>
          text.count s * ((run tie2 h2 text).state.codeLengths.get? s).getD 0)).sum ∧
      (run tie1 h1 text).state.compressedData.length =
        (run tie2 h2 text).state.compressedData.length ∧
      (run tie1 h1 text).state = (run tie1 h2 text).state := by
  refine ⟨?_, run_frequencies_in_range tie1 h1 text hlen hint, ?_, ?_, ?_,
    run_output_length_tie tie1 tie2 h1 h2 text hlen, ?_⟩
  · rw [run_frequencies tie1 h1 text hlen, run_frequencies tie2 h2 text hlen]
  · intro x
    rw [(run_table_keys tie1 h1 text hlen x).2.1, (run_table_keys tie2 h2 text hlen x).2.1]
  · intro x
    rw [(run_table_keys tie1 h1 text hlen x).2.2, (run_table_keys tie2 h2 text hlen x).2.2]
  · rw [← run_weighted_length tie1 h1 text hlen, ← run_weighted_length tie2 h2 text hlen]
    exact run_output_length_tie tie1 tie2 h1 h2 text hlen
  · rw [run_fresh tie1 h1 text hlen, run_fresh tie1 h2 text hlen]

theorem runs_agree_up_to_tie_resolution_witness :
    30 ≤ test_uniform.length ∧ test_uniform.length < 2 ^ 31 ∧
      (run firstRunChoices Huffman.new test_uniform).state.compressedData.length =
        (run secondRunChoices (run (fun _ => 0) Huffman.new test_spaces).state
          test_uniform).state.compressedData.length :=
  ⟨by decide, by decide,
    (runs_agree_up_to_tie_resolution firstRunChoices secondRunChoices
      Huffman.new (run (fun _ => 0) Huffman.new test_spaces).state test_uniform
      (by decide) (by decide)).2.2.2.2.2.1⟩

/-- C14: for every text of at least 30 characters, shorter than `2 ^ 31` (the
range of the `int` counters), with exactly four distinct symbols that all occur
equally often, whatever the resolution of the ties of the queue, the table of
code lengths after `run` gives length 2 to each of the four symbols, the
canonical codes are `00`, `01`, `10`, `11` in ascending symbol order, and the
tree is complete with its four leaves at depth 2; every count of the frequency
table is below `2 ^ 31`. -/
theorem four_equal_symbols_get_two_bit_codes (tie : Nat → Nat) (h : Huffman) (text : Text)
    (hlen : 30 ≤ text.length) (hint : text.length < 2 ^ 31) (h4 : text.dedup.length = 4)
    (heq : ∀ x ∈ text, ∀ y ∈ text, text.count x = text.count y) :
    ∃ s1 s2 s3 s4 : Int, s1 < s2 ∧ s2 < s3 ∧ s3 < s4 ∧
      (∀ x, x ∈ text ↔ x = s1 ∨ x = s2 ∨ x = s3 ∨ x = s4) ∧
      (run tie h text).state.codeLengths = [(s1, 2), (s2, 2), (s3, 2), (s4, 2)] ∧
      (run tie h text).state.canonicalCodes =
        [(s1, ['0', '0']), (s2, ['0', '1']), (s3, ['1', '0']), (s4, ['1', '1'])] ∧
      Node.Full (run tie h text).state.root ∧
      ((run tie h text).state.root.depths 0).length = 4 ∧
      (∀ p ∈ (run tie h text).state.root.depths 0, p.2 = 2) ∧
      ∀ p ∈ (run tie h text).state.frequencies, p.2 < 2 ^ 31 := by
  have hrange := run_frequencies_in_range tie h text hlen hint
  rw [run_state tie h text hlen] at hrange ⊢
  have hne := text_ne_nil_of_length hlen
  obtain ⟨s1, s2, s3, s4, h12, h23, h34, hmem, hcl, hcc⟩ :=
    coded_four_table tie h text hne h4 heq
  obtain ⟨_, _, _, c4, c5, _, _⟩ := coded_spec tie h text hne
  refine ⟨s1, s2, s3, s4, h12, h23, h34, hmem, hcl, hcc, c4 (by omega), ?_, ?_, hrange⟩
  · show ((coded tie h text).root.depths 0).length = 4
    rw [← c5.length_eq, hcl]
    rfl
  · intro p hp
    have hp' : p ∈ (coded tie h text).codeLengths := c5.mem_iff.mpr hp
    rw [hcl] at hp'
    simp only [List.mem_cons, List.mem_singleton, List.not_mem_nil, or_false] at hp'
    rcases hp' with e | e | e | e <;> rw [e]

theorem four_equal_symbols_get_two_bit_codes_witness :
    30 ≤ test_few_symbols.length ∧ test_few_symbols.length < 2 ^ 31 ∧
      test_few_symbols.dedup.length = 4 ∧
      (∀ x ∈ test_few_symbols, ∀ y ∈ test_few_symbols,
        test_few_symbols.count x = test_few_symbols.count y) ∧
      (run (fun _ => 0) Huffman.new test_few_symbols).state.canonicalCodes =
        [(97, ['0', '0']), (98, ['0', '1']), (99, ['1', '0']), (100, ['1', '1'])] ∧
      ∃ s1 s2 s3 s4 : Int, s1 < s2 ∧ s2 < s3 ∧ s3 < s4 ∧
        (∀ x, x ∈ test_few_symbols ↔ x = s1 ∨ x = s2 ∨ x = s3 ∨ x = s4) ∧
        (run (fun _ => 0) Huffman.new test_few_symbols).state.codeLengths =
          [(s1, 2), (s2, 2), (s3, 2), (s4, 2)] ∧
        (run (fun _ => 0) Huffman.new test_few_symbols).state.canonicalCodes =
          [(s1, ['0', '0']), (s2, ['0', '1']), (s3, ['1', '0']), (s4, ['1', '1'])] ∧
        Node.Full (run (fun _ => 0) Huffman.new test_few_symbols).state.root ∧
        ((run (fun _ => 0) Huffman.new test_few_symbols).state.root.depths 0).length = 4 ∧
        (∀ p ∈ (run (fun _ => 0) Huffman.new test_few_symbols).state.root.depths 0,
          p.2 = 2) ∧
        ∀ p ∈ (run (fun _ => 0) Huffman.new test_few_symbols).state.frequencies,
          p.2 < 2 ^ 31 :=
  ⟨by decide, by decide, test_few_symbols_dedup, test_few_symbols_equal,
    by set_option maxRecDepth 1000000 in decide,
    four_equal_symbols_get_two_bit_codes (fun _ => 0) Huffman.new test_few_symbols (by decide)
      (by decide) test_few_symbols_dedup test_few_symbols_equal⟩

/-- C15, the claim as stated fails: the string `test_few_symbols` of `main` has
40 characters, not 41, and the encoded output of `run` on it is 80 bits long,
not 82, whatever the resolution of the ties of the queue and the prior state of
the object. -/
theorem few_symbols_output_is_not_82_bits :
    test_few_symbols.length = 40 ∧
      (run (fun _ => 0) Huffman.new test_few_symbols).state.compressedData.length = 80 ∧
      ∀ (tie : Nat → Nat) (h : Huffman),
        (run tie h test_few_symbols).state.compressedData.length ≠ 82 := by
  refine ⟨test_few_symbols_length, by set_option maxRecDepth 1000000 in decide, ?_⟩
  intro tie h
  rw [run_output_length_two tie h test_few_symbols (by rw [test_few_symbols_length]; omega)
    (coded_four_equal tie h test_few_symbols (by decide) test_few_symbols_dedup
      test_few_symbols_equal), test_few_symbols_length]
  omega

/-- C15, amended: the string `test_few_symbols` of `main` has 40 characters, each
of its four symbols occurs 10 times and receives a canonical code of 2 bits, and
the encoded output of `run` on it is 40 x 2 = 80 bits long, whatever the
resolution of the ties of the queue and the prior state of the object. -/
theorem few_symbols_output_is_80_bits (tie : Nat → Nat) (h : Huffman) :
    test_few_symbols.length = 40 ∧
      (∀ c ∈ test_few_symbols, test_few_symbols.count c = 10) ∧
      (∀ c ∈ test_few_symbols, ∃ code,
        (run tie h test_few_symbols).state.canonicalCodes.get? c = some code ∧
        code.length = 2) ∧
      (run tie h test_few_symbols).state.compressedData.length = 2 * test_few_symbols.length ∧
      (run tie h test_few_symbols).state.compressedData.length = 80 := by
  have hlen : 30 ≤ test_few_symbols.length := by rw [test_few_symbols_length]; omega
  have hall := coded_four_equal tie h test_few_symbols (text_ne_nil_of_length hlen)
    test_few_symbols_dedup test_few_symbols_equal
  have hout := run_output_length_two tie h test_few_symbols hlen hall
  refine ⟨test_few_symbols_length, test_few_symbols_counts, ?_, hout, ?_⟩
  · intro c hc
    exact run_code_of_length tie h test_few_symbols hlen c hc 2 (hall c hc)
  · rw [hout, test_few_symbols_length]

/-- C16: on the string `test_uniform` of `main`, whose 40 characters are all
distinct, `run` assigns to every character one canonical code, of 5 or 6 bits;
the codes of two distinct characters are different (neither is a prefix of the
other), and the canonical table has 40 entries, one for each character:
whatever the resolution of the ties of the queue and the prior state of the
object. -/
theorem uniform_codes_have_five_or_six_bits (tie : Nat → Nat) (h : Huffman) :
    test_uniform.Nodup ∧ test_uniform.length = 40 ∧
      (∀ c ∈ test_uniform, ∃ code,
        (run tie h test_uniform).state.canonicalCodes.get? c = some code ∧
        (code.length = 5 ∨ code.length = 6)) ∧
      (∀ a ∈ test_uniform, ∀ b ∈ test_uniform, a ≠ b → ∃ ca cb,
        (run tie h test_uniform).state.canonicalCodes.get? a = some ca ∧
        (run tie h test_uniform).state.canonicalCodes.get? b = some cb ∧
        ca ≠ cb ∧ Unrelated ca cb) ∧
      (run tie h test_uniform).state.canonicalCodes.length = 40 ∧
      ∀ x, x ∈ (run tie h test_uniform).state.canonicalCodes.map Prod.fst ↔
        x ∈ test_uniform := by
  have hlen : 30 ≤ test_uniform.length := by rw [test_uniform_length]; omega
  have hint : test_uniform.length < 2 ^ 31 := by rw [test_uniform_length]; norm_num
  refine ⟨test_uniform_nodup, test_uniform_length, ?_, ?_, ?_, ?_⟩
  · intro c hc
    rcases coded_uniform tie h c hc with e | e
    · obtain ⟨code, g1, g2⟩ := run_code_of_length tie h test_uniform hlen c hc 5 e
      exact ⟨code, g1, Or.inl g2⟩
    · obtain ⟨code, g1, g2⟩ := run_code_of_length tie h test_uniform hlen c hc 6 e
      exact ⟨code, g1, Or.inr g2⟩
  · intro a ha b hb hab
    exact run_unrelated tie h test_uniform hlen hint a b ha hb hab
  · rw [run_table_length tie h test_uniform hlen, List.dedup_eq_self.mpr test_uniform_nodup,
      test_uniform_length]
  · exact run_keys tie h test_uniform hlen

/-- C17: canonical ordering invariant.  For every text of at least 30
characters (and fewer than `2 ^ 31`, the range of the `int` counters), let the
symbols be listed by (code length ascending, symbol value ascending), as
`generateCanonicalCodes` sorts them, and let `x` come before `y` in that list.
Then both have a canonical code, of their code length; the length of `x` is at
most that of `y`; the first code of the list has value 0; the value of the
code of `y` is at least the value of the code of `x` plus 1, shifted left by
the difference of the lengths, and exactly that when `y` follows `x`
immediately (so exactly one more when the lengths are the same); and the code
of `x` comes strictly before the code of `y` in lexicographic order. -/
theorem canonical_codes_consecutive_and_increasing (tie : Nat → Nat) (h : Huffman)
    (text : Text) (hlen : 30 ≤ text.length) (hint : text.length < 2 ^ 31)
    (pre mid post : List (Nat × Int)) (x y : Nat × Int)
    (hl : sortedSymbols (run tie h text).state.codeLengths = pre ++ x :: (mid ++ y :: post)) :
    (sortedSymbols (run tie h text).state.codeLengths).Sorted pairLE ∧
      (sortedSymbols (run tie h text).state.codeLengths).Perm
        ((run tie h text).state.codeLengths.map (fun p => (p.2, p.1))) ∧
      ∃ cx cy, (run tie h text).state.canonicalCodes.get? x.2 = some cx ∧
        (run tie h text).state.canonicalCodes.get? y.2 = some cy ∧
        cx.length = x.1 ∧ cy.length = y.1 ∧ x.1 ≤ y.1 ∧
        (pre = [] → bitsValue cx = 0) ∧
        (bitsValue cx + 1) * 2 ^ (y.1 - x.1) ≤ bitsValue cy ∧
        (mid = [] → bitsValue cy = (bitsValue cx + 1) * 2 ^ (y.1 - x.1)) ∧
        (mid = [] → x.1 = y.1 → bitsValue cy = bitsValue cx + 1) ∧
        List.Lex (· < ·) cx cy := by
  have hne := text_ne_nil_of_length hlen
  refine ⟨sortedSymbols_sorted _, sortedSymbols_perm _, ?_⟩
  rw [run_codeLengths tie h text hlen] at hl
  rw [run_canonicalCodes tie h text hlen]
  obtain ⟨cx, cy, g1, g2, g3, g4, g5, g6, g7, g8, g9⟩ :=
    canonical_values_ordered (coded tie h text) (coded_keys_nodup tie h text hne)
      (coded_lengths_bound tie h text hne hint) (coded_kraft tie h text hne).1
      pre mid post x y hl
  refine ⟨cx, cy, g1, g2, g3, g4, g5, g6, g7, g8, ?_, g9⟩
  intro e1 e2
  rw [g8 e1, e2, Nat.sub_self, pow_zero, mul_one]

theorem canonical_codes_consecutive_and_increasing_witness :
    30 ≤ test_spaces.length ∧ test_spaces.length < 2 ^ 31 ∧
      sortedSymbols (run (fun _ => 0) Huffman.new test_spaces).state.codeLengths =
        [(3, 32), (3, 101)] ++ (3, 111) :: ([] ++ (4, 97) ::
          [(4, 99), (4, 112), (4, 114), (4, 115), (4, 116), (4, 117), (5, 105), (5, 108),
            (5, 109), (5, 110), (6, 98), (6, 100), (6, 120), (7, 103), (7, 104)]) ∧
      (run (fun _ => 0) Huffman.new test_spaces).state.canonicalCodes.get? 111 =
        some ['0', '1', '0'] ∧
      (run (fun _ => 0) Huffman.new test_spaces).state.canonicalCodes.get? 97 =
        some ['0', '1', '1', '0'] ∧
      ((sortedSymbols (run (fun _ => 0) Huffman.new test_spaces).state.codeLengths).Sorted
          pairLE ∧
        (sortedSymbols (run (fun _ => 0) Huffman.new test_spaces).state.codeLengths).Perm
          ((run (fun _ => 0) Huffman.new test_spaces).state.codeLengths.map
            (fun p => (p.2, p.1))) ∧
        ∃ cx cy,
          (run (fun _ => 0) Huffman.new test_spaces).state.canonicalCodes.get?
            ((3, 111) : Nat × Int).2 = some cx ∧
          (run (fun _ => 0) Huffman.new test_spaces).state.canonicalCodes.get?
            ((4, 97) : Nat × Int).2 = some cy ∧
          cx.length = ((3, 111) : Nat × Int).1 ∧ cy.length = ((4, 97) : Nat × Int).1 ∧
          ((3, 111) : Nat × Int).1 ≤ ((4, 97) : Nat × Int).1 ∧
          (([(3, 32), (3, 101)] : List (Nat × Int)) = [] → bitsValue cx = 0) ∧
          (bitsValue cx + 1) * 2 ^ (((4, 97) : Nat × Int).1 - ((3, 111) : Nat × Int).1) ≤
            bitsValue cy ∧
          (([] : List (Nat × Int)) = [] → bitsValue cy =
            (bitsValue cx + 1) * 2 ^ (((4, 97) : Nat × Int).1 - ((3, 111) : Nat × Int).1)) ∧
          (([] : List (Nat × Int)) = [] → ((3, 111) : Nat × Int).1 = ((4, 97) : Nat × Int).1 →
            bitsValue cy = bitsValue cx + 1) ∧
          List.Lex (· < ·) cx cy) :=
  ⟨by decide, by decide, by set_option maxRecDepth 1000000 in decide,
    by set_option maxRecDepth 1000000 in decide, by set_option maxRecDepth 1000000 in decide,
    canonical_codes_consecutive_and_increasing (fun _ => 0) Huffman.new test_spaces (by decide)
      (by decide) [(3, 32), (3, 101)] []
      [(4, 99), (4, 112), (4, 114), (4, 115), (4, 116), (4, 117), (5, 105), (5, 108),
        (5, 109), (5, 110), (6, 98), (6, 100), (6, 120), (7, 103), (7, 104)]
      (3, 111) (4, 97) (by set_option maxRecDepth 1000000 in decide)⟩

/-- C18: for the tree `buildTree` returns on a non-empty frequency table (a map,
so without repeated key) of an object whose code tables are empty, as `clear`
leaves them, `generateCodes(root, "")` records for every leaf its root-to-leaf
path (`'0'` for a step to the left, `'1'` for a step to the right) as raw code
and the length of that path, which is the depth of the leaf, as code length;
the leaves carry exactly the symbols of the frequency table; every entry of the
table of raw codes is the path of a leaf, so the code length of every symbol is
the length of its raw code; and the canonical code later assigned to the symbol
has that same length. -/
theorem generateCodes_records_paths_and_depths (tie : Nat → Nat) (h : Huffman)
    (hne : h.frequencies ≠ []) (hnd : (h.frequencies.map Prod.fst).Nodup)
    (hcl : h.codeLengths = []) (hhc : h.huffmanCodes = []) :
    (∀ s, s ∈ h.frequencies.map Prod.fst ↔
        s ∈ ((h.buildTree tie).root.paths []).map Prod.fst) ∧
      (∀ p ∈ (h.buildTree tie).root.paths [],
        (treeCoded tie h).huffmanCodes.get? p.1 = some p.2 ∧
        (treeCoded tie h).codeLengths.get? p.1 = some p.2.length ∧
        (p.1, p.2.length) ∈ (h.buildTree tie).root.depths 0 ∧
        ∃ code, (treeCoded tie h).generateCanonicalCodes.canonicalCodes.get? p.1 = some code ∧
          code.length = p.2.length) ∧
      (∀ s code, (treeCoded tie h).huffmanCodes.get? s = some code →
        (s, code) ∈ (h.buildTree tie).root.paths [] ∧
        (treeCoded tie h).codeLengths.get? s = some code.length) := by
  obtain ⟨c1, _, _, _, c5, c6⟩ := treeCoded_root tie h hne
  obtain ⟨_, _, r3, _⟩ := buildTree_root_spec tie h hne
  obtain ⟨_, _, _, _, _, s6, s7⟩ := treeCoded_spec tie h hne hnd hcl hhc
  have hndp : (((h.buildTree tie).root.paths []).map Prod.fst).Nodup := by
    rw [Node.paths_fst]
    exact ((r3.map Prod.fst).nodup_iff).mpr hnd
  have hdep : (h.buildTree tie).root.depths 0 =
      ((h.buildTree tie).root.paths []).map (fun p => (p.1, p.2.length)) := by
    have := Node.paths_length (h.buildTree tie).root []
    simpa using this.symm
  have hndd : (((h.buildTree tie).root.depths 0).map Prod.fst).Nodup := by
    rw [Node.depths_fst]
    exact ((r3.map Prod.fst).nodup_iff).mpr hnd
  have main : ∀ p ∈ (h.buildTree tie).root.paths [],
      (treeCoded tie h).huffmanCodes.get? p.1 = some p.2 ∧
      (treeCoded tie h).codeLengths.get? p.1 = some p.2.length ∧
      (p.1, p.2.length) ∈ (h.buildTree tie).root.depths 0 ∧
      ∃ code, (treeCoded tie h).generateCanonicalCodes.canonicalCodes.get? p.1 = some code ∧
        code.length = p.2.length := by
    intro p hp
    have hmemd : (p.1, p.2.length) ∈ (h.buildTree tie).root.depths 0 := by
      rw [hdep]
      exact List.mem_map.mpr ⟨p, hp, rfl⟩
    have g1 : (treeCoded tie h).huffmanCodes.get? p.1 = some p.2 := by
      rw [c6, c1]
      exact CharMap.foldl_set_get? _ hndp _ hp
    have g2 : (treeCoded tie h).codeLengths.get? p.1 = some p.2.length := by
      rw [c5, c1]
      exact CharMap.foldl_set_get? _ hndd _ hmemd
    refine ⟨g1, g2, hmemd, ?_⟩
    exact canonical_length (treeCoded tie h) s6.nodup p.1 p.2.length (CharMap.mem_of_get? _ g2)
  refine ⟨?_, main, ?_⟩
  · intro s
    rw [Node.paths_fst, (r3.map Prod.fst).mem_iff]
  · intro s code hs
    have hmem : (s, code) ∈ (h.buildTree tie).root.paths [] := by
      rw [← c1]
      exact s7.mem_iff.mp (CharMap.mem_of_get? _ hs)
    exact ⟨hmem, (main (s, code) hmem).2.1⟩

theorem generateCodes_records_paths_and_depths_witness :
    ({ Huffman.new with frequencies := [(97, 3), (98, 5), (99, 1)] } : Huffman).frequencies ≠ [] ∧
      (({ Huffman.new with frequencies := [(97, 3), (98, 5), (99, 1)] } :
        Huffman).frequencies.map Prod.fst).Nodup ∧
      ({ Huffman.new with frequencies := [(97, 3), (98, 5), (99, 1)] } :
        Huffman).codeLengths = [] ∧
      ({ Huffman.new with frequencies := [(97, 3), (98, 5), (99, 1)] } :
        Huffman).huffmanCodes = [] ∧
      ((97 : Int), ['0', '1']) ∈ (Huffman.buildTree (fun _ => 0)
        { Huffman.new with frequencies := [(97, 3), (98, 5), (99, 1)] }).root.paths [] ∧
      ((treeCoded (fun _ => 0)
          { Huffman.new with frequencies := [(97, 3), (98, 5), (99, 1)] }).huffmanCodes.get? 97 =
          some ['0', '1'] ∧
        (treeCoded (fun _ => 0)
          { Huffman.new with frequencies := [(97, 3), (98, 5), (99, 1)] }).codeLengths.get? 97 =
          some 2 ∧
        ((97 : Int), 2) ∈ (Huffman.buildTree (fun _ => 0)
          { Huffman.new with frequencies := [(97, 3), (98, 5), (99, 1)] }).root.depths 0 ∧
        ∃ code, (treeCoded (fun _ => 0)
            { Huffman.new with frequencies :=
              [(97, 3), (98, 5), (99, 1)] }).generateCanonicalCodes.canonicalCodes.get? 97 =
            some code ∧
          code.length = 2) :=
  ⟨by decide, by decide, rfl, rfl, by decide,
    (generateCodes_records_paths_and_depths (fun _ => 0)
      { Huffman.new with frequencies := [(97, 3), (98, 5), (99, 1)] } (by decide) (by decide)
      rfl rfl).2.1 (97, ['0', '1']) (by decide)⟩

/-- C19: after `run` on a text of at least 30 characters, the key sets of the
frequency table, of the Huffman code table, of the code-length table and of
the canonical code table are all exactly the set of the characters of the
text, and every canonical code is non-empty; so the lookups of `compressText`
find every character of the text, and the canonical table after `compressText`
is the one `generateCanonicalCodes` left, without any empty code. -/
theorem tables_cover_exactly_the_text (tie : Nat → Nat) (h : Huffman) (text : Text)
    (hlen : 30 ≤ text.length) :
    (∀ x, x ∈ (run tie h text).state.frequencies.map Prod.fst ↔ x ∈ text) ∧
      (∀ x, x ∈ (run tie h text).state.huffmanCodes.map Prod.fst ↔ x ∈ text) ∧
      (∀ x, x ∈ (run tie h text).state.codeLengths.map Prod.fst ↔ x ∈ text) ∧
      (∀ x, x ∈ (run tie h text).state.canonicalCodes.map Prod.fst ↔ x ∈ text) ∧
      (∀ p ∈ (run tie h text).state.canonicalCodes, p.2 ≠ []) ∧
      (∀ c ∈ text, ∃ code, (canonicalized tie h text).canonicalCodes.get? c = some code ∧
        code ≠ []) ∧
      (run tie h text).state.canonicalCodes = (canonicalized tie h text).canonicalCodes := by
  rw [run_state tie h text hlen]
  have hne := text_ne_nil_of_length hlen
  refine ⟨?_, ?_, ?_, ?_, ?_, ?_, rfl⟩
  · intro x
    show x ∈ (coded tie h text).frequencies.map Prod.fst ↔ x ∈ text
    rw [(coded_root tie h text hne).2.1]
    exact (frequencies_spec text).2.1 x
  · exact coded_huffman_keys tie h text hne
  · exact coded_keys tie h text hne
  · exact canonicalized_keys tie h text hne
  · exact canonicalized_nonempty_codes tie h text hne
  · intro c hc
    obtain ⟨len, code, _, a2, a3, a4⟩ := canonicalized_entry tie h text hne c hc
    refine ⟨code, a2, ?_⟩
    intro h0
    rw [h0] at a3
    simp at a3
    omega

theorem tables_cover_exactly_the_text_witness :
    30 ≤ test_few_symbols.length ∧
      ((∀ x, x ∈ (run (fun _ => 0) Huffman.new test_few_symbols).state.frequencies.map Prod.fst ↔
          x ∈ test_few_symbols) ∧
      (∀ x, x ∈ (run (fun _ => 0) Huffman.new test_few_symbols).state.huffmanCodes.map Prod.fst ↔
          x ∈ test_few_symbols) ∧
      (∀ x, x ∈ (run (fun _ => 0) Huffman.new test_few_symbols).state.codeLengths.map Prod.fst ↔
          x ∈ test_few_symbols) ∧
      (∀ x, x ∈ (run (fun _ => 0) Huffman.new test_few_symbols).state.canonicalCodes.map
          Prod.fst ↔ x ∈ test_few_symbols) ∧
      (∀ p ∈ (run (fun _ => 0) Huffman.new test_few_symbols).state.canonicalCodes, p.2 ≠ []) ∧
      (∀ c ∈ test_few_symbols, ∃ code,
        (canonicalized (fun _ => 0) Huffman.new test_few_symbols).canonicalCodes.get? c =
          some code ∧ code ≠ []) ∧
      (run (fun _ => 0) Huffman.new test_few_symbols).state.canonicalCodes =
        (canonicalized (fun _ => 0) Huffman.new test_few_symbols).canonicalCodes) :=
  ⟨by decide, tables_cover_exactly_the_text (fun _ => 0) Huffman.new test_few_symbols
    (by decide)⟩

/-- C20: code lengths are monotone in frequency.  For every text of at least 30
characters, shorter than `2 ^ 31` (the range of the `int` counters, so that the
counts compared are those the program holds), and any two characters `a` and
`b` of the text, if `a` occurs strictly more often than `b`, then the code
length of `a` after `run` is at most that of `b`, and so is the length of its
canonical code. -/
theorem code_lengths_monotone_in_frequency (tie : Nat → Nat) (h : Huffman) (text : Text)
    (hlen : 30 ≤ text.length) (hint : text.length < 2 ^ 31) (a b : Int) (ha : a ∈ text)
    (hb : b ∈ text) (hcount : text.count b < text.count a) :
    (a, text.count a) ∈ (run tie h text).state.frequencies ∧
    (b, text.count b) ∈ (run tie h text).state.frequencies ∧
    text.count a < 2 ^ 31 ∧
    ∃ (la lb : Nat) (ca cb : Bits),
      (run tie h text).state.codeLengths.get? a = some la ∧
      (run tie h text).state.codeLengths.get? b = some lb ∧
      (run tie h text).state.canonicalCodes.get? a = some ca ∧
      (run tie h text).state.canonicalCodes.get? b = some cb ∧
      ca.length = la ∧ cb.length = lb ∧ la ≤ lb ∧ ca.length ≤ cb.length := by
  refine ⟨?_, ?_, count_in_range text hint a, ?_⟩
  · rw [run_frequencies tie h text hlen]
    exact ((frequencies_spec text).2.2.1 a _).mpr ⟨ha, rfl⟩
  · rw [run_frequencies tie h text hlen]
    exact ((frequencies_spec text).2.2.1 b _).mpr ⟨hb, rfl⟩
  rw [run_state tie h text hlen]
  have hne := text_ne_nil_of_length hlen
  obtain ⟨la, ca, a1, a2, a3, _⟩ := canonicalized_entry tie h text hne a ha
  obtain ⟨lb, cb, b1, b2, b3, _⟩ := canonicalized_entry tie h text hne b hb
  have hm := coded_monotone tie h text hne a b ha hb hcount
  have a1' : (coded tie h text).codeLengths.get? a = some la := a1
  have b1' : (coded tie h text).codeLengths.get? b = some lb := b1
  rw [a1', b1'] at hm
  have hm' : la ≤ lb := hm
  exact ⟨la, lb, ca, cb, a1, b1, a2, b2, a3, b3, hm', by rw [a3, b3]; exact hm'⟩

theorem code_lengths_monotone_in_frequency_witness :
    30 ≤ test_spaces.length ∧ test_spaces.length < 2 ^ 31 ∧ (32 : Int) ∈ test_spaces ∧
      (120 : Int) ∈ test_spaces ∧ test_spaces.count 120 < test_spaces.count 32 ∧
      ((32 : Int), test_spaces.count 32) ∈
        (run (fun _ => 0) Huffman.new test_spaces).state.frequencies ∧
      ((120 : Int), test_spaces.count 120) ∈
        (run (fun _ => 0) Huffman.new test_spaces).state.frequencies ∧
      test_spaces.count 32 < 2 ^ 31 ∧
      ∃ (la lb : Nat) (ca cb : Bits),
        (run (fun _ => 0) Huffman.new test_spaces).state.codeLengths.get? 32 = some la ∧
        (run (fun _ => 0) Huffman.new test_spaces).state.codeLengths.get? 120 = some lb ∧
        (run (fun _ => 0) Huffman.new test_spaces).state.canonicalCodes.get? 32 = some ca ∧
        (run (fun _ => 0) Huffman.new test_spaces).state.canonicalCodes.get? 120 = some cb ∧
        ca.length = la ∧ cb.length = lb ∧ la ≤ lb ∧ ca.length ≤ cb.length :=
  ⟨by decide, by decide, by decide, by decide, by decide,
    code_lengths_monotone_in_frequency (fun _ => 0) Huffman.new test_spaces (by decide)
      (by decide) 32 120 (by decide) (by decide) (by decide)⟩

end HuffmanCanonical
